import Mathlib

/-! Round-robin scheduler simulation (`scheduler.c`).

Shallow embedding of the scheduling engine of `src/scheduler.c`: the process
table, the circular ready queue (`push`, `pop`, `queue_empty`), the tick
handler `scheduler`, `boot_system`, and the initial dispatch and the wait
loop of `main`.

Modelling conventions.
* C `int` values that hold times and pids are `Int`; the queue indices
  `q_front`, `q_back`, `q_size` never go below zero in the source (they are
  only incremented, reduced modulo `Q_CAPACITY`, or decremented after a
  non-zero test), so they are `Nat`.
* The tick handler is embedded twice.  `scheduler` computes in exact
  integers.  `scheduler_int32` is the same text with the result of every
  `int` addition, subtraction and increment reduced to 32 bits (`wrap_int`),
  which is what a signed overflow yields on a two's-complement target.  In
  a run of a well-formed configuration the exact clock stays between 0 and
  the sum of the bursts (`run_clock_bounds`); when that sum is at most
  `INT_MAX` (`Config.FitsInt`) no computation leaves the range of an `int`
  and the two runs are equal (`run_int32_eq_run`).  The statements about
  `clock_tick` and the times derived from it (`finished_at`, `turn_time`,
  `wait_time`, `first_run`, `resp_time`) are made on `run_int32`.
* The three `#define` constants and the `bursts[]` table of `boot_system` are
  the fields of `Config`; `shipped` is the configuration of the source.
* The `label` field of a PCB is only printed and is left out; messages name a
  process by its `id` instead.
* Every `printf` of the engine appends one `Event` to `stdout`, stamped with
  the value of `clock_tick` at the time of the call.
* An array access outside `proc_table` or `run_queue` (undefined behaviour in
  C) reads a zeroed cell and drops the write; `run_indices_in_bounds` shows
  that no run of a well-formed configuration makes such an access.
-/

namespace AOL

/-- The `ProcState` enumeration. -/
inductive ProcState where
  | READY
  | RUNNING
  | FINISHED
deriving DecidableEq

/-- The `PCB` record (without `label`). -/
structure PCB where
  id : Int
  burst : Int
  time_left : Int
  status : ProcState
  arrival : Int
  first_run : Int
  finished_at : Int
  wait_time : Int
  turn_time : Int
  resp_time : Int
deriving DecidableEq

/-- A zero-initialised PCB, the content of the global `proc_table` at start. -/
def PCB.zero : PCB :=
  { id := 0, burst := 0, time_left := 0, status := ProcState.READY, arrival := 0,
    first_run := 0, finished_at := 0, wait_time := 0, turn_time := 0, resp_time := 0 }

/-- The messages printed by the engine, one constructor per `printf`. -/
inductive Msg where
  /-- Line 49, "Ready queue overflow!". -/
  | overflow
  /-- Line 82, "Scheduler interrupt on PID ..."; `exec` is the amount charged
  on lines 73-80 (it is not printed by the source). -/
  | interrupt (pid : Int) (exec : Int)
  /-- Line 92, "... completed.". -/
  | completed (pid : Int)
  /-- Line 97, "... quantum expired, requeued.". -/
  | requeued (pid : Int)
  /-- Line 114, "Switching to ...". -/
  | switching (pid : Int)
  /-- Line 116, "CPU idle, waiting.". -/
  | idle
  /-- Line 126, "Booting OS". -/
  | booting
  /-- Line 138, "Process ... | Burst ... | READY". -/
  | loaded (pid : Int) (burst : Int)
  /-- Line 190, "CPU starting with ...". -/
  | starting (pid : Int)
deriving DecidableEq

/-- One line of output together with the value of `clock_tick` when it was
printed. -/
structure Event where
  clock : Int
  msg : Msg
deriving DecidableEq

/-- The compile-time parameters of the program: the `bursts[]` table of
`boot_system` (its length is `PROC_COUNT`), `SLICE` and `Q_CAPACITY`. -/
structure Config where
  bursts : List Int
  SLICE : Int
  Q_CAPACITY : Nat
deriving DecidableEq

/-- The constant `PROC_COUNT`: the number of entries of `bursts[]`. -/
def Config.PROC_COUNT (c : Config) : Nat := c.bursts.length

/-- The configuration of the source: bursts 8,4,10,6,12, `SLICE = 3`,
`Q_CAPACITY = 20`. -/
def shipped : Config := { bursts := [8, 4, 10, 6, 12], SLICE := 3, Q_CAPACITY := 20 }

/-- The global variables of the program, with `stdout` for the output. -/
structure State where
  proc_table : List PCB
  run_queue : List Int
  q_front : Nat
  q_back : Nat
  q_size : Nat
  active_pid : Int
  clock_tick : Int
  done_total : Int
  stdout : List Event
deriving DecidableEq

/-- The globals as initialised at program start (lines 35-42). -/
def State.init (c : Config) : State :=
  { proc_table := List.replicate c.PROC_COUNT PCB.zero,
    run_queue := List.replicate c.Q_CAPACITY 0,
    q_front := 0, q_back := 0, q_size := 0,
    active_pid := -1, clock_tick := 0, done_total := 0, stdout := [] }

/-- The read `proc_table[pid]`. -/
def getPCB (t : List PCB) (pid : Int) : PCB :=
  match pid with
  | Int.ofNat i => t.getD i PCB.zero
  | Int.negSucc _ => PCB.zero

/-- The write `proc_table[pid] = p`. -/
def setPCB (t : List PCB) (pid : Int) (p : PCB) : List PCB :=
  match pid with
  | Int.ofNat i => t.set i p
  | Int.negSucc _ => t

/-- The call `printf(...)`: append a message stamped with `clock_tick`. -/
def State.print (s : State) (m : Msg) : State :=
  { s with stdout := s.stdout ++ [{ clock := s.clock_tick, msg := m }] }

/-- The function `push` (lines 47-55). -/
def push (c : Config) (s : State) (pid : Int) : State :=
  if s.q_size = c.Q_CAPACITY then
    s.print Msg.overflow
  else
    { s with
      run_queue := s.run_queue.set s.q_back pid,
      q_back := (s.q_back + 1) % c.Q_CAPACITY,
      q_size := s.q_size + 1 }

/-- The function `pop` (lines 57-63): the returned pid and the new globals. -/
def pop (c : Config) (s : State) : Int × State :=
  if s.q_size = 0 then
    (-1, s)
  else
    (s.run_queue.getD s.q_front 0,
     { s with q_front := (s.q_front + 1) % c.Q_CAPACITY, q_size := s.q_size - 1 })

/-- The function `queue_empty` (lines 65-67). -/
def queue_empty (s : State) : Bool := s.q_size == 0

/-- The amount `exec` computed on lines 73-77. -/
def exec_amount (c : Config) (p : PCB) : Int :=
  if p.time_left < c.SLICE then p.time_left else c.SLICE

/-- First half of `scheduler` (lines 71-99): charge the active process, then
complete it or requeue it. -/
def scheduler_charge (c : Config) (s : State) : State :=
  if s.active_pid ≠ -1 then
    let p := getPCB s.proc_table s.active_pid
    let exec := exec_amount c p
    let p := { p with time_left := p.time_left - exec }
    let s := { s with clock_tick := s.clock_tick + exec }
    let s := s.print (Msg.interrupt p.id exec)
    if p.time_left ≤ 0 then
      let p := { p with status := ProcState.FINISHED }
      let p := { p with finished_at := s.clock_tick }
      let p := { p with turn_time := p.finished_at - p.arrival }
      let p := { p with wait_time := p.turn_time - p.burst }
      let s := s.print (Msg.completed p.id)
      { s with
        proc_table := setPCB s.proc_table s.active_pid p,
        done_total := s.done_total + 1 }
    else
      let p := { p with status := ProcState.READY }
      let s := { s with proc_table := setPCB s.proc_table s.active_pid p }
      let s := push c s s.active_pid
      s.print (Msg.requeued p.id)
  else
    s

/-- Second half of `scheduler` (lines 101-118): stop when every process is
done, otherwise dispatch the head of the ready queue or go idle. -/
def scheduler_dispatch (c : Config) (s : State) : State :=
  if s.done_total = c.PROC_COUNT then
    s
  else if ¬ queue_empty s then
    let r := pop c s
    let s := { r.2 with active_pid := r.1 }
    let np := getPCB s.proc_table s.active_pid
    let np := { np with status := ProcState.RUNNING }
    let np :=
      if np.first_run = (-1 : Int) then
        let np := { np with first_run := s.clock_tick }
        { np with resp_time := np.first_run - np.arrival }
      else np
    let s := { s with proc_table := setPCB s.proc_table s.active_pid np }
    s.print (Msg.switching np.id)
  else
    let s := s.print Msg.idle
    { s with active_pid := -1 }

/-- The signal handler `scheduler` (lines 70-119), one tick. -/
def scheduler (c : Config) (s : State) : State :=
  scheduler_dispatch c (scheduler_charge c s)

/-- One iteration of the loop of `boot_system` (lines 128-139). -/
def boot_step (c : Config) (s : State) (i : Nat) : State :=
  let b := c.bursts.getD i 0
  let p := getPCB s.proc_table i
  let p := { p with id := i }
  let p := { p with burst := b }
  let p := { p with time_left := b }
  let p := { p with status := ProcState.READY }
  let p := { p with arrival := 0 }
  let p := { p with first_run := -1 }
  let s := { s with proc_table := setPCB s.proc_table i p }
  let s := push c s i
  s.print (Msg.loaded p.id b)

/-- The function `boot_system` (lines 122-142). -/
def boot_system (c : Config) (s : State) : State :=
  (List.range c.PROC_COUNT).foldl (boot_step c) (s.print Msg.booting)

/-- The initial dispatch of `main` (lines 184-191). -/
def main_dispatch (c : Config) (s : State) : State :=
  if ¬ queue_empty s then
    let r := pop c s
    let s := { r.2 with active_pid := r.1 }
    let p := getPCB s.proc_table s.active_pid
    let p := { p with status := ProcState.RUNNING }
    let p := { p with first_run := 0 }
    let p := { p with resp_time := 0 }
    let s := { s with proc_table := setPCB s.proc_table s.active_pid p }
    s.print (Msg.starting p.id)
  else
    s

/-- The boot state: the globals after `boot_system` and the initial dispatch
of `main`, before the first timer tick. -/
def boot (c : Config) : State :=
  main_dispatch c (boot_system c (State.init c))

/-- The state after `n` timer ticks from the boot state. -/
def run (c : Config) : Nat → State
  | 0 => boot c
  | n + 1 => scheduler c (run c n)

/-- The PCB of process `i` in a state. -/
def State.pcb (s : State) (i : Nat) : PCB := getPCB s.proc_table i

/-- The content of the ready queue, head first: the `n` entries of `rq`
starting at index `front`, wrapping around at `cap`. -/
def queue_from (rq : List Int) (cap : Nat) : Nat → Nat → List Int
  | _, 0 => []
  | front, n + 1 => rq.getD front 0 :: queue_from rq cap ((front + 1) % cap) n

/-- The ready queue of a state: the `q_size` entries of `run_queue` starting
at `q_front`. -/
def ready_queue (c : Config) (s : State) : List Int :=
  queue_from s.run_queue c.Q_CAPACITY s.q_front s.q_size

/-! ## Observations and invariants -/

/-- Well-formed configurations: every burst is positive, the quantum is
positive and the ready queue can hold the whole population. -/
def Config.WF (c : Config) : Prop :=
  (∀ b ∈ c.bursts, 0 < b) ∧ 0 < c.SLICE ∧ c.PROC_COUNT ≤ c.Q_CAPACITY

instance (c : Config) : Decidable c.WF := by
  unfold Config.WF
  infer_instance

/-- The exec amounts charged to `pid`, oldest first, as recorded by the
interrupt messages of the output. -/
def charges (out : List Event) (pid : Int) : List Int :=
  out.filterMap fun e =>
    match e.msg with
    | Msg.interrupt q x => if q = pid then some x else none
    | _ => none

/-- The number of PCBs of the table whose status is `FINISHED`. -/
def finished_count (s : State) : Nat :=
  s.proc_table.countP fun p => decide (p.status = ProcState.FINISHED)

/-- The number of PCBs of the table whose status is `RUNNING`. -/
def running_count (s : State) : Nat :=
  s.proc_table.countP fun p => decide (p.status = ProcState.RUNNING)

/-- The total time charged so far: the sum over the table of
`burst - time_left`. -/
def charged_total (s : State) : Int :=
  (s.proc_table.map fun p => p.burst - p.time_left).sum

/-- What holds of the PCB `p` of process `i` at clock value `clock`. -/
structure PcbInv (c : Config) (clock : Int) (i : Nat) (p : PCB) : Prop where
  id_eq : p.id = i
  burst_eq : p.burst = c.bursts.getD i 0
  arrival_eq : p.arrival = 0
  left_nonneg : 0 ≤ p.time_left
  left_le : p.time_left ≤ p.burst
  fin_iff : p.status = ProcState.FINISHED ↔ p.time_left = 0
  fin_metrics : p.status = ProcState.FINISHED →
    p.turn_time = p.finished_at - p.arrival ∧ p.wait_time = p.turn_time - p.burst ∧
      p.finished_at ≤ clock
  first_unset : p.first_run = -1 → p.status = ProcState.READY ∧ p.time_left = p.burst
  first_set : p.first_run ≠ -1 →
    0 ≤ p.first_run ∧ p.resp_time = p.first_run - p.arrival ∧ p.first_run ≤ clock

/-- The part of the invariant that holds both between ticks and between the
two halves of a tick. -/
structure Base (c : Config) (s : State) : Prop where
  table_len : s.proc_table.length = c.PROC_COUNT
  queue_len : s.run_queue.length = c.Q_CAPACITY
  front_lt : 0 < c.Q_CAPACITY → s.q_front < c.Q_CAPACITY
  back_eq : s.q_back = (s.q_front + s.q_size) % c.Q_CAPACITY
  pcbs : ∀ i, i < c.PROC_COUNT → PcbInv c s.clock_tick i (s.pcb i)
  queue_nodup : (ready_queue c s).Nodup
  queue_mem : ∀ x, x ∈ ready_queue c s ↔
    ∃ i, i < c.PROC_COUNT ∧ x = (i : Int) ∧ (s.pcb i).status = ProcState.READY
  clock_eq : s.clock_tick = charged_total s
  charges_sum : ∀ i, i < c.PROC_COUNT →
    (charges s.stdout i).sum = (s.pcb i).burst - (s.pcb i).time_left
  clock_nonneg : 0 ≤ s.clock_tick
  no_overflow : ∀ e, e ∈ s.stdout → e.msg ≠ Msg.overflow

/-- Between ticks, a process is on the CPU: `active_pid` is the only
`RUNNING` process and `done_total` counts the finished ones. -/
def Busy (c : Config) (s : State) : Prop :=
  ∃ a, a < c.PROC_COUNT ∧ s.active_pid = (a : Int) ∧
    (s.pcb a).status = ProcState.RUNNING ∧ s.done_total = (finished_count s : Int) ∧
    ∀ i, i < c.PROC_COUNT → (s.pcb i).status = ProcState.RUNNING → i = a

/-- Between ticks, right after the tick that finished the last process:
`active_pid` still names that process. -/
def Terminal (c : Config) (s : State) : Prop :=
  ∃ a, a < c.PROC_COUNT ∧ s.active_pid = (a : Int) ∧
    (s.pcb a).finished_at = s.clock_tick ∧ s.done_total = (c.PROC_COUNT : Int) ∧
    ∀ i, i < c.PROC_COUNT → (s.pcb i).status = ProcState.FINISHED

/-- Between ticks, no process is active and every process is finished: the
state after a tick that came after the terminal one (or an empty
population). -/
def Stopped (c : Config) (s : State) : Prop :=
  s.active_pid = -1 ∧
    (s.done_total = (c.PROC_COUNT : Int) + 1 ∨ (c.PROC_COUNT = 0 ∧ s.done_total = 0)) ∧
    ∀ i, i < c.PROC_COUNT → (s.pcb i).status = ProcState.FINISHED

/-- The invariant of the states between ticks. -/
def Inv (c : Config) (s : State) : Prop :=
  Base c s ∧ (Busy c s ∨ Terminal c s ∨ Stopped c s)

/-- What holds between the two halves of a tick, after the charge: no
process is `RUNNING`. -/
def Between (c : Config) (s : State) : Prop :=
  (∀ i, i < c.PROC_COUNT → (s.pcb i).status ≠ ProcState.RUNNING) ∧
  ((s.done_total = (finished_count s : Int) ∧
      ∃ a, a < c.PROC_COUNT ∧ s.active_pid = (a : Int) ∧
        ((s.pcb a).status = ProcState.FINISHED → (s.pcb a).finished_at = s.clock_tick)) ∨
    (s.done_total = (c.PROC_COUNT : Int) + 1 ∧
      ∀ i, i < c.PROC_COUNT → (s.pcb i).status = ProcState.FINISHED) ∨
    Stopped c s)


/-- The state of `boot_system` after `k` iterations of its loop. -/
def boot_loop (c : Config) (k : Nat) : State :=
  (List.range k).foldl (boot_step c) ((State.init c).print Msg.booting)

/-- What holds after `k` iterations of the loop of `boot_system`. -/
structure BootInv (c : Config) (k : Nat) (s : State) : Prop where
  table_len : s.proc_table.length = c.PROC_COUNT
  queue_len : s.run_queue.length = c.Q_CAPACITY
  front_eq : s.q_front = 0
  size_eq : s.q_size = k
  back_eq : s.q_back = k % c.Q_CAPACITY
  active_eq : s.active_pid = -1
  clock_eq : s.clock_tick = 0
  done_eq : s.done_total = 0
  pcbs : ∀ i, i < k →
    (s.pcb i).id = i ∧ (s.pcb i).burst = c.bursts.getD i 0 ∧
    (s.pcb i).time_left = c.bursts.getD i 0 ∧ (s.pcb i).status = ProcState.READY ∧
    (s.pcb i).arrival = 0 ∧ (s.pcb i).first_run = -1
  queue_eq : ready_queue c s = (List.range k).map fun i : Nat => (i : Int)
  charges_nil : ∀ pid : Int, charges s.stdout pid = []
  no_overflow : ∀ e, e ∈ s.stdout → e.msg ≠ Msg.overflow

/-- The values of `clock_tick` at which message `m` was printed, oldest
first. -/
def stamps (out : List Event) (m : Msg) : List Int :=
  (out.filter fun e => decide (e.msg = m)).map Event.clock

/-- The shipped population with a ready queue of capacity 4, one less than
the population size. -/
def cramped : Config := { bursts := [8, 4, 10, 6, 12], SLICE := 3, Q_CAPACITY := 4 }

/-- The calls a client makes on the ready queue. -/
inductive QueueOp where
  | push (pid : Int)
  | pop
deriving DecidableEq

/-- A sequence of `push` and `pop` calls on the globals: the final globals and
the values returned by the `pop` calls, in order. -/
def queue_calls (c : Config) : State → List QueueOp → State × List Int
  | s, [] => (s, [])
  | s, QueueOp.push pid :: ops => queue_calls c (push c s pid) ops
  | s, QueueOp.pop :: ops =>
    ((queue_calls c (pop c s).2 ops).1, (pop c s).1 :: (queue_calls c (pop c s).2 ops).2)

/-- Specification model of the Ready Queue (spec section 4.1), a list with
the head first.  `enqueue(pid)` appends to the tail and fails, here `none`,
when the queue is at capacity. -/
def spec_enqueue (cap : Nat) (l : List Int) (pid : Int) : Option (List Int) :=
  if l.length < cap then some (l ++ [pid]) else none

/-- Specification model: `dequeue()` removes and returns the head, or
returns the empty mark, here `none`, when there is no element. -/
def spec_dequeue (l : List Int) : Option Int × List Int :=
  match l with
  | [] => (none, [])
  | x :: t => (some x, t)

/-- Specification model: `is_empty()`. -/
def spec_is_empty (l : List Int) : Bool := l.isEmpty

/-- Specification model: a sequence of calls on the list model.  A failed
`enqueue` leaves the list as it is. -/
def spec_calls (cap : Nat) : List Int → List QueueOp → List Int × List (Option Int)
  | l, [] => (l, [])
  | l, QueueOp.push pid :: ops => spec_calls cap ((spec_enqueue cap l pid).getD l) ops
  | l, QueueOp.pop :: ops =>
    ((spec_calls cap (spec_dequeue l).2 ops).1,
      (spec_dequeue l).1 :: (spec_calls cap (spec_dequeue l).2 ops).2)

/-- The abstraction relation between the circular buffer and the list
model. -/
def QueueRel (c : Config) (s : State) (l : List Int) : Prop :=
  s.run_queue.length = c.Q_CAPACITY ∧
  (0 < c.Q_CAPACITY → s.q_front < c.Q_CAPACITY) ∧
  s.q_back = (s.q_front + s.q_size) % c.Q_CAPACITY ∧
  s.q_size ≤ c.Q_CAPACITY ∧
  ready_queue c s = l

/-- The pids dispatched so far, oldest first, as recorded by the messages of
the initial dispatch of `main` and of the dispatches of `scheduler`. -/
def dispatched (out : List Event) : List Int :=
  out.filterMap fun e =>
    match e.msg with
    | Msg.starting pid => some pid
    | Msg.switching pid => some pid
    | _ => none

/-- The shipped population with a quantum of 4, in which pid 1 (burst 4) fits
in one quantum. -/
def quantum4 : Config := { bursts := [8, 4, 10, 6, 12], SLICE := 4, Q_CAPACITY := 20 }

/-- The number of quanta a demand of `b` units takes: `b / SLICE` rounded
up. -/
def quanta (c : Config) (b : Int) : Nat :=
  (b.toNat + c.SLICE.toNat - 1) / c.SLICE.toNat

/-- The sum over all processes of the number of quanta of their burst. -/
def total_ticks (c : Config) : Nat :=
  (c.bursts.map (quanta c)).sum

/-- The number of quanta still needed by the processes of the table. -/
def remaining_ticks (c : Config) (s : State) : Nat :=
  (s.proc_table.map fun p => quanta c p.time_left).sum

/-- The wait loop of `main` (lines 195-197), one tick per `pause()`, run for
at most `fuel + 1` tests of its condition: the globals at loop exit, or
`none` when the fuel does not suffice. -/
def main_wait (c : Config) : Nat → State → Option State
  | 0, s => if s.done_total < (c.PROC_COUNT : Int) then none else some s
  | fuel + 1, s =>
    if s.done_total < (c.PROC_COUNT : Int) then main_wait c fuel (scheduler c s) else some s

/-- The engine instantiated for one process whose burst equals the quantum
`q`, with a ready queue of capacity `cap`. -/
def solo (q : Int) (cap : Nat) : Config := { bursts := [q], SLICE := q, Q_CAPACITY := cap }

/-! ## The tick handler in 32-bit `int` arithmetic -/

/-- The largest value of a C `int` (32 bits). -/
def INT_MAX : Int := 2147483647

/-- The value an `int` holds after a computation whose exact result is `x`:
`x` reduced modulo 2^32 into the range -2^31 .. 2^31 - 1. -/
def wrap_int (x : Int) : Int := (x + 2147483648) % 4294967296 - 2147483648

/-- First half of `scheduler` (lines 71-99) with every `int` result reduced
to 32 bits: the same text as `scheduler_charge`, with `wrap_int` around each
subtraction, addition and increment. -/
def scheduler_charge_int32 (c : Config) (s : State) : State :=
  if s.active_pid ≠ -1 then
    let p := getPCB s.proc_table s.active_pid
    let exec := exec_amount c p
    let p := { p with time_left := wrap_int (p.time_left - exec) }
    let s := { s with clock_tick := wrap_int (s.clock_tick + exec) }
    let s := s.print (Msg.interrupt p.id exec)
    if p.time_left ≤ 0 then
      let p := { p with status := ProcState.FINISHED }
      let p := { p with finished_at := s.clock_tick }
      let p := { p with turn_time := wrap_int (p.finished_at - p.arrival) }
      let p := { p with wait_time := wrap_int (p.turn_time - p.burst) }
      let s := s.print (Msg.completed p.id)
      { s with
        proc_table := setPCB s.proc_table s.active_pid p,
        done_total := wrap_int (s.done_total + 1) }
    else
      let p := { p with status := ProcState.READY }
      let s := { s with proc_table := setPCB s.proc_table s.active_pid p }
      let s := push c s s.active_pid
      s.print (Msg.requeued p.id)
  else
    s

/-- Second half of `scheduler` (lines 101-118) with every `int` result
reduced to 32 bits. -/
def scheduler_dispatch_int32 (c : Config) (s : State) : State :=
  if s.done_total = c.PROC_COUNT then
    s
  else if ¬ queue_empty s then
    let r := pop c s
    let s := { r.2 with active_pid := r.1 }
    let np := getPCB s.proc_table s.active_pid
    let np := { np with status := ProcState.RUNNING }
    let np :=
      if np.first_run = (-1 : Int) then
        let np := { np with first_run := s.clock_tick }
        { np with resp_time := wrap_int (np.first_run - np.arrival) }
      else np
    let s := { s with proc_table := setPCB s.proc_table s.active_pid np }
    s.print (Msg.switching np.id)
  else
    let s := s.print Msg.idle
    { s with active_pid := -1 }

/-- The signal handler `scheduler` (lines 70-119) in 32-bit arithmetic. -/
def scheduler_int32 (c : Config) (s : State) : State :=
  scheduler_dispatch_int32 c (scheduler_charge_int32 c s)

/-- The state after `n` timer ticks from the boot state, in 32-bit
arithmetic.  `boot_system` and the initial dispatch only store constants and
table entries, so the boot state is the same. -/
def run_int32 (c : Config) : Nat → State
  | 0 => boot c
  | n + 1 => scheduler_int32 c (run_int32 c n)

/-- The configurations whose constants and times fit in an `int`: the sum
of the bursts, the quantum and the queue capacity are at most `INT_MAX`, and
the population size is below `INT_MAX` (`done_total` can reach
`PROC_COUNT + 1`). -/
def Config.FitsInt (c : Config) : Prop :=
  c.bursts.sum ≤ INT_MAX ∧ (c.PROC_COUNT : Int) < INT_MAX ∧ c.SLICE ≤ INT_MAX ∧
    (c.Q_CAPACITY : Int) ≤ INT_MAX

instance (c : Config) : Decidable c.FitsInt := by
  unfold Config.FitsInt
  infer_instance

/-- A table of three positive bursts whose sum exceeds `INT_MAX`, with the
quantum `INT_MAX`. -/
def overflowing : Config :=
  { bursts := [2147483647, 2147483647, 1], SLICE := 2147483647, Q_CAPACITY := 20 }

/-- A table of six positive bursts, with the quantum 2^30, on which the 32-bit
clock is -1, the mark of an unset `first_run`, when pid 4 is first
dispatched. -/
def wrapping_to_unset : Config :=
  { bursts := [1073741824, 1073741824, 1073741824, 1073741823, 1073741829, 7],
    SLICE := 1073741824, Q_CAPACITY := 20 }

/-! # Proofs -/

/-! ## The process table as a list -/

theorem getPCB_natCast (t : List PCB) (i : Nat) :
    getPCB t (i : Int) = t.getD i PCB.zero := rfl

theorem setPCB_natCast (t : List PCB) (i : Nat) (p : PCB) :
    setPCB t (i : Int) p = t.set i p := rfl

theorem length_setPCB (t : List PCB) (pid : Int) (p : PCB) :
    (setPCB t pid p).length = t.length := by
  cases pid <;> simp [setPCB]

theorem getPCB_setPCB (t : List PCB) (a i : Nat) (p : PCB) :
    getPCB (setPCB t (a : Int) p) (i : Int)
      = if a = i ∧ a < t.length then p else getPCB t (i : Int) := by
  rw [getPCB_natCast, getPCB_natCast, setPCB_natCast]
  simp only [List.getD_eq_getElem?_getD, List.getElem?_set]
  by_cases h : a = i
  · subst h
    by_cases h2 : a < t.length
    · simp [h2]
    · have h3 : t[a]? = none := List.getElem?_eq_none (by omega)
      simp [h2, h3]
  · simp [h]

theorem sum_map_set (f : PCB → Int) (t : List PCB) (i : Nat) (h : i < t.length) (p : PCB) :
    ((t.set i p).map f).sum = (t.map f).sum - f (t.getD i PCB.zero) + f p := by
  induction t generalizing i with
  | nil => simp at h
  | cons x t ih =>
    cases i with
    | zero => simp; ring
    | succ i =>
      simp only [List.length_cons, Nat.add_lt_add_iff_right] at h
      have := ih i h
      simp only [List.set_cons_succ, List.map_cons, List.sum_cons, List.getD_cons_succ, this]
      ring

theorem set_getD_self (t : List PCB) (i : Nat) (h : i < t.length) :
    t.set i (t.getD i PCB.zero) = t := by
  induction t generalizing i with
  | nil => simp at h
  | cons x t ih =>
    cases i with
    | zero => simp
    | succ i =>
      simp only [List.length_cons, Nat.add_lt_add_iff_right] at h
      simp only [List.getD_cons_succ, List.set_cons_succ, ih i h]

/-! ## The circular buffer as a list -/

theorem length_queue_from (rq : List Int) (cap : Nat) (n front : Nat) :
    (queue_from rq cap front n).length = n := by
  induction n generalizing front with
  | zero => simp [queue_from]
  | succ n ih => simp [queue_from, ih]

theorem mod_window_ne (cap front n : Nat) (hf : front < cap) (hn : n + 1 < cap) :
    (front + (n + 1)) % cap ≠ front := by
  intro h
  by_cases hlt : front + (n + 1) < cap
  · rw [Nat.mod_eq_of_lt hlt] at h
    omega
  · rw [Nat.mod_eq_sub_mod (by omega), Nat.mod_eq_of_lt (by omega)] at h
    omega

theorem queue_from_set_back (rq : List Int) (cap : Nat) (x : Int) (hlen : rq.length = cap)
    (n front : Nat) (hf : front < cap) (hn : n < cap) :
    queue_from (rq.set ((front + n) % cap) x) cap front (n + 1)
      = queue_from rq cap front n ++ [x] := by
  induction n generalizing front with
  | zero =>
    simp only [Nat.add_zero, Nat.mod_eq_of_lt hf, queue_from, List.nil_append]
    simp [hlen, hf]
  | succ n ih =>
    have hcap : 0 < cap := by omega
    have hf2 : (front + 1) % cap < cap := Nat.mod_lt _ hcap
    have hidx : ((front + 1) % cap + n) % cap = (front + (n + 1)) % cap := by
      rw [Nat.mod_add_mod]
      congr 1
      omega
    have hne := mod_window_ne cap front n hf hn
    have e := ih ((front + 1) % cap) hf2 (by omega)
    rw [hidx] at e
    rw [queue_from, e, queue_from]
    simp only [List.getD_eq_getElem?_getD, List.getElem?_set_ne hne, List.cons_append]

theorem ready_queue_push (c : Config) (s : State) (x : Int)
    (hlen : s.run_queue.length = c.Q_CAPACITY) (hf : s.q_front < c.Q_CAPACITY)
    (hback : s.q_back = (s.q_front + s.q_size) % c.Q_CAPACITY)
    (hsz : s.q_size < c.Q_CAPACITY) :
    ready_queue c (push c s x) = ready_queue c s ++ [x] := by
  have hne : s.q_size ≠ c.Q_CAPACITY := by omega
  simp only [push, hne, if_false, ready_queue, hback]
  exact queue_from_set_back s.run_queue c.Q_CAPACITY x hlen s.q_size s.q_front hf hsz

theorem ready_queue_pop (c : Config) (s : State) (hsz : s.q_size ≠ 0) :
    ready_queue c s = (pop c s).1 :: ready_queue c (pop c s).2 := by
  obtain ⟨n, hn⟩ := Nat.exists_eq_succ_of_ne_zero hsz
  rw [show pop c s = (s.run_queue.getD s.q_front 0,
    { s with q_front := (s.q_front + 1) % c.Q_CAPACITY, q_size := s.q_size - 1 }) from
    if_neg hsz]
  simp only [ready_queue, hn, Nat.succ_eq_add_one, queue_from, Nat.add_sub_cancel]

theorem length_le_of_nodup_range (L : List Int) (N : Nat) (hnd : L.Nodup)
    (h : ∀ x ∈ L, ∃ i, i < N ∧ x = (i : Int)) : L.length ≤ N := by
  have hsub : L ⊆ (List.range N).map (fun i : Nat => (i : Int)) := by
    intro x hx
    obtain ⟨i, hi, rfl⟩ := h x hx
    exact List.mem_map.mpr ⟨i, List.mem_range.mpr hi, rfl⟩
  have := (List.subperm_of_subset hnd hsub).length_le
  simpa using this

theorem pcb_of_set (s s' : State) (a : Nat) (p : PCB) (ha : a < s.proc_table.length)
    (h : s'.proc_table = s.proc_table.set a p) (i : Nat) :
    s'.pcb i = if a = i then p else s.pcb i := by
  have := getPCB_setPCB s.proc_table a i p
  rw [setPCB_natCast] at this
  simp only [State.pcb, h, this, ha, and_true]

/-- A tick that finds at most `SLICE` units left charges them all and
completes the active process. -/
theorem charge_finish (c : Config) (s : State) (a : Nat) (hact : s.active_pid = (a : Int))
    (hle : (s.pcb a).time_left ≤ c.SLICE) :
    scheduler_charge c s =
      { s with
        proc_table := s.proc_table.set a
          { s.pcb a with
            time_left := 0,
            status := ProcState.FINISHED,
            finished_at := s.clock_tick + (s.pcb a).time_left,
            turn_time := s.clock_tick + (s.pcb a).time_left - (s.pcb a).arrival,
            wait_time := s.clock_tick + (s.pcb a).time_left - (s.pcb a).arrival
              - (s.pcb a).burst },
        clock_tick := s.clock_tick + (s.pcb a).time_left,
        done_total := s.done_total + 1,
        stdout := s.stdout ++
          [{ clock := s.clock_tick + (s.pcb a).time_left,
             msg := Msg.interrupt (s.pcb a).id (s.pcb a).time_left },
           { clock := s.clock_tick + (s.pcb a).time_left,
             msg := Msg.completed (s.pcb a).id }] } := by
  have hexec : exec_amount c (s.pcb a) = (s.pcb a).time_left := by
    unfold exec_amount
    split
    · rfl
    · omega
  have hne : (a : Int) ≠ -1 := by omega
  unfold State.pcb at hexec hle
  simp only [scheduler_charge, hact, hne, ne_eq, not_false_eq_true, if_true, State.pcb,
    hexec, sub_self, le_refl, State.print, setPCB_natCast, List.append_assoc,
    List.singleton_append]

/-- A tick that finds more than `SLICE` units left charges `SLICE` and sends
the active process to the back of the ready queue. -/
theorem charge_requeue (c : Config) (s : State) (a : Nat) (hact : s.active_pid = (a : Int))
    (hgt : c.SLICE < (s.pcb a).time_left) :
    scheduler_charge c s =
      (push c
        { s with
          proc_table := s.proc_table.set a
            { s.pcb a with
              time_left := (s.pcb a).time_left - c.SLICE,
              status := ProcState.READY },
          clock_tick := s.clock_tick + c.SLICE,
          stdout := s.stdout ++
            [{ clock := s.clock_tick + c.SLICE,
               msg := Msg.interrupt (s.pcb a).id c.SLICE }] }
        (a : Int)).print (Msg.requeued (s.pcb a).id) := by
  have hexec : exec_amount c (s.pcb a) = c.SLICE := by
    unfold exec_amount
    split
    · omega
    · rfl
  have hne : (a : Int) ≠ -1 := by omega
  have hnle : ¬ (s.pcb a).time_left - c.SLICE ≤ 0 := by omega
  unfold State.pcb at hexec hgt hnle
  simp only [scheduler_charge, hact, hne, ne_eq, not_false_eq_true, if_true, State.pcb,
    hexec, hnle, if_false, State.print, setPCB_natCast]

theorem charge_none (c : Config) (s : State) (hact : s.active_pid = -1) :
    scheduler_charge c s = s := by
  simp [scheduler_charge, hact]

theorem dispatch_done (c : Config) (s : State) (h : s.done_total = (c.PROC_COUNT : Int)) :
    scheduler_dispatch c s = s := by
  simp [scheduler_dispatch, h]

theorem dispatch_idle (c : Config) (s : State) (h : s.done_total ≠ (c.PROC_COUNT : Int))
    (hq : s.q_size = 0) :
    scheduler_dispatch c s =
      { s with
        active_pid := -1,
        stdout := s.stdout ++ [{ clock := s.clock_tick, msg := Msg.idle }] } := by
  simp [scheduler_dispatch, h, queue_empty, hq, State.print]

theorem dispatch_pop (c : Config) (s : State) (b : Nat)
    (h : s.done_total ≠ (c.PROC_COUNT : Int)) (hq : s.q_size ≠ 0)
    (hb : s.run_queue.getD s.q_front 0 = (b : Int)) :
    scheduler_dispatch c s =
      { s with
        active_pid := (b : Int),
        q_front := (s.q_front + 1) % c.Q_CAPACITY,
        q_size := s.q_size - 1,
        proc_table := s.proc_table.set b
          (if (s.pcb b).first_run = -1 then
            { s.pcb b with
              status := ProcState.RUNNING,
              first_run := s.clock_tick,
              resp_time := s.clock_tick - (s.pcb b).arrival }
          else { s.pcb b with status := ProcState.RUNNING }),
        stdout := s.stdout ++ [{ clock := s.clock_tick, msg := Msg.switching (s.pcb b).id }] } := by
  unfold scheduler_dispatch
  simp only [h, if_false, queue_empty, beq_iff_eq, hq, not_false_eq_true, if_true, pop, hb,
    State.print, setPCB_natCast, State.pcb]
  split <;> rfl

theorem no_overflow_append {out l : List Event}
    (h1 : ∀ e, e ∈ out → e.msg ≠ Msg.overflow) (h2 : ∀ e, e ∈ l → e.msg ≠ Msg.overflow) :
    ∀ e, e ∈ out ++ l → e.msg ≠ Msg.overflow := by
  intro e he
  rcases List.mem_append.mp he with h | h
  · exact h1 e h
  · exact h2 e h

theorem PcbInv.mono {c : Config} {clock clock' : Int} {i : Nat} {p : PCB}
    (h : PcbInv c clock i p) (hle : clock ≤ clock') : PcbInv c clock' i p where
  id_eq := h.id_eq
  burst_eq := h.burst_eq
  arrival_eq := h.arrival_eq
  left_nonneg := h.left_nonneg
  left_le := h.left_le
  fin_iff := h.fin_iff
  fin_metrics := fun hf => by
    have := h.fin_metrics hf
    exact ⟨this.1, this.2.1, le_trans this.2.2 hle⟩
  first_unset := h.first_unset
  first_set := fun hf => by
    have := h.first_set hf
    exact ⟨this.1, this.2.1, le_trans this.2.2 hle⟩

/-- Replacing the PCB of one process, with the queue and the clock following
suit, keeps the base invariant. -/
theorem Base.update {c : Config} {s s' : State} (hb : Base c s) (a : Nat) (p : PCB)
    (ha : a < c.PROC_COUNT)
    (htab : s'.proc_table = s.proc_table.set a p)
    (hlen : s'.run_queue.length = c.Q_CAPACITY)
    (hfront : 0 < c.Q_CAPACITY → s'.q_front < c.Q_CAPACITY)
    (hback : s'.q_back = (s'.q_front + s'.q_size) % c.Q_CAPACITY)
    (hclock : s'.clock_tick = s.clock_tick + ((s.pcb a).time_left - p.time_left))
    (hmono : s.clock_tick ≤ s'.clock_tick)
    (hp : PcbInv c s'.clock_tick a p)
    (hnd : (ready_queue c s').Nodup)
    (hmem : ∀ x, x ∈ ready_queue c s' ↔
      (x ∈ ready_queue c s ∧ x ≠ (a : Int)) ∨ (x = (a : Int) ∧ p.status = ProcState.READY))
    (hch : ∀ i, i < c.PROC_COUNT → (charges s'.stdout i).sum =
      (charges s.stdout i).sum + if a = i then (s.pcb a).time_left - p.time_left else 0)
    (hov : ∀ e, e ∈ s'.stdout → e.msg ≠ Msg.overflow) :
    Base c s' := by
  have hal : a < s.proc_table.length := by rw [hb.table_len]; exact ha
  have hpcb := pcb_of_set s s' a p hal htab
  refine ⟨?_, hlen, hfront, hback, ?_, hnd, ?_, ?_, ?_, le_trans hb.clock_nonneg hmono, hov⟩
  · rw [htab, List.length_set, hb.table_len]
  · intro i hi
    rw [hpcb i]
    split
    · next h => subst h; exact hp
    · exact (hb.pcbs i hi).mono hmono
  · intro x
    rw [hmem x, hb.queue_mem x]
    constructor
    · rintro (⟨⟨i, hi, rfl, hst⟩, hne⟩ | ⟨rfl, hst⟩)
      · refine ⟨i, hi, rfl, ?_⟩
        have : a ≠ i := fun h => hne (by rw [h])
        rw [hpcb i, if_neg this]
        exact hst
      · exact ⟨a, ha, rfl, by rw [hpcb a, if_pos rfl]; exact hst⟩
    · rintro ⟨i, hi, rfl, hst⟩
      rw [hpcb i] at hst
      by_cases h : a = i
      · subst h
        rw [if_pos rfl] at hst
        exact Or.inr ⟨rfl, hst⟩
      · rw [if_neg h] at hst
        exact Or.inl ⟨⟨i, hi, rfl, hst⟩, fun e => h (by exact_mod_cast e.symm)⟩
  · have h1 := sum_map_set (fun p => p.burst - p.time_left) s.proc_table a hal p
    have h2 := hb.clock_eq
    have h3 : p.burst = (s.pcb a).burst := by rw [hp.burst_eq, (hb.pcbs a ha).burst_eq]
    unfold charged_total at h2 ⊢
    rw [htab, h1, hclock, h2]
    simp only [State.pcb, getPCB_natCast] at h3 ⊢
    rw [h3]
    ring
  · intro i hi
    rw [hch i hi, hb.charges_sum i hi, hpcb i]
    by_cases h : a = i
    · subst h
      have h3 : p.burst = (s.pcb a).burst := by rw [hp.burst_eq, (hb.pcbs a ha).burst_eq]
      simp only [if_true, h3]
      ring
    · simp only [if_neg h, add_zero]

theorem finished_count_set (s s' : State) (a : Nat) (p : PCB) (ha : a < s.proc_table.length)
    (htab : s'.proc_table = s.proc_table.set a p)
    (hold : (s.pcb a).status ≠ ProcState.FINISHED) :
    finished_count s' = finished_count s + if p.status = ProcState.FINISHED then 1 else 0 := by
  unfold finished_count
  rw [htab, List.countP_set _ _ _ _ ha]
  have : s.proc_table[a] = s.pcb a := by
    rw [State.pcb, getPCB_natCast, List.getD_eq_getElem _ _ ha]
  simp [this, hold]


/-- A state that differs only in `active_pid`, `done_total` and in output
that charges nothing keeps the base invariant. -/
theorem Base.of_eq {c : Config} {s s' : State} (hb : Base c s)
    (htab : s'.proc_table = s.proc_table) (hrq : s'.run_queue = s.run_queue)
    (hfront : s'.q_front = s.q_front) (hback : s'.q_back = s.q_back)
    (hsize : s'.q_size = s.q_size) (hclock : s'.clock_tick = s.clock_tick)
    (hch : ∀ i : Nat, charges s'.stdout i = charges s.stdout i)
    (hov : ∀ e, e ∈ s'.stdout → e.msg ≠ Msg.overflow) : Base c s' := by
  have hq : ready_queue c s' = ready_queue c s := by
    simp only [ready_queue, hrq, hfront, hsize]
  have hpcb : ∀ i, s'.pcb i = s.pcb i := fun i => by simp only [State.pcb, htab]
  refine ⟨?_, ?_, ?_, ?_, ?_, ?_, ?_, ?_, ?_, ?_, hov⟩
  · rw [htab]; exact hb.table_len
  · rw [hrq]; exact hb.queue_len
  · rw [hfront]; exact hb.front_lt
  · rw [hfront, hback, hsize]; exact hb.back_eq
  · intro i hi; rw [hpcb, hclock]; exact hb.pcbs i hi
  · rw [hq]; exact hb.queue_nodup
  · intro x; rw [hq]; simp only [hpcb]; exact hb.queue_mem x
  · rw [hclock, hb.clock_eq]; simp only [charged_total, htab]
  · intro i hi; rw [hch, hpcb]; exact hb.charges_sum i hi
  · rw [hclock]; exact hb.clock_nonneg

theorem charges_append (out : List Event) (e : Event) (pid : Int) :
    charges (out ++ [e]) pid = charges out pid ++
      (match e.msg with
        | Msg.interrupt q x => if q = pid then [x] else []
        | _ => []) := by
  unfold charges
  rw [List.filterMap_append]
  congr 1
  cases e with
  | mk clock msg =>
    cases msg with
    | interrupt q x => by_cases h : q = pid <;> simp [List.filterMap_cons, h]
    | _ => simp [List.filterMap_cons]

@[simp] theorem push_proc_table (c : Config) (s : State) (x : Int) :
    (push c s x).proc_table = s.proc_table := by
  unfold push; split <;> rfl

@[simp] theorem push_clock_tick (c : Config) (s : State) (x : Int) :
    (push c s x).clock_tick = s.clock_tick := by
  unfold push; split <;> rfl

@[simp] theorem push_done_total (c : Config) (s : State) (x : Int) :
    (push c s x).done_total = s.done_total := by
  unfold push; split <;> rfl

@[simp] theorem push_active_pid (c : Config) (s : State) (x : Int) :
    (push c s x).active_pid = s.active_pid := by
  unfold push; split <;> rfl

theorem push_of_lt (c : Config) (s : State) (x : Int) (h : s.q_size < c.Q_CAPACITY) :
    push c s x =
      { s with
        run_queue := s.run_queue.set s.q_back x,
        q_back := (s.q_back + 1) % c.Q_CAPACITY,
        q_size := s.q_size + 1 } := by
  unfold push
  rw [if_neg (by omega)]

/-- The members of the ready queue are pids of the table. -/
theorem Base.queue_size_lt {c : Config} {s : State} (hb : Base c s) (a : Nat)
    (ha : a < c.PROC_COUNT) (hst : (s.pcb a).status ≠ ProcState.READY) :
    s.q_size < c.PROC_COUNT := by
  have hnot : (a : Int) ∉ ready_queue c s := by
    intro hmem
    obtain ⟨i, _, hi, hs⟩ := (hb.queue_mem _).mp hmem
    have : a = i := by exact_mod_cast hi
    subst this
    exact hst hs
  have hnd : ((a : Int) :: ready_queue c s).Nodup := List.nodup_cons.mpr ⟨hnot, hb.queue_nodup⟩
  have := length_le_of_nodup_range _ c.PROC_COUNT hnd (by
    intro x hx
    rcases List.mem_cons.mp hx with rfl | hx
    · exact ⟨a, ha, rfl⟩
    · obtain ⟨i, hi, hx, _⟩ := (hb.queue_mem _).mp hx
      exact ⟨i, hi, hx⟩)
  simp only [List.length_cons, ready_queue, length_queue_from] at this
  omega

/-- The charge half of a tick on a process that has at most `SLICE` units
left keeps the base invariant. -/
theorem Base.after_charge_finish {c : Config} {s : State} (hb : Base c s) (a : Nat)
    (ha : a < c.PROC_COUNT) (hact : s.active_pid = (a : Int))
    (hst : (s.pcb a).status ≠ ProcState.READY)
    (hle : (s.pcb a).time_left ≤ c.SLICE) : Base c (scheduler_charge c s) := by
  have hp := hb.pcbs a ha
  have hnot : (a : Int) ∉ ready_queue c s := by
    intro hmem
    obtain ⟨i, _, hi, hs⟩ := (hb.queue_mem _).mp hmem
    have : a = i := by exact_mod_cast hi
    subst this
    exact hst hs
  rw [AOL.charge_finish c s a hact hle]
  refine hb.update a _ ha rfl hb.queue_len hb.front_lt hb.back_eq ?_ ?_ ?_ hb.queue_nodup ?_ ?_
    (no_overflow_append hb.no_overflow (by simp))
  · simp
  · simpa using hp.left_nonneg
  · refine ⟨hp.id_eq, hp.burst_eq, hp.arrival_eq, le_refl _, ?_, ?_, ?_, ?_, ?_⟩
    · exact le_trans hp.left_nonneg hp.left_le
    · simp
    · intro _
      exact ⟨rfl, rfl, le_refl _⟩
    · intro h
      exact absurd (hp.first_unset h).1 hst
    · intro h
      have := hp.first_set h
      refine ⟨this.1, this.2.1, le_trans this.2.2 ?_⟩
      simpa using hp.left_nonneg
  · intro x
    constructor
    · intro hx
      exact Or.inl ⟨hx, fun e => hnot (e ▸ hx)⟩
    · rintro (⟨hx, _⟩ | ⟨_, h⟩)
      · exact hx
      · cases h
  · intro i hi
    simp only [← List.append_assoc, List.append_cons _ _ [_], charges_append, hp.id_eq]
    by_cases h : a = i
    · subst h
      simp
    · have : ¬ (a : Int) = (i : Int) := fun e => h (by exact_mod_cast e)
      simp [h, this]


/-- The state after the charge half of a tick that requeues without
overflow. -/
theorem charge_requeue_of_lt (c : Config) (s : State) (a : Nat)
    (hact : s.active_pid = (a : Int)) (hgt : c.SLICE < (s.pcb a).time_left)
    (hsz : s.q_size < c.Q_CAPACITY) :
    scheduler_charge c s =
      { s with
        proc_table := s.proc_table.set a
          { s.pcb a with
            time_left := (s.pcb a).time_left - c.SLICE,
            status := ProcState.READY },
        clock_tick := s.clock_tick + c.SLICE,
        run_queue := s.run_queue.set s.q_back (a : Int),
        q_back := (s.q_back + 1) % c.Q_CAPACITY,
        q_size := s.q_size + 1,
        stdout := s.stdout ++
          [{ clock := s.clock_tick + c.SLICE, msg := Msg.interrupt (s.pcb a).id c.SLICE },
           { clock := s.clock_tick + c.SLICE, msg := Msg.requeued (s.pcb a).id }] } := by
  have hne : s.q_size ≠ c.Q_CAPACITY := by omega
  rw [AOL.charge_requeue c s a hact hgt]
  simp only [push, hne, if_false, State.print, List.append_assoc, List.singleton_append]

/-- The charge half of a tick on a running process that has more than
`SLICE` units left keeps the base invariant: the requeue does not overflow. -/
theorem Base.after_charge_requeue {c : Config} {s : State} (hwf : c.WF) (hb : Base c s) (a : Nat)
    (ha : a < c.PROC_COUNT) (hact : s.active_pid = (a : Int))
    (hst : (s.pcb a).status = ProcState.RUNNING)
    (hgt : c.SLICE < (s.pcb a).time_left) : Base c (scheduler_charge c s) := by
  have hp := hb.pcbs a ha
  have hst' : (s.pcb a).status ≠ ProcState.READY := by rw [hst]; decide
  have hnot : (a : Int) ∉ ready_queue c s := by
    intro hmem
    obtain ⟨i, _, hi, hs⟩ := (hb.queue_mem _).mp hmem
    have : a = i := by exact_mod_cast hi
    subst this
    exact hst' hs
  have hsz : s.q_size < c.Q_CAPACITY := lt_of_lt_of_le (hb.queue_size_lt a ha hst') hwf.2.2
  have hcap : 0 < c.Q_CAPACITY := by omega
  have hslice : 0 < c.SLICE := hwf.2.1
  have hq : ready_queue c (scheduler_charge c s) = ready_queue c s ++ [(a : Int)] := by
    have := ready_queue_push c s (a : Int) hb.queue_len (hb.front_lt hcap) hb.back_eq hsz
    rw [push_of_lt _ _ _ hsz] at this
    rw [charge_requeue_of_lt c s a hact hgt hsz]
    exact this
  have he := charge_requeue_of_lt c s a hact hgt hsz
  refine hb.update a { s.pcb a with
      time_left := (s.pcb a).time_left - c.SLICE,
      status := ProcState.READY } ha ?_ ?_ ?_ ?_ ?_ ?_ ?_ ?_ ?_ ?_
      (by rw [he]; exact no_overflow_append hb.no_overflow (by simp))
  · rw [he]
  · rw [he]; simp [hb.queue_len]
  · rw [he]; exact hb.front_lt
  · rw [he]
    simp only [hb.back_eq, Nat.mod_add_mod]
    rfl
  · rw [he]; simp
  · rw [he]
    simp only
    omega
  · rw [he]
    refine ⟨hp.id_eq, hp.burst_eq, hp.arrival_eq, ?_, ?_, ?_, ?_, ?_, ?_⟩
    · simp only; omega
    · have := hp.left_le
      simp only; omega
    · simp only
      constructor
      · intro h; cases h
      · intro h; omega
    · intro h; cases h
    · intro h
      exact absurd (hp.first_unset h).1 hst'
    · intro h
      have := hp.first_set h
      refine ⟨this.1, this.2.1, le_trans this.2.2 ?_⟩
      simp only
      omega
  · rw [hq]
    exact List.Nodup.append hb.queue_nodup (List.nodup_singleton _) (by simpa using hnot)
  · intro x
    rw [hq]
    simp only [List.mem_append, List.mem_singleton, and_true]
    constructor
    · rintro (hx | rfl)
      · exact Or.inl ⟨hx, fun e => hnot (e ▸ hx)⟩
      · exact Or.inr rfl
    · rintro (⟨hx, _⟩ | rfl)
      · exact Or.inl hx
      · exact Or.inr rfl
  · intro i hi
    rw [he]
    simp only [← List.append_assoc, List.append_cons _ _ [_], charges_append, hp.id_eq]
    by_cases h : a = i
    · subst h
      simp
    · have : ¬ (a : Int) = (i : Int) := fun e => h (by exact_mod_cast e)
      simp [h, this]

theorem finished_count_eq_length {c : Config} {s : State} (hb : Base c s) :
    finished_count s = c.PROC_COUNT ↔
      ∀ i, i < c.PROC_COUNT → (s.pcb i).status = ProcState.FINISHED := by
  unfold finished_count
  rw [← hb.table_len, List.countP_eq_length]
  constructor
  · intro h i hi
    have := h (s.proc_table[i]) (List.getElem_mem _)
    rw [State.pcb, getPCB_natCast, List.getD_eq_getElem _ _ hi]
    simpa using this
  · intro h p hp
    obtain ⟨i, hi, rfl⟩ := List.getElem_of_mem hp
    have := h i hi
    rw [State.pcb, getPCB_natCast, List.getD_eq_getElem _ _ hi] at this
    simpa using this

/-- The charge half of a tick takes the invariant of the tick boundary to the
invariant that holds between the two halves. -/
theorem inv_charge {c : Config} {s : State} (hwf : c.WF) (h : Inv c s) :
    Base c (scheduler_charge c s) ∧ Between c (scheduler_charge c s) := by
  obtain ⟨hb, hbusy | hterm | hstop⟩ := h
  · obtain ⟨a, ha, hact, hst, hdone, huniq⟩ := hbusy
    have hst' : (s.pcb a).status ≠ ProcState.READY := by rw [hst]; decide
    have hnf : (s.pcb a).status ≠ ProcState.FINISHED := by rw [hst]; decide
    have hal : a < s.proc_table.length := by rw [hb.table_len]; exact ha
    by_cases hle : (s.pcb a).time_left ≤ c.SLICE
    · refine ⟨hb.after_charge_finish a ha hact hst' hle, ?_⟩
      have he := AOL.charge_finish c s a hact hle
      have hpcb := pcb_of_set s (scheduler_charge c s) a _ hal (by rw [he])
      have hcnt := finished_count_set s (scheduler_charge c s) a _ hal (by rw [he]) hnf
      constructor
      · intro i hi
        rw [hpcb i]
        split
        · simp
        · next hne =>
          intro hr
          exact hne (huniq i hi hr).symm
      · left
        constructor
        · rw [hcnt, he]
          simp [hdone]
        · refine ⟨a, ha, by rw [he]; exact hact, ?_⟩
          intro _
          rw [hpcb a, he]
          simp
    · have hgt : c.SLICE < (s.pcb a).time_left := by omega
      refine ⟨hb.after_charge_requeue hwf a ha hact hst hgt, ?_⟩
      have hsz : s.q_size < c.Q_CAPACITY :=
        lt_of_lt_of_le (hb.queue_size_lt a ha hst') hwf.2.2
      have he := charge_requeue_of_lt c s a hact hgt hsz
      have hpcb := pcb_of_set s (scheduler_charge c s) a _ hal (by rw [he])
      have hcnt := finished_count_set s (scheduler_charge c s) a _ hal (by rw [he]) hnf
      constructor
      · intro i hi
        rw [hpcb i]
        split
        · simp
        · next hne =>
          intro hr
          exact hne (huniq i hi hr).symm
      · left
        constructor
        · rw [hcnt, he]
          simp [hdone]
        · refine ⟨a, ha, by rw [he]; exact hact, ?_⟩
          rw [hpcb a]
          simp
  · obtain ⟨a, ha, hact, hfin, hdone, hall⟩ := hterm
    have hst' : (s.pcb a).status ≠ ProcState.READY := by rw [hall a ha]; decide
    have hal : a < s.proc_table.length := by rw [hb.table_len]; exact ha
    have hp := hb.pcbs a ha
    have hzero : (s.pcb a).time_left = 0 := hp.fin_iff.mp (hall a ha)
    have hle : (s.pcb a).time_left ≤ c.SLICE := by
      have := hwf.2.1
      omega
    refine ⟨hb.after_charge_finish a ha hact hst' hle, ?_⟩
    have he := AOL.charge_finish c s a hact hle
    have hpcb := pcb_of_set s (scheduler_charge c s) a _ hal (by rw [he])
    have hallc : ∀ i, i < c.PROC_COUNT →
        ((scheduler_charge c s).pcb i).status = ProcState.FINISHED := by
      intro i hi
      rw [hpcb i]
      split
      · rfl
      · exact hall i hi
    constructor
    · intro i hi
      rw [hallc i hi]
      decide
    · right; left
      refine ⟨?_, hallc⟩
      rw [he]
      simp [hdone]
  · have he := charge_none c s hstop.1
    rw [he]
    refine ⟨hb, ?_, Or.inr (Or.inr hstop)⟩
    intro i hi
    rw [hstop.2.2 i hi]
    decide

theorem ready_queue_cons (c : Config) (s : State) (hsz : s.q_size ≠ 0) :
    ready_queue c s = s.run_queue.getD s.q_front 0 ::
      queue_from s.run_queue c.Q_CAPACITY ((s.q_front + 1) % c.Q_CAPACITY) (s.q_size - 1) := by
  obtain ⟨n, hn⟩ := Nat.exists_eq_succ_of_ne_zero hsz
  simp only [ready_queue, hn, Nat.succ_eq_add_one, queue_from, Nat.add_sub_cancel]

theorem Base.queue_empty_of_no_ready {c : Config} {s : State} (hb : Base c s)
    (h : ∀ i, i < c.PROC_COUNT → (s.pcb i).status ≠ ProcState.READY) : s.q_size = 0 := by
  by_contra hne
  have hmem : s.run_queue.getD s.q_front 0 ∈ ready_queue c s := by
    rw [ready_queue_cons c s hne]
    exact List.mem_cons_self _ _
  obtain ⟨i, hi, _, hs⟩ := (hb.queue_mem _).mp hmem
  exact h i hi hs

/-- The dispatch half of a tick that pops pid `b` keeps the base invariant. -/
theorem Base.after_dispatch_pop {c : Config} {s : State} (hb : Base c s) (b : Nat)
    (hd : s.done_total ≠ (c.PROC_COUNT : Int)) (hq : s.q_size ≠ 0)
    (hx : s.run_queue.getD s.q_front 0 = (b : Int)) (hlt : b < c.PROC_COUNT)
    (hst : (s.pcb b).status = ProcState.READY) : Base c (scheduler_dispatch c s) := by
  have he := AOL.dispatch_pop c s b hd hq hx
  have hp := hb.pcbs b hlt
  have hcons := ready_queue_cons c s hq
  rw [hx] at hcons
  have hnd := hb.queue_nodup
  rw [hcons] at hnd
  have hnf : (s.pcb b).status ≠ ProcState.FINISHED := by rw [hst]; decide
  have hpos : (s.pcb b).time_left ≠ 0 := fun h => hnf (hp.fin_iff.mpr h)
  have hq' : ready_queue c (scheduler_dispatch c s) =
      queue_from s.run_queue c.Q_CAPACITY ((s.q_front + 1) % c.Q_CAPACITY) (s.q_size - 1) := by
    rw [he]
    rfl
  refine hb.update b _ hlt (by rw [he]) (by rw [he]; exact hb.queue_len) ?_ ?_ ?_ ?_ ?_ ?_ ?_ ?_
    (by rw [he]; exact no_overflow_append hb.no_overflow (by simp))
  · intro h
    rw [he]
    exact Nat.mod_lt _ h
  · rw [he]
    simp only [hb.back_eq, Nat.mod_add_mod]
    congr 1
    omega
  · rw [he]
    split <;> simp
  · rw [he]
  · rw [he]
    have hc := hb.clock_nonneg
    split
    · refine ⟨hp.id_eq, hp.burst_eq, hp.arrival_eq, hp.left_nonneg, hp.left_le, ?_, ?_, ?_, ?_⟩
      · simp only
        constructor
        · intro h; cases h
        · intro h; exact absurd h hpos
      · intro h; cases h
      · simp only
        intro h
        omega
      · intro _
        exact ⟨hc, rfl, le_refl _⟩
    · next hfr =>
      refine ⟨hp.id_eq, hp.burst_eq, hp.arrival_eq, hp.left_nonneg, hp.left_le, ?_, ?_, ?_, ?_⟩
      · simp only
        constructor
        · intro h; cases h
        · intro h; exact absurd h hpos
      · intro h; cases h
      · intro h
        exact absurd h hfr
      · intro h
        exact hp.first_set h
  · rw [hq']
    exact (List.nodup_cons.mp hnd).2
  · intro x
    rw [hq', hcons]
    have hnot := (List.nodup_cons.mp hnd).1
    constructor
    · intro hx'
      exact Or.inl ⟨List.mem_cons_of_mem _ hx', fun e => hnot (e ▸ hx')⟩
    · rintro (⟨hx', hne⟩ | ⟨_, h⟩)
      · rcases List.mem_cons.mp hx' with h | h
        · exact absurd h hne
        · exact h
      · split at h <;> cases h
  · intro i hi
    rw [he]
    simp only [charges_append]
    split
    · split <;> simp
    · simp

theorem finished_count_le {c : Config} {s : State} (hb : Base c s) :
    finished_count s ≤ c.PROC_COUNT := by
  rw [← hb.table_len]
  exact List.countP_le_length _

/-- With the base invariant, no process running and some process not counted
as finished, the ready queue is not empty and its head is a `READY` pid. -/
theorem Base.head_ready {c : Config} {s : State} (hb : Base c s)
    (hnr : ∀ i, i < c.PROC_COUNT → (s.pcb i).status ≠ ProcState.RUNNING)
    (hcnt : finished_count s ≠ c.PROC_COUNT) :
    s.q_size ≠ 0 ∧ ∃ b, b < c.PROC_COUNT ∧ s.run_queue.getD s.q_front 0 = (b : Int) ∧
      (s.pcb b).status = ProcState.READY := by
  have hq : s.q_size ≠ 0 := by
    intro h0
    apply hcnt
    rw [finished_count_eq_length hb]
    intro i hi
    by_contra hf
    have hr : (s.pcb i).status = ProcState.READY := by
      have := hnr i hi
      cases hs : (s.pcb i).status
      · rfl
      · exact absurd hs this
      · exact absurd hs hf
    have hmem := (hb.queue_mem (i : Int)).mpr ⟨i, hi, rfl, hr⟩
    have := List.length_pos_of_mem hmem
    simp only [ready_queue, length_queue_from] at this
    omega
  refine ⟨hq, ?_⟩
  have hmem : s.run_queue.getD s.q_front 0 ∈ ready_queue c s := by
    rw [ready_queue_cons c s hq]
    exact List.mem_cons_self _ _
  obtain ⟨b, hb1, hb2, hb3⟩ := (hb.queue_mem _).mp hmem
  exact ⟨b, hb1, hb2, hb3⟩

/-- The dispatch half of a tick re-establishes the invariant of the tick
boundary. -/
theorem inv_dispatch {c : Config} {s : State} (hb : Base c s) (h : Between c s) :
    Inv c (scheduler_dispatch c s) := by
  obtain ⟨hnr, ⟨hdone, a, ha, hact, hfin⟩ | ⟨hdone, hall⟩ | hstop⟩ := h
  · by_cases hd : s.done_total = (c.PROC_COUNT : Int)
    · rw [dispatch_done c s hd]
      have hcnt : finished_count s = c.PROC_COUNT := by
        rw [hdone] at hd
        exact_mod_cast hd
      have hall := (finished_count_eq_length hb).mp hcnt
      exact ⟨hb, Or.inr (Or.inl ⟨a, ha, hact, hfin (hall a ha), hd, hall⟩)⟩
    · have hcnt : finished_count s ≠ c.PROC_COUNT := by
        intro h
        apply hd
        rw [hdone, h]
      obtain ⟨hq, b, hlt, hx, hst⟩ := hb.head_ready hnr hcnt
      refine ⟨hb.after_dispatch_pop b hd hq hx hlt hst, Or.inl ?_⟩
      have he := AOL.dispatch_pop c s b hd hq hx
      have hal : b < s.proc_table.length := by rw [hb.table_len]; exact hlt
      have hnf : (s.pcb b).status ≠ ProcState.FINISHED := by rw [hst]; decide
      have hpcb := pcb_of_set s (scheduler_dispatch c s) b _ hal (by rw [he])
      have hc := finished_count_set s (scheduler_dispatch c s) b _ hal (by rw [he]) hnf
      refine ⟨b, hlt, by rw [he], ?_, ?_, ?_⟩
      · rw [hpcb b, if_pos rfl]
        split <;> rfl
      · rw [hc, he]
        simp only [hdone]
        split <;> simp
      · intro i hi hr
        rw [hpcb i] at hr
        by_contra hne
        rw [if_neg (fun e => hne e.symm)] at hr
        exact hnr i hi hr
  · have hd : s.done_total ≠ (c.PROC_COUNT : Int) := by omega
    have hq : s.q_size = 0 := hb.queue_empty_of_no_ready (fun i hi => by
      rw [hall i hi]; decide)
    rw [dispatch_idle c s hd hq]
    refine ⟨hb.of_eq rfl rfl rfl rfl rfl rfl ?_ (no_overflow_append hb.no_overflow (by simp)),
      Or.inr (Or.inr ⟨rfl, Or.inl hdone, hall⟩)⟩
    intro i
    simp [charges_append]
  · obtain ⟨hact, hdone | ⟨h0, hdone⟩, hall⟩ := hstop
    · have hd : s.done_total ≠ (c.PROC_COUNT : Int) := by omega
      have hq : s.q_size = 0 := hb.queue_empty_of_no_ready (fun i hi => by
        rw [hall i hi]; decide)
      rw [dispatch_idle c s hd hq]
      refine ⟨hb.of_eq rfl rfl rfl rfl rfl rfl ?_ (no_overflow_append hb.no_overflow (by simp)),
        Or.inr (Or.inr ⟨rfl, Or.inl hdone, hall⟩)⟩
      intro i
      simp [charges_append]
    · have hd : s.done_total = (c.PROC_COUNT : Int) := by rw [hdone, h0]; rfl
      rw [dispatch_done c s hd]
      exact ⟨hb, Or.inr (Or.inr ⟨hact, Or.inr ⟨h0, hdone⟩, hall⟩)⟩

/-- One tick keeps the invariant. -/
theorem inv_scheduler {c : Config} {s : State} (hwf : c.WF) (h : Inv c s) :
    Inv c (scheduler c s) := by
  obtain ⟨hb, hbt⟩ := inv_charge hwf h
  exact inv_dispatch hb hbt

theorem boot_loop_succ (c : Config) (k : Nat) :
    boot_loop c (k + 1) = boot_step c (boot_loop c k) k := by
  simp only [boot_loop, List.range_succ, List.foldl_append, List.foldl_cons, List.foldl_nil]

theorem boot_system_eq (c : Config) :
    boot_system c (State.init c) = boot_loop c c.PROC_COUNT := rfl

theorem boot_step_of_lt (c : Config) (s : State) (k : Nat) (hsz : s.q_size < c.Q_CAPACITY) :
    boot_step c s k =
      { s with
        proc_table := s.proc_table.set k
          { s.pcb k with
            id := (k : Int),
            burst := c.bursts.getD k 0,
            time_left := c.bursts.getD k 0,
            status := ProcState.READY,
            arrival := 0,
            first_run := -1 },
        run_queue := s.run_queue.set s.q_back (k : Int),
        q_back := (s.q_back + 1) % c.Q_CAPACITY,
        q_size := s.q_size + 1,
        stdout := s.stdout ++
          [{ clock := s.clock_tick, msg := Msg.loaded (k : Int) (c.bursts.getD k 0) }] } := by
  have hne : s.q_size ≠ c.Q_CAPACITY := by omega
  simp only [boot_step, push, hne, if_false, State.print, setPCB_natCast, State.pcb]

theorem bootInv_loop (c : Config) (hcap : c.PROC_COUNT ≤ c.Q_CAPACITY) (k : Nat)
    (hk : k ≤ c.PROC_COUNT) : BootInv c k (boot_loop c k) := by
  induction k with
  | zero =>
    refine ⟨?_, ?_, rfl, rfl, ?_, rfl, rfl, rfl, ?_, rfl, ?_, ?_⟩
    · simp [boot_loop, State.print, State.init]
    · simp [boot_loop, State.print, State.init]
    · simp [boot_loop, State.print, State.init]
    · intro i hi; omega
    · intro pid
      simp [boot_loop, State.print, State.init, charges]
    · simp [boot_loop, State.print, State.init]
  | succ k ih =>
    have h := ih (by omega)
    have hsz : (boot_loop c k).q_size < c.Q_CAPACITY := by rw [h.size_eq]; omega
    have hcap0 : 0 < c.Q_CAPACITY := by omega
    have he := boot_step_of_lt c (boot_loop c k) k hsz
    have hal : k < (boot_loop c k).proc_table.length := by rw [h.table_len]; omega
    rw [boot_loop_succ]
    have hpcb := pcb_of_set (boot_loop c k) (boot_step c (boot_loop c k) k) k _ hal (by rw [he])
    have hq : ready_queue c (boot_step c (boot_loop c k) k)
        = ready_queue c (boot_loop c k) ++ [(k : Int)] := by
      have := ready_queue_push c (boot_loop c k) (k : Int) h.queue_len
        (by rw [h.front_eq]; exact hcap0) (by rw [h.back_eq, h.front_eq, h.size_eq, Nat.zero_add])
        hsz
      rw [push_of_lt _ _ _ hsz] at this
      rw [he]
      exact this
    refine ⟨?_, ?_, ?_, ?_, ?_, ?_, ?_, ?_, ?_, ?_, ?_, ?_⟩
    · rw [he]; simp [h.table_len]
    · rw [he]; simp [h.queue_len]
    · rw [he]; exact h.front_eq
    · rw [he]; simp [h.size_eq]
    · rw [he]; simp [h.back_eq]
    · rw [he]; exact h.active_eq
    · rw [he]; exact h.clock_eq
    · rw [he]; exact h.done_eq
    · intro i hi
      rw [hpcb i]
      by_cases hik : k = i
      · subst hik
        simp
      · rw [if_neg hik]
        exact h.pcbs i (by omega)
    · rw [hq, h.queue_eq, List.range_succ, List.map_append]
      rfl
    · intro pid
      rw [he]
      simp [charges_append, h.charges_nil]
    · rw [he]
      exact no_overflow_append h.no_overflow (by simp)

theorem getD_bursts_pos {c : Config} (hwf : c.WF) (i : Nat) (hi : i < c.PROC_COUNT) :
    0 < c.bursts.getD i 0 := by
  have hi' : i < c.bursts.length := hi
  rw [List.getD_eq_getElem _ _ hi']
  exact hwf.1 _ (List.getElem_mem _)

/-- The state left by `boot_system` satisfies the base invariant. -/
theorem Base.of_bootInv {c : Config} {s : State} (hwf : c.WF)
    (h : BootInv c c.PROC_COUNT s) : Base c s := by
  have hq := h.queue_eq
  refine ⟨h.table_len, h.queue_len, ?_, ?_, ?_, ?_, ?_, ?_, ?_, ?_, h.no_overflow⟩
  · intro hc; rw [h.front_eq]; exact hc
  · rw [h.back_eq, h.front_eq, h.size_eq, Nat.zero_add]
  · intro i hi
    obtain ⟨h1, h2, h3, h4, h5, h6⟩ := h.pcbs i hi
    have hpos := getD_bursts_pos hwf i hi
    refine ⟨h1, h2, h5, ?_, ?_, ?_, ?_, ?_, ?_⟩
    · rw [h3]; omega
    · rw [h3, h2]
    · rw [h4, h3]
      constructor
      · intro h; cases h
      · intro h; omega
    · rw [h4]; intro h; cases h
    · intro _; exact ⟨h4, by rw [h3, h2]⟩
    · intro hne; exact absurd h6 hne
  · rw [hq]
    exact List.Nodup.map (fun a b hab => by exact_mod_cast hab) (List.nodup_range _)
  · intro x
    rw [hq, List.mem_map]
    constructor
    · rintro ⟨i, hi, rfl⟩
      have hi' := List.mem_range.mp hi
      exact ⟨i, hi', rfl, (h.pcbs i hi').2.2.2.1⟩
    · rintro ⟨i, hi, rfl, _⟩
      exact ⟨i, List.mem_range.mpr hi, rfl⟩
  · rw [h.clock_eq]
    symm
    unfold charged_total
    apply List.sum_eq_zero
    intro x hx
    obtain ⟨p, hp, rfl⟩ := List.mem_map.mp hx
    obtain ⟨i, hi, rfl⟩ := List.getElem_of_mem hp
    have hi' : i < c.PROC_COUNT := by rw [← h.table_len]; exact hi
    obtain ⟨_, h2, h3, _⟩ := h.pcbs i hi'
    rw [State.pcb, getPCB_natCast, List.getD_eq_getElem _ _ hi] at h2 h3
    rw [h2, h3, sub_self]
  · intro i hi
    obtain ⟨_, h2, h3, _⟩ := h.pcbs i hi
    rw [h.charges_nil, h2, h3, sub_self]
    rfl
  · rw [h.clock_eq]

theorem main_dispatch_empty (c : Config) (s : State) (hq : s.q_size = 0) :
    main_dispatch c s = s := by
  simp [main_dispatch, queue_empty, hq]

theorem main_dispatch_pop (c : Config) (s : State) (b : Nat) (hq : s.q_size ≠ 0)
    (hb : s.run_queue.getD s.q_front 0 = (b : Int)) :
    main_dispatch c s =
      { s with
        active_pid := (b : Int),
        q_front := (s.q_front + 1) % c.Q_CAPACITY,
        q_size := s.q_size - 1,
        proc_table := s.proc_table.set b
          { s.pcb b with status := ProcState.RUNNING, first_run := 0, resp_time := 0 },
        stdout := s.stdout ++ [{ clock := s.clock_tick, msg := Msg.starting (s.pcb b).id }] } := by
  unfold main_dispatch
  simp only [queue_empty, beq_iff_eq, hq, not_false_eq_true, if_true, pop, if_false, hb,
    State.print, setPCB_natCast, State.pcb]

/-- The boot state satisfies the invariant. -/
theorem inv_boot {c : Config} (hwf : c.WF) : Inv c (boot c) := by
  have hbi := bootInv_loop c hwf.2.2 c.PROC_COUNT (le_refl _)
  have hb := Base.of_bootInv hwf hbi
  unfold boot
  rw [boot_system_eq]
  generalize boot_loop c c.PROC_COUNT = s at hbi hb
  by_cases hN : c.PROC_COUNT = 0
  · have hq : s.q_size = 0 := by rw [hbi.size_eq, hN]
    rw [main_dispatch_empty c s hq]
    refine ⟨hb, Or.inr (Or.inr ⟨hbi.active_eq, Or.inr ⟨hN, hbi.done_eq⟩, ?_⟩)⟩
    intro i hi
    omega
  · have hpos : 0 < c.PROC_COUNT := Nat.pos_of_ne_zero hN
    have hq : s.q_size ≠ 0 := by rw [hbi.size_eq]; exact hN
    have hcons := ready_queue_cons c s hq
    have hx : s.run_queue.getD s.q_front 0 = ((0 : Nat) : Int) := by
      have h1 := hbi.queue_eq
      rw [hcons] at h1
      obtain ⟨n, hn⟩ := Nat.exists_eq_succ_of_ne_zero hN
      rw [hn, Nat.succ_eq_add_one, List.range_succ_eq_map, List.map_cons] at h1
      exact (List.cons.inj h1).1
    rw [hx] at hcons
    have he := main_dispatch_pop c s 0 hq hx
    obtain ⟨h1, h2, h3, h4, h5, h6⟩ := hbi.pcbs 0 hpos
    have hp := hb.pcbs 0 hpos
    have hnd := hb.queue_nodup
    rw [hcons] at hnd
    have hal : 0 < s.proc_table.length := by rw [hb.table_len]; exact hpos
    have hnf : (s.pcb 0).status ≠ ProcState.FINISHED := by rw [h4]; decide
    have hpcb := pcb_of_set s (main_dispatch c s) 0 _ hal (by rw [he])
    have hc := finished_count_set s (main_dispatch c s) 0 _ hal (by rw [he]) hnf
    have hq' : ready_queue c (main_dispatch c s) =
        queue_from s.run_queue c.Q_CAPACITY ((s.q_front + 1) % c.Q_CAPACITY) (s.q_size - 1) := by
      rw [he]
      rfl
    have hzero : ∀ i, i < c.PROC_COUNT → (s.pcb i).status = ProcState.READY :=
      fun i hi => (hbi.pcbs i hi).2.2.2.1
    have hcnt0 : finished_count s = 0 := by
      unfold finished_count
      rw [List.countP_eq_zero]
      intro p hp
      obtain ⟨i, hi, rfl⟩ := List.getElem_of_mem hp
      have hi' : i < c.PROC_COUNT := by rw [← hb.table_len]; exact hi
      have := hzero i hi'
      rw [State.pcb, getPCB_natCast, List.getD_eq_getElem _ _ hi] at this
      simp [this]
    constructor
    · refine hb.update 0 _ hpos (by rw [he]) (by rw [he]; exact hb.queue_len)
        ?_ ?_ ?_ ?_ ?_ ?_ ?_ ?_ (by rw [he]; exact no_overflow_append hb.no_overflow (by simp))
      · intro h
        rw [he]
        exact Nat.mod_lt _ h
      · rw [he]
        simp only [hb.back_eq, Nat.mod_add_mod]
        congr 1
        omega
      · rw [he]; simp
      · rw [he]
      · rw [he]
        refine ⟨hp.id_eq, hp.burst_eq, hp.arrival_eq, hp.left_nonneg, hp.left_le, ?_, ?_, ?_, ?_⟩
        · simp only
          constructor
          · intro h; cases h
          · intro h
            have := getD_bursts_pos hwf 0 hpos
            omega
        · intro h; cases h
        · simp only
          intro h
          omega
        · intro _
          simp only [hbi.clock_eq, h5]
          exact ⟨le_refl _, rfl, le_refl _⟩
      · rw [hq']
        exact (List.nodup_cons.mp hnd).2
      · intro x
        rw [hq', hcons]
        have hnot := (List.nodup_cons.mp hnd).1
        constructor
        · intro hx'
          exact Or.inl ⟨List.mem_cons_of_mem _ hx', fun e => hnot (e ▸ hx')⟩
        · rintro (⟨hx', hne⟩ | ⟨_, h⟩)
          · rcases List.mem_cons.mp hx' with h | h
            · exact absurd h hne
            · exact h
          · cases h
      · intro i hi
        rw [he]
        simp only [charges_append]
        split <;> simp
    · left
      refine ⟨0, hpos, by rw [he], ?_, ?_, ?_⟩
      · rw [hpcb 0, if_pos rfl]
      · rw [hc, hcnt0, he]
        simp [hbi.done_eq]
      · intro i hi hr
        rw [hpcb i] at hr
        by_contra hne
        rw [if_neg (fun e => hne e.symm), hzero i hi] at hr
        cases hr

/-- Every state of the run satisfies the invariant. -/
theorem inv_run {c : Config} (hwf : c.WF) (n : Nat) : Inv c (run c n) := by
  induction n with
  | zero => exact inv_boot hwf
  | succ n ih => exact inv_scheduler hwf ih

theorem sum_map_le_sum_map (t : List PCB) (f g : PCB → Int) (h : ∀ p, p ∈ t → f p ≤ g p) :
    (t.map f).sum ≤ (t.map g).sum := by
  induction t with
  | nil => simp
  | cons x t ih =>
    have h1 := h x (List.mem_cons_self _ _)
    have h2 := ih (fun p hp => h p (List.mem_cons_of_mem _ hp))
    simp only [List.map_cons, List.sum_cons]
    omega

/-- The array accesses of a run stay inside the arrays: `active_pid` is -1 or
an index of `proc_table`, every entry of the ready queue is an index of
`proc_table`, and the queue indices are below `Q_CAPACITY`. -/
theorem run_indices_in_bounds {c : Config} (hwf : c.WF) (n : Nat) :
    (run c n).proc_table.length = c.PROC_COUNT ∧
    (run c n).run_queue.length = c.Q_CAPACITY ∧
    ((run c n).active_pid = -1 ∨
      ∃ a, a < c.PROC_COUNT ∧ (run c n).active_pid = (a : Int)) ∧
    (∀ x, x ∈ ready_queue c (run c n) → ∃ i, i < c.PROC_COUNT ∧ x = (i : Int)) ∧
    (0 < c.Q_CAPACITY → (run c n).q_front < c.Q_CAPACITY ∧ (run c n).q_back < c.Q_CAPACITY) ∧
    (run c n).q_size ≤ c.PROC_COUNT := by
  obtain ⟨hb, hmode⟩ := inv_run hwf n
  refine ⟨hb.table_len, hb.queue_len, ?_, ?_, ?_, ?_⟩
  · rcases hmode with ⟨a, ha, hact, _⟩ | ⟨a, ha, hact, _⟩ | ⟨hact, _⟩
    · exact Or.inr ⟨a, ha, hact⟩
    · exact Or.inr ⟨a, ha, hact⟩
    · exact Or.inl hact
  · intro x hx
    obtain ⟨i, hi, hxi, _⟩ := (hb.queue_mem x).mp hx
    exact ⟨i, hi, hxi⟩
  · intro hcap
    refine ⟨hb.front_lt hcap, ?_⟩
    rw [hb.back_eq]
    exact Nat.mod_lt _ hcap
  · have := length_le_of_nodup_range _ c.PROC_COUNT hb.queue_nodup (by
      intro x hx
      obtain ⟨i, hi, hxi, _⟩ := (hb.queue_mem x).mp hx
      exact ⟨i, hi, hxi⟩)
    simpa only [ready_queue, length_queue_from] using this

/-- The clock of a run stays between 0 and the sum of the bursts, and so does
every value derived from it. -/
theorem run_clock_bounds {c : Config} (hwf : c.WF) (n : Nat) :
    0 ≤ (run c n).clock_tick ∧ (run c n).clock_tick ≤ c.bursts.sum := by
  obtain ⟨hb, _⟩ := inv_run hwf n
  refine ⟨hb.clock_nonneg, ?_⟩
  rw [hb.clock_eq]
  unfold charged_total
  have h1 : ((run c n).proc_table.map fun p => p.burst - p.time_left).sum
      ≤ ((run c n).proc_table.map fun p => p.burst).sum := by
    apply sum_map_le_sum_map
    intro p hp
    obtain ⟨i, hi, rfl⟩ := List.getElem_of_mem hp
    have hi' : i < c.PROC_COUNT := by rw [← hb.table_len]; exact hi
    have := (hb.pcbs i hi').left_nonneg
    rw [State.pcb, getPCB_natCast, List.getD_eq_getElem _ _ hi] at this
    show ((run c n).proc_table[i]).burst - ((run c n).proc_table[i]).time_left
      ≤ ((run c n).proc_table[i]).burst
    omega
  have h2 : ((run c n).proc_table.map fun p => p.burst) = c.bursts := by
    apply List.ext_getElem
    · rw [List.length_map, hb.table_len]
      rfl
    · intro i h1 h2
      have hi : i < c.PROC_COUNT := h2
      have hlen : i < (run c n).proc_table.length := by rw [hb.table_len]; exact hi
      have hbu := (hb.pcbs i hi).burst_eq
      rw [State.pcb, getPCB_natCast, List.getD_eq_getElem _ _ hlen,
        List.getD_eq_getElem _ _ h2] at hbu
      rw [List.getElem_map, hbu]
  rw [h2] at h1
  exact h1

/-! ## The claims -/

/-- C1: in the shipped configuration `done_total` first reaches 5 after 15
ticks; pid 1 (burst 4) is charged exactly twice, 3 then 1, it is dispatched
at clock 3 and 18 and requeued at clock 6, and its final `wait_time` is its
`resp_time` plus the time between its requeue and its second dispatch; pid 4
(burst 12) is requeued exactly three times and charged exactly four times, 3
each, the fourth charge (the last tick) taking its `time_left` from 3 to 0
and finishing it. -/
theorem C1_shipped_scenario :
    (run shipped 15).done_total = 5 ∧
    (∀ n, n < 15 → (run shipped n).done_total ≠ 5) ∧
    ((run shipped 15).pcb 1).burst = 4 ∧
    ((run shipped 15).pcb 4).burst = 12 ∧
    charges (run shipped 15).stdout 1 = [3, 1] ∧
    stamps (run shipped 15).stdout (Msg.switching 1) = [3, 18] ∧
    stamps (run shipped 15).stdout (Msg.requeued 1) = [6] ∧
    stamps (run shipped 15).stdout (Msg.completed 1) = [19] ∧
    ((run shipped 15).pcb 1).resp_time = 3 ∧
    ((run shipped 15).pcb 1).wait_time = ((run shipped 15).pcb 1).resp_time + (18 - 6) ∧
    stamps (run shipped 15).stdout (Msg.requeued 4) = [15, 28, 36] ∧
    charges (run shipped 15).stdout 4 = [3, 3, 3, 3] ∧
    stamps (run shipped 15).stdout (Msg.completed 4) = [40] ∧
    (run shipped 14).active_pid = 4 ∧
    ((run shipped 14).pcb 4).time_left = 3 ∧
    ((run shipped 15).pcb 4).time_left = 0 ∧
    ((run shipped 15).pcb 4).status = ProcState.FINISHED := by
  decide

theorem charges_push (c : Config) (s : State) (x pid : Int) :
    charges (push c s x).stdout pid = charges s.stdout pid := by
  unfold push
  split
  · simp [State.print, charges_append]
  · rfl

@[simp] theorem pop_stdout (c : Config) (s : State) : (pop c s).2.stdout = s.stdout := by
  unfold pop; split <;> rfl

@[simp] theorem pop_proc_table (c : Config) (s : State) :
    (pop c s).2.proc_table = s.proc_table := by
  unfold pop; split <;> rfl

@[simp] theorem pop_clock_tick (c : Config) (s : State) :
    (pop c s).2.clock_tick = s.clock_tick := by
  unfold pop; split <;> rfl

@[simp] theorem pop_done_total (c : Config) (s : State) :
    (pop c s).2.done_total = s.done_total := by
  unfold pop; split <;> rfl

theorem charges_dispatch (c : Config) (s : State) (pid : Int) :
    charges (scheduler_dispatch c s).stdout pid = charges s.stdout pid := by
  unfold scheduler_dispatch
  split
  · rfl
  · split
    · simp [State.print, charges_append]
    · simp [State.print, charges_append]

theorem charges_charge (c : Config) (s : State) (pid : Int) :
    charges (scheduler_charge c s).stdout pid = charges s.stdout pid ++
      if s.active_pid ≠ -1 ∧ (getPCB s.proc_table s.active_pid).id = pid then
        [exec_amount c (getPCB s.proc_table s.active_pid)]
      else [] := by
  unfold scheduler_charge
  by_cases hact : s.active_pid = -1
  · simp [hact]
  · simp only [ne_eq, hact, not_false_eq_true, if_true, true_and]
    split
    · simp only [State.print, charges_append, List.append_nil]
    · simp only [State.print, charges_append, List.append_nil, charges_push]

/-- One tick adds to the charges of `pid` the exec amount computed for the
active process when that process is `pid`, and nothing otherwise. -/
theorem charges_scheduler (c : Config) (s : State) (pid : Int) :
    charges (scheduler c s).stdout pid = charges s.stdout pid ++
      if s.active_pid ≠ -1 ∧ (getPCB s.proc_table s.active_pid).id = pid then
        [exec_amount c (getPCB s.proc_table s.active_pid)]
      else [] := by
  unfold scheduler
  rw [charges_dispatch, charges_charge]

/-- C2: in every state of a run with positive bursts, the exec amounts
charged to process `i` are exactly those of the ticks on which `i` was the
active process, their sum is `burst - time_left`, `time_left` is never
negative, and the sum equals `burst` exactly when the process is `FINISHED`,
at which point `time_left` is 0. -/
theorem C2_burst_is_sum_of_charges (c : Config) (hwf : c.WF) (n i : Nat)
    (hi : i < c.PROC_COUNT) :
    charges (run c (n + 1)).stdout i = charges (run c n).stdout i ++
        (if (run c n).active_pid = (i : Int) then [exec_amount c ((run c n).pcb i)] else []) ∧
    charges (run c 0).stdout i = [] ∧
    ((run c n).pcb i).burst = c.bursts.getD i 0 ∧
    (charges (run c n).stdout i).sum = ((run c n).pcb i).burst - ((run c n).pcb i).time_left ∧
    0 ≤ ((run c n).pcb i).time_left ∧
    (((run c n).pcb i).status = ProcState.FINISHED ↔
      (charges (run c n).stdout i).sum = ((run c n).pcb i).burst) ∧
    (((run c n).pcb i).status = ProcState.FINISHED → ((run c n).pcb i).time_left = 0) := by
  obtain ⟨hb, hmode⟩ := inv_run hwf n
  have hp := hb.pcbs i hi
  have hsum := hb.charges_sum i hi
  refine ⟨?_, ?_, hp.burst_eq, hsum, hp.left_nonneg, ?_, hp.fin_iff.mp⟩
  · show charges (scheduler c (run c n)).stdout i = _
    rw [charges_scheduler]
    congr 1
    by_cases hact : (run c n).active_pid = (i : Int)
    · have hne : (i : Int) ≠ -1 := by omega
      have hid : (getPCB (run c n).proc_table (i : Int)).id = (i : Int) := hp.id_eq
      simp only [hact, ne_eq, hne, not_false_eq_true, hid, and_self, if_true, State.pcb]
    · rw [if_neg hact]
      rcases hmode with ⟨a, ha, hact', _⟩ | ⟨a, ha, hact', _⟩ | ⟨hact', _⟩
      · have hid : (getPCB (run c n).proc_table (a : Int)).id = (a : Int) := (hb.pcbs a ha).id_eq
        rw [hact'] at hact
        rw [hact', hid, if_neg (fun h => hact h.2)]
      · have hid : (getPCB (run c n).proc_table (a : Int)).id = (a : Int) := (hb.pcbs a ha).id_eq
        rw [hact'] at hact
        rw [hact', hid, if_neg (fun h => hact h.2)]
      · simp [hact']
  · have hb0 := (inv_run hwf 0).1
    have hbi := bootInv_loop c hwf.2.2 c.PROC_COUNT (le_refl _)
    show charges (main_dispatch c (boot_system c (State.init c))).stdout i = []
    rw [boot_system_eq]
    unfold main_dispatch
    split
    · simp [State.print, charges_append, hbi.charges_nil]
    · exact hbi.charges_nil _
  · rw [hsum, hp.fin_iff]
    constructor
    · intro h; rw [h, sub_zero]
    · intro h; omega


/-- C2, instance: pid 1 of the shipped run after 7 ticks. -/
theorem C2_burst_is_sum_of_charges_witness :
    shipped.WF ∧ 1 < shipped.PROC_COUNT ∧
    (charges (run shipped 7).stdout ((1 : Nat) : Int)).sum
      = ((run shipped 7).pcb 1).burst - ((run shipped 7).pcb 1).time_left ∧
    (((run shipped 7).pcb 1).status = ProcState.FINISHED ↔
      (charges (run shipped 7).stdout ((1 : Nat) : Int)).sum = ((run shipped 7).pcb 1).burst) :=
  ⟨by decide, by decide,
    (C2_burst_is_sum_of_charges shipped (by decide) 7 1 (by decide)).2.2.2.1,
    (C2_burst_is_sum_of_charges shipped (by decide) 7 1 (by decide)).2.2.2.2.2.1⟩

/-- In exact arithmetic, in every state of a run, every `FINISHED` PCB has
`turn_time = finished_at - arrival` and `wait_time = turn_time - burst`. -/
theorem finished_metrics_exact (c : Config) (hwf : c.WF) (n i : Nat) (hi : i < c.PROC_COUNT)
    (hfin : ((run c n).pcb i).status = ProcState.FINISHED) :
    ((run c n).pcb i).turn_time = ((run c n).pcb i).finished_at - ((run c n).pcb i).arrival ∧
    ((run c n).pcb i).wait_time = ((run c n).pcb i).turn_time - ((run c n).pcb i).burst := by
  have h := ((inv_run hwf n).1.pcbs i hi).fin_metrics hfin
  exact ⟨h.1, h.2.1⟩

theorem getPCB_setPCB_int (t : List PCB) (pid : Int) (p : PCB) (i : Nat) :
    getPCB (setPCB t pid p) (i : Int)
      = if pid = (i : Int) ∧ i < t.length then p else getPCB t (i : Int) := by
  cases pid with
  | ofNat a =>
    have := getPCB_setPCB t a i p
    simp only [Int.ofNat_eq_coe] at this ⊢
    rw [this]
    by_cases h : a = i
    · subst h
      simp
    · have : ¬ (a : Int) = (i : Int) := fun e => h (by exact_mod_cast e)
      simp [h, this]
  | negSucc a =>
    have : ¬ Int.negSucc a = (i : Int) := by
      intro h
      have := Int.negSucc_lt_zero a
      omega
    simp only [this, false_and, if_false]
    rfl

/-- The charge half of a tick never writes `first_run` or `resp_time`. -/
theorem charge_first_run (c : Config) (s : State) (i : Nat) :
    ((scheduler_charge c s).pcb i).first_run = (s.pcb i).first_run ∧
    ((scheduler_charge c s).pcb i).resp_time = (s.pcb i).resp_time := by
  unfold scheduler_charge State.pcb
  by_cases hact : s.active_pid = -1
  · simp [hact]
  · simp only [ne_eq, hact, not_false_eq_true, if_true]
    split
    · simp only [State.print, getPCB_setPCB_int]
      split
      · next h => rw [h.1]; exact ⟨rfl, rfl⟩
      · exact ⟨rfl, rfl⟩
    · simp only [State.print, push_proc_table, getPCB_setPCB_int]
      split
      · next h => rw [h.1]; exact ⟨rfl, rfl⟩
      · exact ⟨rfl, rfl⟩

/-- The dispatch half of a tick leaves a `first_run` that is set alone, and
sets an unset one only on the process it makes `RUNNING`, to the current
clock. -/
theorem dispatch_first_run (c : Config) (s : State) (i : Nat) :
    ((s.pcb i).first_run ≠ -1 →
      ((scheduler_dispatch c s).pcb i).first_run = (s.pcb i).first_run ∧
      ((scheduler_dispatch c s).pcb i).resp_time = (s.pcb i).resp_time) ∧
    ((s.pcb i).first_run = -1 →
      (((scheduler_dispatch c s).pcb i).first_run = -1 ∧
        ((scheduler_dispatch c s).pcb i).resp_time = (s.pcb i).resp_time) ∨
      (((scheduler_dispatch c s).pcb i).status = ProcState.RUNNING ∧
        ((scheduler_dispatch c s).pcb i).first_run = (scheduler_dispatch c s).clock_tick ∧
        ((scheduler_dispatch c s).pcb i).resp_time =
          ((scheduler_dispatch c s).pcb i).first_run
            - ((scheduler_dispatch c s).pcb i).arrival)) := by
  unfold scheduler_dispatch State.pcb
  split
  · exact ⟨fun _ => ⟨rfl, rfl⟩, fun h => Or.inl ⟨h, rfl⟩⟩
  · split
    · simp only [State.print, pop_proc_table, pop_clock_tick, getPCB_setPCB_int]
      split
      · next h =>
        rw [h.1]
        constructor
        · intro hne
          simp [hne]
        · intro he
          right
          simp [he]
      · exact ⟨fun _ => ⟨rfl, rfl⟩, fun h => Or.inl ⟨h, rfl⟩⟩
    · exact ⟨fun _ => ⟨rfl, rfl⟩, fun h => Or.inl ⟨h, rfl⟩⟩


/-- The boot state: the clock is 0 and `main` has dispatched pid 0 with
`first_run = 0` and `resp_time = 0`; every other process is `READY` with
`first_run` unset. -/
theorem boot_pcb {c : Config} (hwf : c.WF) (i : Nat) (hi : i < c.PROC_COUNT) :
    (boot c).clock_tick = 0 ∧ (boot c).active_pid = 0 ∧ ((boot c).pcb i).arrival = 0 ∧
    (i = 0 → ((boot c).pcb i).status = ProcState.RUNNING ∧
      ((boot c).pcb i).first_run = 0 ∧ ((boot c).pcb i).resp_time = 0) ∧
    (i ≠ 0 → ((boot c).pcb i).status = ProcState.READY ∧
      ((boot c).pcb i).first_run = -1) := by
  have hbi := bootInv_loop c hwf.2.2 c.PROC_COUNT (le_refl _)
  unfold boot
  rw [boot_system_eq]
  generalize boot_loop c c.PROC_COUNT = s at hbi
  have hpos : 0 < c.PROC_COUNT := by omega
  have hN : c.PROC_COUNT ≠ 0 := by omega
  have hq : s.q_size ≠ 0 := by rw [hbi.size_eq]; exact hN
  have hx : s.run_queue.getD s.q_front 0 = ((0 : Nat) : Int) := by
    have h1 := hbi.queue_eq
    rw [ready_queue_cons c s hq] at h1
    obtain ⟨n, hn⟩ := Nat.exists_eq_succ_of_ne_zero hN
    rw [hn, Nat.succ_eq_add_one, List.range_succ_eq_map, List.map_cons] at h1
    exact (List.cons.inj h1).1
  have he := main_dispatch_pop c s 0 hq hx
  have hal : 0 < s.proc_table.length := by rw [hbi.table_len]; exact hpos
  have hpcb := pcb_of_set s (main_dispatch c s) 0 _ hal (by rw [he])
  obtain ⟨_, _, _, h4, h5, h6⟩ := hbi.pcbs i hi
  refine ⟨by rw [he]; exact hbi.clock_eq, by rw [he]; rfl, ?_, ?_, ?_⟩
  · rw [hpcb i]
    split
    · next h => subst h; exact h5
    · exact h5
  · intro h0
    subst h0
    rw [hpcb 0, if_pos rfl]
    exact ⟨rfl, rfl, rfl⟩
  · intro h0
    rw [hpcb i, if_neg (fun e => h0 e.symm)]
    exact ⟨h4, h6⟩

theorem scheduler_first_run (c : Config) (s : State) (i : Nat) :
    ((s.pcb i).first_run ≠ -1 →
      ((scheduler c s).pcb i).first_run = (s.pcb i).first_run ∧
      ((scheduler c s).pcb i).resp_time = (s.pcb i).resp_time) ∧
    ((s.pcb i).first_run = -1 →
      (((scheduler c s).pcb i).first_run = -1 ∧
        ((scheduler c s).pcb i).resp_time = (s.pcb i).resp_time) ∨
      (((scheduler c s).pcb i).status = ProcState.RUNNING ∧
        ((scheduler c s).pcb i).first_run = (scheduler c s).clock_tick ∧
        ((scheduler c s).pcb i).resp_time =
          ((scheduler c s).pcb i).first_run - ((scheduler c s).pcb i).arrival)) := by
  have h1 := charge_first_run c s i
  have h2 := dispatch_first_run c (scheduler_charge c s) i
  rw [h1.1, h1.2] at h2
  exact h2

theorem first_run_frozen {c : Config} (n k i : Nat)
    (h : ((run c n).pcb i).first_run ≠ -1) :
    ((run c (n + k)).pcb i).first_run = ((run c n).pcb i).first_run ∧
    ((run c (n + k)).pcb i).resp_time = ((run c n).pcb i).resp_time := by
  induction k with
  | zero => exact ⟨rfl, rfl⟩
  | succ k ih =>
    have hne : ((run c (n + k)).pcb i).first_run ≠ -1 := by rw [ih.1]; exact h
    have := (scheduler_first_run c (run c (n + k)) i).1 hne
    exact ⟨this.1.trans ih.1, this.2.trans ih.2⟩

/-- In exact arithmetic `first_run` and `resp_time` are written once.  In the boot state the
process dispatched by `main` has `first_run = clock_tick` and
`resp_time = first_run - arrival`, every other process has `first_run`
unset.  A `first_run` that is set is never changed by any later tick, and
neither is the `resp_time` next to it.  A tick finds `first_run` unset only
on a process that has never been `RUNNING`; it sets it exactly when it makes
that process `RUNNING`, to `clock_tick`, together with
`resp_time = first_run - arrival`, and the value differs from the unset
mark. -/
theorem first_run_written_once_exact (c : Config) (hwf : c.WF) (n i : Nat)
    (hi : i < c.PROC_COUNT) :
    (((run c 0).pcb i).status = ProcState.RUNNING →
      ((run c 0).pcb i).first_run = (run c 0).clock_tick ∧
      ((run c 0).pcb i).resp_time = ((run c 0).pcb i).first_run - ((run c 0).pcb i).arrival) ∧
    (((run c 0).pcb i).status ≠ ProcState.RUNNING → ((run c 0).pcb i).first_run = -1) ∧
    (((run c n).pcb i).first_run ≠ -1 → ∀ k,
      ((run c (n + k)).pcb i).first_run = ((run c n).pcb i).first_run ∧
      ((run c (n + k)).pcb i).resp_time = ((run c n).pcb i).resp_time) ∧
    (((run c n).pcb i).first_run = -1 →
      (∀ m, m ≤ n → ((run c m).pcb i).status ≠ ProcState.RUNNING) ∧
      (((run c (n + 1)).pcb i).status = ProcState.RUNNING →
        ((run c (n + 1)).pcb i).first_run = (run c (n + 1)).clock_tick ∧
        ((run c (n + 1)).pcb i).resp_time =
          ((run c (n + 1)).pcb i).first_run - ((run c (n + 1)).pcb i).arrival ∧
        ((run c (n + 1)).pcb i).first_run ≠ -1) ∧
      (((run c (n + 1)).pcb i).status ≠ ProcState.RUNNING →
        ((run c (n + 1)).pcb i).first_run = -1 ∧
        ((run c (n + 1)).pcb i).resp_time = ((run c n).pcb i).resp_time)) := by
  have hrun : ∀ m, ((run c m).pcb i).status = ProcState.RUNNING →
      ((run c m).pcb i).first_run ≠ -1 := by
    intro m hr hfr
    have := (((inv_run hwf m).1.pcbs i hi).first_unset hfr).1
    rw [this] at hr
    cases hr
  obtain ⟨hclk, _, harr, h0, hne0⟩ := boot_pcb hwf i hi
  refine ⟨?_, ?_, fun h k => first_run_frozen n k i h, ?_⟩
  · intro hr
    have hi0 : i = 0 := by
      by_contra hne
      have := (hne0 hne).1
      rw [show run c 0 = boot c from rfl, this] at hr
      cases hr
    obtain ⟨_, hfr, hresp⟩ := h0 hi0
    show ((boot c).pcb i).first_run = (boot c).clock_tick ∧
      ((boot c).pcb i).resp_time = ((boot c).pcb i).first_run - ((boot c).pcb i).arrival
    rw [hfr, hresp, hclk, harr]
    exact ⟨rfl, rfl⟩
  · intro hnr
    have hi0 : i ≠ 0 := by
      intro h
      exact hnr (h0 h).1
    exact (hne0 hi0).2
  · intro hfr
    refine ⟨?_, ?_, ?_⟩
    · intro m hm hr
      have hset := hrun m hr
      obtain ⟨k, rfl⟩ := Nat.exists_eq_add_of_le hm
      have := (first_run_frozen m k i hset).1
      rw [hfr] at this
      exact hset this.symm
    · intro hr
      have hset := hrun (n + 1) hr
      rcases (scheduler_first_run c (run c n) i).2 hfr with h | h
      · exact absurd h.1 hset
      · exact ⟨h.2.1, h.2.2, hset⟩
    · intro hnr
      rcases (scheduler_first_run c (run c n) i).2 hfr with h | h
      · exact h
      · exact absurd h.1 hnr

theorem countP_le_one_of_unique (q : PCB → Bool) (t : List PCB)
    (h : ∀ i j, i < t.length → j < t.length →
      q (t.getD i PCB.zero) = true → q (t.getD j PCB.zero) = true → i = j) :
    t.countP q ≤ 1 := by
  induction t with
  | nil => simp
  | cons x t ih =>
    have ih' := ih (fun i j hi hj hqi hqj => by
      have := h (i + 1) (j + 1) (by simpa using hi) (by simpa using hj) hqi hqj
      omega)
    rw [List.countP_cons]
    by_cases hx : q x = true
    · have hzero : t.countP q = 0 := by
        rw [List.countP_eq_zero]
        intro p hp hq
        obtain ⟨j, hj, rfl⟩ := List.getElem_of_mem hp
        have hq' : q (t.getD j PCB.zero) = true := by
          rw [List.getD_eq_getElem _ _ hj]
          exact hq
        have := h 0 (j + 1) (by simp) (by simpa using hj) hx hq'
        omega
      simp [hx, hzero]
    · simp [hx, ih']

theorem Inv.running_unique {c : Config} {s : State} (h : Inv c s) (i j : Nat)
    (hi : i < c.PROC_COUNT) (hj : j < c.PROC_COUNT)
    (hri : (s.pcb i).status = ProcState.RUNNING) (hrj : (s.pcb j).status = ProcState.RUNNING) :
    i = j := by
  obtain ⟨_, ⟨a, _, _, _, _, huniq⟩ | ⟨a, _, _, _, _, hall⟩ | ⟨_, _, hall⟩⟩ := h
  · rw [huniq i hi hri, huniq j hj hrj]
  · rw [hall i hi] at hri; cases hri
  · rw [hall i hi] at hri; cases hri

/-- C5: in every state of a run, observed between ticks, at most one PCB of
`proc_table` has status `RUNNING`. -/
theorem C5_at_most_one_running (c : Config) (hwf : c.WF) (n : Nat) :
    running_count (run c n) ≤ 1 := by
  have h := inv_run hwf n
  unfold running_count
  apply countP_le_one_of_unique
  intro i j hi hj hqi hqj
  rw [h.1.table_len] at hi hj
  exact h.running_unique i j hi hj (of_decide_eq_true hqi) (of_decide_eq_true hqj)

/-- C5, instance: the shipped run after 3 ticks. -/
theorem C5_at_most_one_running_witness :
    shipped.WF ∧ running_count (run shipped 3) ≤ 1 :=
  ⟨by decide, C5_at_most_one_running shipped (by decide) 3⟩

/-- C6: in every state of a run, the ready queue holds no pid twice and
holds exactly the pids whose PCB is `READY`: every entry is the pid of a
process that is neither `RUNNING` nor `FINISHED`, and every process that is
neither finished nor running is in it. -/
theorem C6_ready_queue_is_ready_set (c : Config) (hwf : c.WF) (n : Nat) :
    (ready_queue c (run c n)).Nodup ∧
    (∀ x, x ∈ ready_queue c (run c n) →
      ∃ i, i < c.PROC_COUNT ∧ x = (i : Int) ∧ ((run c n).pcb i).status = ProcState.READY) ∧
    (∀ i, i < c.PROC_COUNT →
      ((i : Int) ∈ ready_queue c (run c n) ↔ ((run c n).pcb i).status = ProcState.READY)) ∧
    (∀ i, i < c.PROC_COUNT → (i : Int) ∈ ready_queue c (run c n) →
      ((run c n).pcb i).status ≠ ProcState.RUNNING ∧
      ((run c n).pcb i).status ≠ ProcState.FINISHED) ∧
    (∀ i, i < c.PROC_COUNT → ((run c n).pcb i).status ≠ ProcState.FINISHED →
      ((run c n).pcb i).status ≠ ProcState.RUNNING → (i : Int) ∈ ready_queue c (run c n)) := by
  have hb := (inv_run hwf n).1
  have hiff : ∀ i, i < c.PROC_COUNT →
      ((i : Int) ∈ ready_queue c (run c n) ↔ ((run c n).pcb i).status = ProcState.READY) := by
    intro i hi
    rw [hb.queue_mem]
    constructor
    · rintro ⟨j, _, hij, hst⟩
      have : i = j := by exact_mod_cast hij
      rw [this]
      exact hst
    · intro hst
      exact ⟨i, hi, rfl, hst⟩
  refine ⟨hb.queue_nodup, fun x hx => (hb.queue_mem x).mp hx, hiff, ?_, ?_⟩
  · intro i hi hmem
    rw [(hiff i hi).mp hmem]
    exact ⟨by decide, by decide⟩
  · intro i hi hnf hnr
    apply (hiff i hi).mpr
    cases hs : ((run c n).pcb i).status
    · rfl
    · exact absurd hs hnr
    · exact absurd hs hnf

/-- C6, instance: the shipped run after 8 ticks. -/
theorem C6_ready_queue_is_ready_set_witness :
    shipped.WF ∧ (ready_queue shipped (run shipped 8)).Nodup ∧
    (∀ i, i < shipped.PROC_COUNT →
      ((i : Int) ∈ ready_queue shipped (run shipped 8) ↔
        ((run shipped 8).pcb i).status = ProcState.READY)) :=
  ⟨by decide, (C6_ready_queue_is_ready_set shipped (by decide) 8).1,
    (C6_ready_queue_is_ready_set shipped (by decide) 8).2.2.1⟩

/-- The charge half of a tick writes no PCB but that of `active_pid`. -/
theorem charge_pcb_ne (c : Config) (s : State) (i : Nat) (h : s.active_pid ≠ (i : Int)) :
    (scheduler_charge c s).pcb i = s.pcb i := by
  unfold scheduler_charge State.pcb
  by_cases hact : s.active_pid = -1
  · simp [hact]
  · simp only [ne_eq, hact, not_false_eq_true, if_true]
    split
    · simp only [State.print, getPCB_setPCB_int, h, false_and, if_false]
    · simp only [State.print, push_proc_table, getPCB_setPCB_int, h, false_and, if_false]

/-- The dispatch half of a tick writes no PCB but that of the pid it pops. -/
theorem dispatch_pcb_ne (c : Config) (s : State) (i : Nat)
    (h : s.done_total = (c.PROC_COUNT : Int) ∨ s.q_size = 0 ∨
      s.run_queue.getD s.q_front 0 ≠ (i : Int)) :
    (scheduler_dispatch c s).pcb i = s.pcb i := by
  unfold scheduler_dispatch State.pcb
  split
  · rfl
  · next hd =>
    split
    · next hq =>
      have hq' : s.q_size ≠ 0 := by simpa [queue_empty] using hq
      have hx : s.run_queue.getD s.q_front 0 ≠ (i : Int) := by
        rcases h with h | h | h
        · exact absurd h hd
        · exact absurd h hq'
        · exact h
      have hpop : (pop c s).1 = s.run_queue.getD s.q_front 0 := by
        unfold pop
        rw [if_neg hq']
      simp only [State.print, pop_proc_table, getPCB_setPCB_int, hpop, hx, false_and, if_false]
    · rfl

/-- A tick that finds the active process already finished rewrites its PCB
with the values it holds. -/
theorem charge_terminal_pcb {c : Config} {s : State} (hwf : c.WF) (hb : Base c s) (a : Nat)
    (ha : a < c.PROC_COUNT) (hact : s.active_pid = (a : Int))
    (hst : (s.pcb a).status = ProcState.FINISHED)
    (hfin : (s.pcb a).finished_at = s.clock_tick) :
    (scheduler_charge c s).pcb a = s.pcb a := by
  have hp := hb.pcbs a ha
  have hzero : (s.pcb a).time_left = 0 := hp.fin_iff.mp hst
  have hle : (s.pcb a).time_left ≤ c.SLICE := by
    have := hwf.2.1
    omega
  have hal : a < s.proc_table.length := by rw [hb.table_len]; exact ha
  have he := AOL.charge_finish c s a hact hle
  have hpcb := pcb_of_set s (scheduler_charge c s) a _ hal (by rw [he])
  rw [hpcb a, if_pos rfl]
  obtain ⟨h1, h2, _⟩ := hp.fin_metrics hst
  cases hpa : s.pcb a with
  | mk id burst time_left status arrival first_run finished_at wait_time turn_time resp_time =>
    rw [hpa] at hzero hst hfin h1 h2
    simp only at hzero hst hfin h1 h2
    simp only [PCB.mk.injEq, true_and, and_true]
    refine ⟨hzero.symm, hst.symm, ?_, ?_, ?_⟩
    · rw [hzero, add_zero, hfin]
    · rw [hzero, add_zero, h2, h1, hfin]
    · rw [hzero, add_zero, h1, hfin]

/-- One tick leaves the PCB of a finished process as it is. -/
theorem scheduler_pcb_finished {c : Config} {s : State} (hwf : c.WF) (h : Inv c s) (i : Nat)
    (hi : i < c.PROC_COUNT) (hst : (s.pcb i).status = ProcState.FINISHED) :
    (scheduler c s).pcb i = s.pcb i := by
  obtain ⟨hb1, hbt⟩ := inv_charge hwf h
  have hc : (scheduler_charge c s).pcb i = s.pcb i := by
    obtain ⟨hb, ⟨a, ha, hact, hr, _, _⟩ | ⟨a, ha, hact, hfin, _, hall⟩ | ⟨hact, _, _⟩⟩ := h
    · apply charge_pcb_ne
      rw [hact]
      intro e
      have : a = i := by exact_mod_cast e
      subst this
      rw [hr] at hst
      cases hst
    · by_cases hai : a = i
      · subst hai
        exact charge_terminal_pcb hwf hb a ha hact hst hfin
      · apply charge_pcb_ne
        rw [hact]
        intro e
        exact hai (by exact_mod_cast e)
    · apply charge_pcb_ne
      rw [hact]
      omega
  unfold scheduler
  rw [← hc]
  apply dispatch_pcb_ne
  by_cases hq : (scheduler_charge c s).q_size = 0
  · exact Or.inr (Or.inl hq)
  · right; right
    intro hx
    have hmem : (i : Int) ∈ ready_queue c (scheduler_charge c s) := by
      rw [ready_queue_cons c _ hq, hx]
      exact List.mem_cons_self _ _
    obtain ⟨j, _, hij, hr⟩ := (hb1.queue_mem _).mp hmem
    have : i = j := by exact_mod_cast hij
    subst this
    rw [hc, hst] at hr
    cases hr

/-- C7: `FINISHED` is terminal and its metrics are frozen.  Once the PCB of
a process has status `FINISHED` in a state of a run, every later tick leaves
the whole PCB unchanged, in particular `status`, `time_left`, `finished_at`,
`turn_time`, `wait_time`, `resp_time` and `first_run`. -/
theorem C7_finished_is_frozen (c : Config) (hwf : c.WF) (n k i : Nat) (hi : i < c.PROC_COUNT)
    (hfin : ((run c n).pcb i).status = ProcState.FINISHED) :
    (run c (n + k)).pcb i = (run c n).pcb i := by
  induction k with
  | zero => rfl
  | succ k ih =>
    have hst : ((run c (n + k)).pcb i).status = ProcState.FINISHED := by rw [ih]; exact hfin
    have := scheduler_pcb_finished hwf (inv_run hwf (n + k)) i hi hst
    exact this.trans ih

/-- C7, instance: pid 1 of the shipped run, finished after 7 ticks, seen again
9 ticks later. -/
theorem C7_finished_is_frozen_witness :
    shipped.WF ∧ 1 < shipped.PROC_COUNT ∧
    ((run shipped 7).pcb 1).status = ProcState.FINISHED ∧
    (run shipped (7 + 9)).pcb 1 = (run shipped 7).pcb 1 :=
  ⟨by decide, by decide, by decide,
    C7_finished_is_frozen shipped (by decide) 7 9 1 (by decide) (by decide)⟩

theorem charged_total_of_all_finished {c : Config} {s : State} (hb : Base c s)
    (hall : ∀ i, i < c.PROC_COUNT → (s.pcb i).status = ProcState.FINISHED) :
    charged_total s = c.bursts.sum := by
  unfold charged_total
  congr 1
  apply List.ext_getElem
  · rw [List.length_map, hb.table_len]
    rfl
  · intro i h1 h2
    have hi : i < c.PROC_COUNT := h2
    have hlen : i < s.proc_table.length := by rw [hb.table_len]; exact hi
    have hp := hb.pcbs i hi
    have hz := hp.fin_iff.mp (hall i hi)
    have hbu := hp.burst_eq
    rw [State.pcb, getPCB_natCast, List.getD_eq_getElem _ _ hlen] at hz hbu
    rw [List.getD_eq_getElem _ _ h2] at hbu
    rw [List.getElem_map, hz, hbu, sub_zero]

/-- In exact arithmetic, in every state of a run `clock_tick` is the total time charged so
far, the sum over the table of `burst - time_left`.  When `done_total`
equals `PROC_COUNT` every process is finished, `clock_tick` is the sum of all
bursts, no `finished_at` exceeds it, and the process that completed last,
which `active_pid` still names, has `finished_at = clock_tick`. -/
theorem clock_is_total_charged_exact (c : Config) (hwf : c.WF) (n : Nat) :
    (run c n).clock_tick = charged_total (run c n) ∧
    ((run c n).done_total = (c.PROC_COUNT : Int) →
      (run c n).clock_tick = c.bursts.sum ∧
      (∀ i, i < c.PROC_COUNT → ((run c n).pcb i).status = ProcState.FINISHED ∧
        ((run c n).pcb i).finished_at ≤ (run c n).clock_tick) ∧
      (0 < c.PROC_COUNT → ∃ a, a < c.PROC_COUNT ∧ (run c n).active_pid = (a : Int) ∧
        ((run c n).pcb a).finished_at = (run c n).clock_tick)) := by
  obtain ⟨hb, hmode⟩ := inv_run hwf n
  refine ⟨hb.clock_eq, fun hd => ?_⟩
  have hall : ∀ i, i < c.PROC_COUNT → ((run c n).pcb i).status = ProcState.FINISHED := by
    rcases hmode with ⟨a, ha, _, hr, hdone, _⟩ | ⟨a, _, _, _, _, hall⟩ | ⟨_, _, hall⟩
    · have hcnt : finished_count (run c n) = c.PROC_COUNT := by
        rw [hdone] at hd
        exact_mod_cast hd
      exact (finished_count_eq_length hb).mp hcnt
    · exact hall
    · exact hall
  refine ⟨?_, ?_, ?_⟩
  · rw [hb.clock_eq]
    exact charged_total_of_all_finished hb hall
  · intro i hi
    exact ⟨hall i hi, ((hb.pcbs i hi).fin_metrics (hall i hi)).2.2⟩
  · intro hpos
    rcases hmode with ⟨a, ha, _, hr, _, _⟩ | ⟨a, ha, hact, hfin, _, _⟩ | ⟨_, hdone | ⟨h0, _⟩, _⟩
    · rw [hall a ha] at hr
      cases hr
    · exact ⟨a, ha, hact, hfin⟩
    · omega
    · omega

/-- C9: the state of the shipped run after 15 ticks has `done_total = 5`,
its population size, with `active_pid` still naming pid 4.  One more call of
`scheduler` charges that finished process again (an exec amount of 0),
prints its completion a second time, raises `done_total` to 6 and, finding
`done_total` different from 5, goes on to the dispatch half, which reports an
idle CPU and sets `active_pid` to -1.  The PCBs, the ready queue and
`clock_tick` are unchanged. -/
theorem C9_tick_after_terminal_state :
    (run shipped 15).done_total = 5 ∧
    (run shipped 15).active_pid = 4 ∧
    (scheduler shipped (run shipped 15)).done_total = 6 ∧
    (scheduler shipped (run shipped 15)).active_pid = -1 ∧
    (scheduler shipped (run shipped 15)).stdout = (run shipped 15).stdout ++
      [{ clock := 40, msg := Msg.interrupt 4 0 }, { clock := 40, msg := Msg.completed 4 },
       { clock := 40, msg := Msg.idle }] ∧
    (scheduler shipped (run shipped 15)).proc_table = (run shipped 15).proc_table ∧
    (scheduler shipped (run shipped 15)).clock_tick = (run shipped 15).clock_tick ∧
    ready_queue shipped (scheduler shipped (run shipped 15))
      = ready_queue shipped (run shipped 15) := by
  decide

/-- C10, counterexample: with capacity 4 and the shipped population of 5,
the fifth `push` of `boot_system` finds the queue full and changes nothing
but the output; pid 4 is left `READY`, never in the ready queue and never
active, while the run goes on, finishes the other four processes and then
idles. -/
theorem C10_full_queue_drops_process :
    cramped.Q_CAPACITY < cramped.PROC_COUNT ∧
    (boot_loop cramped 4).q_size = cramped.Q_CAPACITY ∧
    ready_queue cramped (boot_loop cramped 5) = ready_queue cramped (boot_loop cramped 4) ∧
    stamps (boot cramped).stdout Msg.overflow = [0] ∧
    (∀ n, n ≤ 15 → ((run cramped n).pcb 4).status = ProcState.READY ∧
      ((run cramped n).pcb 4).time_left = 12 ∧
      (4 : Int) ∉ ready_queue cramped (run cramped n) ∧
      (run cramped n).active_pid ≠ 4) ∧
    (run cramped 1).active_pid = 1 ∧
    (run cramped 11).done_total = 4 ∧
    (run cramped 11).active_pid = -1 := by
  decide

/-- C10, amended: `push` on a full queue prints the overflow warning and
returns the globals otherwise unchanged, so the pid is dropped and the caller
is told nothing.  When the capacity is at least the population size (and
bursts and quantum are positive) the warning is never printed in a run, and
every process that is not finished is the active process or is in the ready
queue. -/
theorem C10_push_on_full_queue (c : Config) :
    (∀ (s : State) (pid : Int), s.q_size = c.Q_CAPACITY →
      push c s pid = s.print Msg.overflow ∧
      ready_queue c (push c s pid) = ready_queue c s) ∧
    (c.WF → ∀ n,
      (∀ e, e ∈ (run c n).stdout → e.msg ≠ Msg.overflow) ∧
      ∀ i, i < c.PROC_COUNT → ((run c n).pcb i).status ≠ ProcState.FINISHED →
        (run c n).active_pid = (i : Int) ∨ (i : Int) ∈ ready_queue c (run c n)) := by
  constructor
  · intro s pid h
    have he : push c s pid = s.print Msg.overflow := by
      unfold push
      rw [if_pos h]
    exact ⟨he, by rw [he]; rfl⟩
  · intro hwf n
    obtain ⟨hb, hmode⟩ := inv_run hwf n
    refine ⟨hb.no_overflow, ?_⟩
    intro i hi hnf
    cases hs : ((run c n).pcb i).status
    · exact Or.inr ((hb.queue_mem _).mpr ⟨i, hi, rfl, hs⟩)
    · left
      rcases hmode with ⟨a, _, hact, _, _, huniq⟩ | ⟨_, _, _, _, _, hall⟩ | ⟨_, _, hall⟩
      · rw [hact, huniq i hi hs]
      · exact absurd (hall i hi) hnf
      · exact absurd (hall i hi) hnf
    · exact absurd hs hnf

/-- C10, instance: the fifth `push` of `boot_system` at capacity 4, and the
shipped run after 9 ticks. -/
theorem C10_push_on_full_queue_witness :
    (boot_loop cramped 4).q_size = cramped.Q_CAPACITY ∧
    push cramped (boot_loop cramped 4) 4 = (boot_loop cramped 4).print Msg.overflow ∧
    shipped.WF ∧
    (∀ e, e ∈ (run shipped 9).stdout → e.msg ≠ Msg.overflow) :=
  ⟨by decide, ((C10_push_on_full_queue cramped).1 (boot_loop cramped 4) 4 (by decide)).1,
    by decide, ((C10_push_on_full_queue shipped).2 (by decide) 9).1⟩

theorem QueueRel.size_eq {c : Config} {s : State} {l : List Int} (h : QueueRel c s l) :
    s.q_size = l.length := by
  rw [← h.2.2.2.2, ready_queue, length_queue_from]

theorem QueueRel.init (c : Config) : QueueRel c (State.init c) [] := by
  refine ⟨?_, fun h => h, ?_, Nat.zero_le _, rfl⟩
  · simp [State.init]
  · simp [State.init]

theorem QueueRel.push {c : Config} {s : State} {l : List Int} (h : QueueRel c s l)
    (pid : Int) : QueueRel c (push c s pid) ((spec_enqueue c.Q_CAPACITY l pid).getD l) := by
  have hsz := h.size_eq
  obtain ⟨h1, h2, h3, h5, h4⟩ := h
  unfold spec_enqueue
  by_cases hlt : l.length < c.Q_CAPACITY
  · have hlt' : s.q_size < c.Q_CAPACITY := by omega
    have hcap : 0 < c.Q_CAPACITY := by omega
    have hq := ready_queue_push c s pid h1 (h2 hcap) h3 hlt'
    rw [if_pos hlt, Option.getD_some, ← h4, ← hq]
    rw [push_of_lt c s pid hlt']
    refine ⟨by simp [h1], h2, ?_, by simp only; omega, rfl⟩
    simp only [h3, Nat.mod_add_mod]
    rfl
  · have hfull : s.q_size = c.Q_CAPACITY := by omega
    rw [if_neg hlt, Option.getD_none]
    have he : AOL.push c s pid = s.print Msg.overflow := by
      unfold AOL.push
      rw [if_pos hfull]
    rw [he]
    exact ⟨h1, h2, h3, h5, h4⟩

theorem QueueRel.pop {c : Config} {s : State} {l : List Int} (h : QueueRel c s l) :
    (pop c s).1 = (spec_dequeue l).1.getD (-1) ∧ QueueRel c (pop c s).2 (spec_dequeue l).2 := by
  have hsz := h.size_eq
  obtain ⟨h1, h2, h3, h5, h4⟩ := h
  cases l with
  | nil =>
    have h0 : s.q_size = 0 := by simpa using hsz
    have he : AOL.pop c s = (-1, s) := by
      unfold AOL.pop
      rw [if_pos h0]
    rw [he]
    exact ⟨rfl, h1, h2, h3, h5, h4⟩
  | cons x t =>
    have h0 : s.q_size ≠ 0 := by
      rw [hsz]
      simp
    have hcap : 0 < c.Q_CAPACITY := by omega
    have hq := ready_queue_pop c s h0
    rw [h4] at hq
    obtain ⟨hx, ht⟩ := List.cons.inj hq
    refine ⟨hx.symm, ?_, ?_, ?_, ?_, ht.symm⟩
    · unfold AOL.pop
      rw [if_neg h0]
      exact h1
    · intro _
      unfold AOL.pop
      rw [if_neg h0]
      exact Nat.mod_lt _ hcap
    · unfold AOL.pop
      rw [if_neg h0]
      simp only [h3, Nat.mod_add_mod]
      congr 1
      omega
    · unfold AOL.pop
      rw [if_neg h0]
      simp only
      omega

theorem queue_calls_refine {c : Config} (ops : List QueueOp) (s : State) (l : List Int)
    (h : QueueRel c s l) :
    QueueRel c (queue_calls c s ops).1 (spec_calls c.Q_CAPACITY l ops).1 ∧
    (queue_calls c s ops).2 = (spec_calls c.Q_CAPACITY l ops).2.map fun r => r.getD (-1) := by
  induction ops generalizing s l with
  | nil => exact ⟨h, rfl⟩
  | cons op ops ih =>
    cases op with
    | push pid =>
      exact ih _ _ (h.push pid)
    | pop =>
      obtain ⟨hr, hrel⟩ := h.pop
      obtain ⟨h1, h2⟩ := ih _ _ hrel
      refine ⟨h1, ?_⟩
      simp only [queue_calls, spec_calls, List.map_cons, hr, h2]

/-- C11: the circular buffer refines the bounded FIFO list of the spec.  For
every sequence of `push` and `pop` calls from the empty queue, the buffer
content equals the model list and every `pop` returned what the model
`dequeue` returned (-1 for the empty mark).  In the state reached, `pop` on
an empty queue returns -1 and changes nothing, `pop` otherwise returns the
head of the model list, the oldest pid not yet popped, and leaves its tail,
`push` on a queue below capacity appends the pid at the tail, and
`queue_empty` holds exactly when the model list is empty. -/
theorem C11_queue_refines_fifo (c : Config) (ops : List QueueOp) :
    ready_queue c (queue_calls c (State.init c) ops).1
      = (spec_calls c.Q_CAPACITY [] ops).1 ∧
    (queue_calls c (State.init c) ops).2
      = ((spec_calls c.Q_CAPACITY [] ops).2.map fun r => r.getD (-1)) ∧
    (queue_empty (queue_calls c (State.init c) ops).1
      = spec_is_empty (spec_calls c.Q_CAPACITY [] ops).1) ∧
    ((spec_calls c.Q_CAPACITY [] ops).1 = [] →
      pop c (queue_calls c (State.init c) ops).1
        = (-1, (queue_calls c (State.init c) ops).1)) ∧
    (∀ x t, (spec_calls c.Q_CAPACITY [] ops).1 = x :: t →
      (pop c (queue_calls c (State.init c) ops).1).1 = x ∧
      ready_queue c (pop c (queue_calls c (State.init c) ops).1).2 = t) ∧
    (∀ pid, ((spec_calls c.Q_CAPACITY [] ops).1).length < c.Q_CAPACITY →
      ready_queue c (push c (queue_calls c (State.init c) ops).1 pid)
        = (spec_calls c.Q_CAPACITY [] ops).1 ++ [pid]) := by
  obtain ⟨hrel, hout⟩ := queue_calls_refine ops (State.init c) [] (QueueRel.init c)
  generalize (queue_calls c (State.init c) ops).1 = s at hrel
  generalize (spec_calls c.Q_CAPACITY [] ops).1 = l at hrel
  have hsz := hrel.size_eq
  refine ⟨hrel.2.2.2.2, hout, ?_, ?_, ?_, ?_⟩
  · unfold queue_empty spec_is_empty
    rw [hsz]
    cases l <;> simp
  · intro hl
    subst hl
    have h0 : s.q_size = 0 := by simpa using hsz
    unfold pop
    rw [if_pos h0]
  · intro x t hl
    subst hl
    obtain ⟨h1, h2⟩ := hrel.pop
    exact ⟨h1, h2.2.2.2.2⟩
  · intro pid hlt
    have := (hrel.push pid).2.2.2.2
    unfold spec_enqueue at this
    rw [if_pos hlt, Option.getD_some] at this
    exact this


/-- C11, instance: two pushes and a pop on the shipped queue leave the second
pid at the head. -/
theorem C11_queue_refines_fifo_witness :
    (spec_calls shipped.Q_CAPACITY [] [QueueOp.push 7, QueueOp.push 9, QueueOp.pop]).1 = [9] ∧
    (pop shipped (queue_calls shipped (State.init shipped)
      [QueueOp.push 7, QueueOp.push 9, QueueOp.pop]).1).1 = 9 :=
  ⟨by decide,
    ((C11_queue_refines_fifo shipped [QueueOp.push 7, QueueOp.push 9, QueueOp.pop]).2.2.2.2.1
      9 [] (by decide)).1⟩

/-- The charge half of a tick lowers the `time_left` of the active process
by the exec amount and touches no other `time_left` and no `burst`. -/
theorem charge_time_left (c : Config) (s : State) (i : Nat) :
    ((scheduler_charge c s).pcb i).time_left =
      (if s.active_pid = (i : Int) ∧ i < s.proc_table.length then
        (s.pcb i).time_left - exec_amount c (s.pcb i)
      else (s.pcb i).time_left) ∧
    ((scheduler_charge c s).pcb i).burst = (s.pcb i).burst := by
  unfold scheduler_charge State.pcb
  by_cases hact : s.active_pid = -1
  · have hne : ¬ ((-1 : Int) = (i : Int)) := by omega
    simp [hact, hne]
  · simp only [ne_eq, hact, not_false_eq_true, if_true]
    split
    · simp only [State.print, getPCB_setPCB_int]
      split
      · next h => rw [h.1]; exact ⟨rfl, rfl⟩
      · exact ⟨rfl, rfl⟩
    · simp only [State.print, push_proc_table, getPCB_setPCB_int]
      split
      · next h => rw [h.1]; exact ⟨rfl, rfl⟩
      · exact ⟨rfl, rfl⟩

/-- The dispatch half of a tick writes no `time_left` and no `burst`. -/
theorem dispatch_time_left (c : Config) (s : State) (i : Nat) :
    ((scheduler_dispatch c s).pcb i).time_left = (s.pcb i).time_left ∧
    ((scheduler_dispatch c s).pcb i).burst = (s.pcb i).burst := by
  unfold scheduler_dispatch State.pcb
  split
  · exact ⟨rfl, rfl⟩
  · split
    · simp only [State.print, pop_proc_table, getPCB_setPCB_int]
      split
      · next h =>
        rw [h.1]
        split <;> exact ⟨rfl, rfl⟩
      · exact ⟨rfl, rfl⟩
    · exact ⟨rfl, rfl⟩

theorem scheduler_time_left (c : Config) (s : State) (i : Nat) :
    ((scheduler c s).pcb i).time_left =
      (if s.active_pid = (i : Int) ∧ i < s.proc_table.length then
        (s.pcb i).time_left - exec_amount c (s.pcb i)
      else (s.pcb i).time_left) ∧
    ((scheduler c s).pcb i).burst = (s.pcb i).burst := by
  unfold scheduler
  rw [(dispatch_time_left c _ i).1, (dispatch_time_left c _ i).2]
  exact charge_time_left c s i

theorem exec_amount_eq_min (c : Config) (p : PCB) :
    exec_amount c p = min c.SLICE p.time_left := by
  unfold exec_amount
  split
  · next h => rw [min_eq_right (le_of_lt h)]
  · next h => rw [min_eq_left (not_lt.mp h)]

/-- C18: the exec amount of a tick is `min(SLICE, time_left)`.  In every
state whose active process is in the table with `time_left >= 0`, one call of
`scheduler` takes that `time_left` to `max(time_left - SLICE, 0)`, and in
every state it leaves the `time_left` of every other process unchanged.
Hence in every state of a run `0 <= time_left <= burst` holds for every
process and no tick increases a `time_left`. -/
theorem C18_tick_charges_min (c : Config) :
    (∀ p : PCB, exec_amount c p = min c.SLICE p.time_left) ∧
    (∀ (s : State) (a : Nat), a < s.proc_table.length → s.active_pid = (a : Int) →
      0 ≤ (s.pcb a).time_left →
      ((scheduler c s).pcb a).time_left = max ((s.pcb a).time_left - c.SLICE) 0) ∧
    (∀ (s : State) (i : Nat), s.active_pid ≠ (i : Int) →
      ((scheduler c s).pcb i).time_left = (s.pcb i).time_left) ∧
    (c.WF → ∀ n i, i < c.PROC_COUNT →
      0 ≤ ((run c n).pcb i).time_left ∧
      ((run c n).pcb i).time_left ≤ ((run c n).pcb i).burst ∧
      ((run c (n + 1)).pcb i).time_left ≤ ((run c n).pcb i).time_left) := by
  refine ⟨exec_amount_eq_min c, ?_, ?_, ?_⟩
  · intro s a ha hact hpos
    rw [(scheduler_time_left c s a).1, if_pos ⟨hact, ha⟩]
    unfold exec_amount
    split
    · next h =>
      rw [sub_self, max_eq_right (by omega)]
    · next h =>
      rw [max_eq_left (by omega)]
  · intro s i hne
    rw [(scheduler_time_left c s i).1, if_neg (fun h => hne h.1)]
  · intro hwf n i hi
    have hp := ((inv_run hwf n).1.pcbs i hi)
    refine ⟨hp.left_nonneg, hp.left_le, ?_⟩
    show ((scheduler c (run c n)).pcb i).time_left ≤ _
    rw [(scheduler_time_left c (run c n) i).1]
    split
    · have hs := hwf.2.1
      have h0 := hp.left_nonneg
      unfold exec_amount
      split <;> omega
    · exact le_refl _

/-- C18, instance: pid 2 of the shipped run is active after 2 ticks with 10
units left and has 7 left after the next tick. -/
theorem C18_tick_charges_min_witness :
    2 < (run shipped 2).proc_table.length ∧ (run shipped 2).active_pid = ((2 : Nat) : Int) ∧
    0 ≤ ((run shipped 2).pcb 2).time_left ∧
    ((scheduler shipped (run shipped 2)).pcb 2).time_left
      = max (((run shipped 2).pcb 2).time_left - shipped.SLICE) 0 :=
  ⟨by decide, by decide, by decide,
    (C18_tick_charges_min shipped).2.1 (run shipped 2) 2 (by decide) (by decide) (by decide)⟩

theorem Base.queue_size_le {c : Config} {s : State} (hb : Base c s) :
    s.q_size ≤ c.PROC_COUNT := by
  have := length_le_of_nodup_range _ c.PROC_COUNT hb.queue_nodup (by
    intro x hx
    obtain ⟨i, hi, hxi, _⟩ := (hb.queue_mem x).mp hx
    exact ⟨i, hi, hxi⟩)
  simpa only [ready_queue, length_queue_from] using this

/-- After the charge half of a tick of a run, if some process is not
finished the dispatch half pops a `READY` pid and makes it the active
process. -/
theorem dispatch_of_work_left {c : Config} (hwf : c.WF) (n : Nat)
    (hwork : ∃ i, i < c.PROC_COUNT ∧
      ((scheduler_charge c (run c n)).pcb i).status ≠ ProcState.FINISHED) :
    (scheduler_charge c (run c n)).done_total ≠ (c.PROC_COUNT : Int) ∧
    (scheduler_charge c (run c n)).q_size ≠ 0 ∧
    ∃ b, b < c.PROC_COUNT ∧
      (scheduler_charge c (run c n)).run_queue.getD (scheduler_charge c (run c n)).q_front 0
        = (b : Int) ∧
      ((scheduler_charge c (run c n)).pcb b).status = ProcState.READY := by
  obtain ⟨hb, hnr, hbt⟩ := inv_charge hwf (inv_run hwf n)
  obtain ⟨i, hi, hnf⟩ := hwork
  rcases hbt with ⟨hdone, _⟩ | ⟨_, hall⟩ | ⟨_, _, hall⟩
  · have hcnt : finished_count (scheduler_charge c (run c n)) ≠ c.PROC_COUNT := by
      intro h
      exact hnf ((finished_count_eq_length hb).mp h i hi)
    have hd : (scheduler_charge c (run c n)).done_total ≠ (c.PROC_COUNT : Int) := by
      rw [hdone]
      exact_mod_cast hcnt
    obtain ⟨hq, b, hlt, hx, hst⟩ := hb.head_ready hnr hcnt
    exact ⟨hd, hq, b, hlt, hx, hst⟩
  · exact absurd (hall i hi) hnf
  · exact absurd (hall i hi) hnf

/-- C15: in a run, if after the charge step of a tick some PCB is not
`FINISHED`, then the ready queue is not empty and `done_total` differs from
`PROC_COUNT`, so the tick takes the dispatch branch: it prints the switching
message and no idle message, and leaves `active_pid` naming a process of the
table, now `RUNNING`, not -1. -/
theorem C15_no_idle_while_work_remains (c : Config) (hwf : c.WF) (n : Nat)
    (hwork : ∃ i, i < c.PROC_COUNT ∧
      ((scheduler_charge c (run c n)).pcb i).status ≠ ProcState.FINISHED) :
    queue_empty (scheduler_charge c (run c n)) = false ∧
    ready_queue c (scheduler_charge c (run c n)) ≠ [] ∧
    (run c (n + 1)).active_pid ≠ -1 ∧
    ∃ b, b < c.PROC_COUNT ∧ (run c (n + 1)).active_pid = (b : Int) ∧
      ((run c (n + 1)).pcb b).status = ProcState.RUNNING ∧
      (run c (n + 1)).stdout = (scheduler_charge c (run c n)).stdout ++
        [{ clock := (scheduler_charge c (run c n)).clock_tick, msg := Msg.switching b }] := by
  obtain ⟨hd, hq, b, hlt, hx, hst⟩ := dispatch_of_work_left hwf n hwork
  obtain ⟨hb, _⟩ := inv_charge hwf (inv_run hwf n)
  have he := dispatch_pop c (scheduler_charge c (run c n)) b hd hq hx
  have hrun : run c (n + 1) = scheduler_dispatch c (scheduler_charge c (run c n)) := rfl
  have hal : b < (scheduler_charge c (run c n)).proc_table.length := by
    rw [hb.table_len]; exact hlt
  have hpcb := pcb_of_set _ (scheduler_dispatch c (scheduler_charge c (run c n))) b _ hal
    (by rw [he])
  refine ⟨?_, ?_, ?_, b, hlt, ?_, ?_, ?_⟩
  · simpa [queue_empty] using hq
  · intro h
    have := length_queue_from (scheduler_charge c (run c n)).run_queue c.Q_CAPACITY
      (scheduler_charge c (run c n)).q_size (scheduler_charge c (run c n)).q_front
    rw [ready_queue] at h
    rw [h] at this
    exact hq this.symm
  · rw [hrun, he]
    show (b : Int) ≠ -1
    omega
  · rw [hrun, he]
  · rw [hrun, hpcb b, if_pos rfl]
    split <;> rfl
  · rw [hrun, he, (hb.pcbs b hlt).id_eq]

/-- C15, instance: the first tick of the shipped run. -/
theorem C15_no_idle_while_work_remains_witness :
    shipped.WF ∧
    (∃ i, i < shipped.PROC_COUNT ∧
      ((scheduler_charge shipped (run shipped 0)).pcb i).status ≠ ProcState.FINISHED) ∧
    (run shipped (0 + 1)).active_pid ≠ -1 :=
  ⟨by decide, ⟨0, by decide, by decide⟩,
    (C15_no_idle_while_work_remains shipped (by decide) 0 ⟨0, by decide, by decide⟩).2.2.1⟩

/-- C16: when the capacity is at least the population size, as with the
shipped 20 and 5, no `push` overflows.  Inside `boot_system` the queue holds
`k` entries before the `k`-th `push`, fewer than the capacity; in every state
of a run, and between the two halves of every tick, `q_size` is at most
`PROC_COUNT`; whenever a process is active, as at every `push` of
`scheduler`, `q_size` is below the capacity; and the overflow warning is
never printed, so no enqueue is dropped. -/
theorem C16_push_never_overflows (c : Config) (hwf : c.WF) :
    c.PROC_COUNT ≤ c.Q_CAPACITY ∧
    (∀ k, k ≤ c.PROC_COUNT → (boot_loop c k).q_size = k) ∧
    (∀ k, k < c.PROC_COUNT → (boot_loop c k).q_size < c.Q_CAPACITY) ∧
    (∀ n, (run c n).q_size ≤ c.PROC_COUNT ∧
      (scheduler_charge c (run c n)).q_size ≤ c.PROC_COUNT ∧
      ((run c n).active_pid ≠ -1 → (run c n).q_size < c.Q_CAPACITY) ∧
      ∀ e, e ∈ (run c n).stdout → e.msg ≠ Msg.overflow) := by
  refine ⟨hwf.2.2, ?_, ?_, ?_⟩
  · intro k hk
    exact (bootInv_loop c hwf.2.2 k hk).size_eq
  · intro k hk
    rw [(bootInv_loop c hwf.2.2 k (le_of_lt hk)).size_eq]
    exact lt_of_lt_of_le hk hwf.2.2
  · intro n
    obtain ⟨hb, hmode⟩ := inv_run hwf n
    obtain ⟨hb1, _⟩ := inv_charge hwf (inv_run hwf n)
    refine ⟨hb.queue_size_le, hb1.queue_size_le, ?_, hb.no_overflow⟩
    intro hact
    rcases hmode with ⟨a, ha, _, hr, _, _⟩ | ⟨a, ha, _, _, _, hall⟩ | ⟨h1, _⟩
    · exact lt_of_lt_of_le (hb.queue_size_lt a ha (by rw [hr]; decide)) hwf.2.2
    · exact lt_of_lt_of_le (hb.queue_size_lt a ha (by rw [hall a ha]; decide)) hwf.2.2
    · exact absurd h1 hact

/-- C16, instance: the shipped configuration after 6 ticks. -/
theorem C16_push_never_overflows_witness :
    shipped.WF ∧ shipped.PROC_COUNT = 5 ∧ shipped.Q_CAPACITY = 20 ∧
    (run shipped 6).q_size ≤ shipped.PROC_COUNT :=
  ⟨by decide, by decide, by decide,
    ((C16_push_never_overflows shipped (by decide)).2.2.2 6).1⟩

/-- In a run `done_total` is the number of finished PCBs, except after a
tick that came after the terminal one, where it is one more than the
population size. -/
theorem done_total_eq_or_overshoot {c : Config} (hwf : c.WF) (n : Nat) :
    (run c n).done_total = (finished_count (run c n) : Int) ∨
    ((run c n).done_total = (c.PROC_COUNT : Int) + 1 ∧
      finished_count (run c n) = c.PROC_COUNT) := by
  obtain ⟨hb, hmode⟩ := inv_run hwf n
  rcases hmode with ⟨_, _, _, _, hd, _⟩ | ⟨_, _, _, _, hd, hall⟩ | ⟨_, hd | ⟨h0, hd⟩, hall⟩
  · exact Or.inl hd
  · left
    rw [hd, (finished_count_eq_length hb).mpr hall]
  · exact Or.inr ⟨hd, (finished_count_eq_length hb).mpr hall⟩
  · left
    rw [hd, (finished_count_eq_length hb).mpr hall, h0]
    rfl

/-- C17: in the shipped run `done_total` equals the number of finished PCBs
after 15 ticks, both are 5, but after one more tick `done_total` is 6 while
the table still holds 5 finished PCBs: it exceeds `PROC_COUNT`. -/
theorem C17_done_total_overshoots :
    (run shipped 15).done_total = 5 ∧
    finished_count (run shipped 15) = 5 ∧
    (run shipped 16).done_total = 6 ∧
    finished_count (run shipped 16) = 5 ∧
    (run shipped 16).proc_table.length = 5 ∧
    ¬ (run shipped 16).done_total ≤ (shipped.PROC_COUNT : Int) := by
  decide

theorem stamps_append (out : List Event) (e : Event) (m : Msg) :
    stamps (out ++ [e]) m = stamps out m ++ if e.msg = m then [e.clock] else [] := by
  unfold stamps
  rw [List.filter_append, List.map_append]
  congr 1
  by_cases h : e.msg = m <;> simp [List.filter_cons, h]

theorem dispatched_append (out : List Event) (e : Event) :
    dispatched (out ++ [e]) = dispatched out ++
      (match e.msg with
        | Msg.starting pid => [pid]
        | Msg.switching pid => [pid]
        | _ => []) := by
  unfold dispatched
  rw [List.filterMap_append]
  congr 1
  cases e with
  | mk clock msg =>
    cases msg <;> simp [List.filterMap_cons]

/-- The output of `boot_system` consists of the boot banner, the "loaded"
lines and overflow warnings. -/
theorem boot_loop_stdout (c : Config) (k : Nat) :
    ∀ e, e ∈ (boot_loop c k).stdout →
      e.msg = Msg.booting ∨ e.msg = Msg.overflow ∨ ∃ p b, e.msg = Msg.loaded p b := by
  induction k with
  | zero =>
    intro e he
    simp only [boot_loop, List.range_zero, List.foldl_nil, State.print, State.init,
      List.nil_append, List.mem_singleton] at he
    rw [he]
    exact Or.inl rfl
  | succ k ih =>
    intro e he
    rw [boot_loop_succ] at he
    unfold boot_step push at he
    simp only [State.print] at he
    split at he
    · simp only [List.mem_append, List.mem_singleton] at he
      rcases he with (he | he) | he
      · exact ih e he
      · rw [he]; exact Or.inr (Or.inl rfl)
      · rw [he]; exact Or.inr (Or.inr ⟨_, _, rfl⟩)
    · simp only [List.mem_append, List.mem_singleton] at he
      rcases he with he | he
      · exact ih e he
      · rw [he]; exact Or.inr (Or.inr ⟨_, _, rfl⟩)

theorem stamps_eq_nil_of_forall_ne (out : List Event) (m : Msg)
    (h : ∀ e, e ∈ out → e.msg ≠ m) : stamps out m = [] := by
  unfold stamps
  rw [List.map_eq_nil_iff, List.filter_eq_nil_iff]
  intro e he
  simpa using h e he

theorem dispatched_eq_nil_of_boot (out : List Event)
    (h : ∀ e, e ∈ out →
      e.msg = Msg.booting ∨ e.msg = Msg.overflow ∨ ∃ p b, e.msg = Msg.loaded p b) :
    dispatched out = [] := by
  unfold dispatched
  rw [List.filterMap_eq_nil_iff]
  intro e he
  rcases h e he with h | h | ⟨p, b, h⟩ <;> rw [h]

/-- The output of the boot state holds no requeue message. -/
theorem boot_stamps_requeued (c : Config) (pid : Int) :
    stamps (boot c).stdout (Msg.requeued pid) = [] := by
  have h := boot_loop_stdout c c.PROC_COUNT
  unfold boot
  rw [boot_system_eq]
  generalize boot_loop c c.PROC_COUNT = s at h
  have h0 : stamps s.stdout (Msg.requeued pid) = [] := by
    apply stamps_eq_nil_of_forall_ne
    intro e he
    rcases h e he with h | h | ⟨p, b, h⟩ <;> rw [h] <;> simp
  unfold main_dispatch
  split
  · simp only [State.print, pop_stdout, stamps_append, h0]
    simp
  · exact h0

theorem stamps_requeued_push (c : Config) (s : State) (x pid : Int) :
    stamps (push c s x).stdout (Msg.requeued pid) = stamps s.stdout (Msg.requeued pid) := by
  unfold push
  split
  · simp [State.print, stamps_append]
  · rfl

theorem stamps_requeued_dispatch (c : Config) (s : State) (pid : Int) :
    stamps (scheduler_dispatch c s).stdout (Msg.requeued pid)
      = stamps s.stdout (Msg.requeued pid) := by
  unfold scheduler_dispatch
  split
  · rfl
  · split
    · simp [State.print, stamps_append]
    · simp [State.print, stamps_append]

/-- One tick prints a requeue message for `pid` exactly when `pid` is the
active process and more than the exec amount was left. -/
theorem stamps_requeued_scheduler (c : Config) (s : State) (pid : Int) :
    stamps (scheduler c s).stdout (Msg.requeued pid) = stamps s.stdout (Msg.requeued pid) ++
      if s.active_pid ≠ -1 ∧
          ¬ (getPCB s.proc_table s.active_pid).time_left
              - exec_amount c (getPCB s.proc_table s.active_pid) ≤ 0 ∧
          (getPCB s.proc_table s.active_pid).id = pid then
        [s.clock_tick + exec_amount c (getPCB s.proc_table s.active_pid)]
      else [] := by
  unfold scheduler
  rw [stamps_requeued_dispatch]
  unfold scheduler_charge
  by_cases hact : s.active_pid = -1
  · simp [hact]
  · simp only [ne_eq, hact, not_false_eq_true, if_true, true_and]
    split
    · next h =>
      simp only [State.print, stamps_append, h, not_true_eq_false, false_and, and_false,
        if_false]
      simp
    · next h =>
      simp only [State.print, stamps_append, stamps_requeued_push, h, not_false_eq_true,
        true_and]
      simp

/-- C13: a process whose burst is at most `SLICE` is marked `FINISHED`, with
`time_left = 0`, by every tick that finds it active, so by the first one, and
no tick of the run ever prints a requeue message for it: `scheduler` never
pushes it onto the ready queue. -/
theorem C13_short_burst_single_quantum (c : Config) (hwf : c.WF) (i : Nat)
    (hi : i < c.PROC_COUNT) (hshort : c.bursts.getD i 0 ≤ c.SLICE) (n : Nat) :
    ((run c n).active_pid = (i : Int) →
      ((run c (n + 1)).pcb i).status = ProcState.FINISHED ∧
      ((run c (n + 1)).pcb i).time_left = 0) ∧
    stamps (run c n).stdout (Msg.requeued i) = [] := by
  have hle : ∀ m, ((run c m).pcb i).time_left ≤ c.SLICE := by
    intro m
    have hp := (inv_run hwf m).1.pcbs i hi
    have := hp.left_le
    rw [hp.burst_eq] at this
    omega
  constructor
  · intro hact
    have hb := (inv_run hwf n).1
    have hlen : i < (run c n).proc_table.length := by rw [hb.table_len]; exact hi
    have htl : ((run c (n + 1)).pcb i).time_left = 0 := by
      show ((scheduler c (run c n)).pcb i).time_left = 0
      rw [(scheduler_time_left c (run c n) i).1, if_pos ⟨hact, hlen⟩]
      have := hle n
      unfold exec_amount
      split <;> omega
    exact ⟨((inv_run hwf (n + 1)).1.pcbs i hi).fin_iff.mpr htl, htl⟩
  · induction n with
    | zero => exact boot_stamps_requeued c i
    | succ n ih =>
      show stamps (scheduler c (run c n)).stdout (Msg.requeued i) = []
      rw [stamps_requeued_scheduler, ih, List.nil_append]
      apply if_neg
      rintro ⟨hact, hnle, hid⟩
      obtain ⟨hb, hmode⟩ := inv_run hwf n
      have hai : (run c n).active_pid = (i : Int) := by
        rcases hmode with ⟨a, ha, ha', _⟩ | ⟨a, ha, ha', _⟩ | ⟨ha', _⟩
        · rw [ha'] at hid ⊢
          have h1 : (getPCB (run c n).proc_table (a : Int)).id = (a : Int) := (hb.pcbs a ha).id_eq
          rw [h1] at hid
          exact hid
        · rw [ha'] at hid ⊢
          have h1 : (getPCB (run c n).proc_table (a : Int)).id = (a : Int) := (hb.pcbs a ha).id_eq
          rw [h1] at hid
          exact hid
        · exact absurd ha' hact
      rw [hai] at hnle
      have h1 := hle n
      have h2 := (hb.pcbs i hi).left_nonneg
      unfold State.pcb at h1 h2
      unfold exec_amount at hnle
      split at hnle <;> omega

/-- C13, instance: with a quantum of 4 the shipped pid 1 (burst 4) is active
after one tick and finished by the next. -/
theorem C13_short_burst_single_quantum_witness :
    quantum4.WF ∧ 1 < quantum4.PROC_COUNT ∧ quantum4.bursts.getD 1 0 ≤ quantum4.SLICE ∧
    (run quantum4 1).active_pid = ((1 : Nat) : Int) ∧
    ((run quantum4 (1 + 1)).pcb 1).status = ProcState.FINISHED :=
  ⟨by decide, by decide, by decide, by decide,
    ((C13_short_burst_single_quantum quantum4 (by decide) 1 (by decide) (by decide) 1).1
      (by decide)).1⟩

theorem busy_of_queue_ne_nil {c : Config} {s : State} (h : Inv c s)
    (hq : ready_queue c s ≠ []) : Busy c s := by
  obtain ⟨hb, hbusy | ⟨_, _, _, _, _, hall⟩ | ⟨_, _, hall⟩⟩ := h
  · exact hbusy
  · exfalso
    obtain ⟨x, hx⟩ := List.exists_mem_of_ne_nil _ hq
    obtain ⟨i, hi, _, hst⟩ := (hb.queue_mem x).mp hx
    rw [hall i hi] at hst
    cases hst
  · exfalso
    obtain ⟨x, hx⟩ := List.exists_mem_of_ne_nil _ hq
    obtain ⟨i, hi, _, hst⟩ := (hb.queue_mem x).mp hx
    rw [hall i hi] at hst
    cases hst

/-- The charge half of a tick on a running process: the clock advances by
the exec amount, no dispatch is printed, and the ready queue gains the
process at its tail exactly when more than `SLICE` was left. -/
theorem charge_of_running {c : Config} {s : State} (hwf : c.WF) (hb : Base c s) (a : Nat)
    (ha : a < c.PROC_COUNT) (hact : s.active_pid = (a : Int))
    (hst : (s.pcb a).status = ProcState.RUNNING) :
    ready_queue c (scheduler_charge c s) = ready_queue c s ++
      (if c.SLICE < (s.pcb a).time_left then [(a : Int)] else []) ∧
    dispatched (scheduler_charge c s).stdout = dispatched s.stdout ∧
    (scheduler_charge c s).clock_tick = s.clock_tick + exec_amount c (s.pcb a) := by
  by_cases hgt : c.SLICE < (s.pcb a).time_left
  · have hst' : (s.pcb a).status ≠ ProcState.READY := by rw [hst]; decide
    have hsz : s.q_size < c.Q_CAPACITY := lt_of_lt_of_le (hb.queue_size_lt a ha hst') hwf.2.2
    have hcap : 0 < c.Q_CAPACITY := by omega
    have he := charge_requeue_of_lt c s a hact hgt hsz
    have hq := ready_queue_push c s (a : Int) hb.queue_len (hb.front_lt hcap) hb.back_eq hsz
    rw [push_of_lt _ _ _ hsz] at hq
    have hexec : exec_amount c (s.pcb a) = c.SLICE := by
      unfold exec_amount
      rw [if_neg (by omega)]
    rw [if_pos hgt, he, hexec]
    refine ⟨hq, ?_, rfl⟩
    simp only [← List.append_assoc, List.append_cons _ _ [_], dispatched_append,
      List.append_nil]
  · have hle : (s.pcb a).time_left ≤ c.SLICE := by omega
    have he := charge_finish c s a hact hle
    have hexec : exec_amount c (s.pcb a) = (s.pcb a).time_left := by
      unfold exec_amount
      split
      · rfl
      · omega
    rw [if_neg hgt, he, hexec, List.append_nil]
    refine ⟨rfl, ?_, rfl⟩
    simp only [← List.append_assoc, List.append_cons _ _ [_], dispatched_append,
      List.append_nil]

/-- The dispatch half of a tick that finds the ready queue not empty pops
its head, makes it the active `RUNNING` process and prints its dispatch. -/
theorem dispatch_head {c : Config} {s : State} (hb : Base c s) (hbt : Between c s)
    (x : Int) (T : List Int) (hq : ready_queue c s = x :: T) :
    ready_queue c (scheduler_dispatch c s) = T ∧
    (scheduler_dispatch c s).active_pid = x ∧
    dispatched (scheduler_dispatch c s).stdout = dispatched s.stdout ++ [x] ∧
    (scheduler_dispatch c s).clock_tick = s.clock_tick ∧
    ∃ b, b < c.PROC_COUNT ∧ x = (b : Int) ∧ (s.pcb b).status = ProcState.READY ∧
      ((scheduler_dispatch c s).pcb b).status = ProcState.RUNNING := by
  have hmem : x ∈ ready_queue c s := by rw [hq]; exact List.mem_cons_self _ _
  obtain ⟨b, hlt, hxb, hst⟩ := (hb.queue_mem x).mp hmem
  have hnf : (s.pcb b).status ≠ ProcState.FINISHED := by rw [hst]; decide
  have hsz : s.q_size ≠ 0 := by
    intro h0
    have := length_queue_from s.run_queue c.Q_CAPACITY s.q_size s.q_front
    rw [← ready_queue, hq, h0] at this
    simp at this
  have hcons := ready_queue_cons c s hsz
  rw [hq] at hcons
  obtain ⟨hx, hT⟩ := List.cons.inj hcons
  have hd : s.done_total ≠ (c.PROC_COUNT : Int) := by
    obtain ⟨_, ⟨hdone, _⟩ | ⟨_, hall⟩ | ⟨_, _, hall⟩⟩ := hbt
    · rw [hdone]
      intro h
      have hcnt : finished_count s = c.PROC_COUNT := by exact_mod_cast h
      exact hnf ((finished_count_eq_length hb).mp hcnt b hlt)
    · exact absurd (hall b hlt) hnf
    · exact absurd (hall b hlt) hnf
  have he := dispatch_pop c s b hd hsz (by rw [← hx, hxb])
  have hal : b < s.proc_table.length := by rw [hb.table_len]; exact hlt
  have hpcb := pcb_of_set s (scheduler_dispatch c s) b _ hal (by rw [he])
  refine ⟨?_, ?_, ?_, ?_, b, hlt, hxb, hst, ?_⟩
  · rw [he, hT]
    rfl
  · rw [he, hxb]
  · rw [he]
    simp only [dispatched_append, (hb.pcbs b hlt).id_eq, hxb]
  · rw [he]
  · rw [hpcb b, if_pos rfl]
    split <;> rfl

/-- One tick of a run with a running process: the ready queue gains the
active process at its tail when it is requeued, then loses its head, which
becomes the active process and is the one dispatch printed. -/
theorem tick_queue {c : Config} {s : State} (hwf : c.WF) (h : Inv c s) (a : Nat)
    (ha : a < c.PROC_COUNT) (hact : s.active_pid = (a : Int))
    (hst : (s.pcb a).status = ProcState.RUNNING) (x : Int) (T : List Int)
    (hq : ready_queue c s ++ (if c.SLICE < (s.pcb a).time_left then [(a : Int)] else [])
      = x :: T) :
    ready_queue c (scheduler c s) = T ∧
    (scheduler c s).active_pid = x ∧
    dispatched (scheduler c s).stdout = dispatched s.stdout ++ [x] ∧
    (scheduler c s).clock_tick = s.clock_tick + exec_amount c (s.pcb a) := by
  obtain ⟨hb1, hbt⟩ := inv_charge hwf h
  obtain ⟨h1, h2, h3⟩ := charge_of_running hwf h.1 a ha hact hst
  rw [hq] at h1
  obtain ⟨g1, g2, g3, g4, _⟩ := dispatch_head hb1 hbt x T h1
  unfold scheduler
  exact ⟨g1, g2, by rw [g3, h2], by rw [g4, h3]⟩

/-- The pids at the front of the ready queue are dispatched by the next
ticks, one per tick, in queue order. -/
theorem dispatch_order {c : Config} (hwf : c.WF) (Q : List Int) :
    ∀ (m : Nat) (R : List Int), ready_queue c (run c m) = Q ++ R →
      (∀ k, k ≤ Q.length →
        dispatched (run c (m + k)).stdout = dispatched (run c m).stdout ++ Q.take k) ∧
      (∀ k, k < Q.length → Q[k]? = some (run c (m + k + 1)).active_pid) ∧
      ∃ R', ready_queue c (run c (m + Q.length)) = R ++ R' := by
  induction Q with
  | nil =>
    intro m R hq
    refine ⟨?_, ?_, [], ?_⟩
    · intro k hk
      have : k = 0 := by simpa using hk
      subst this
      simp
    · intro k hk
      simp at hk
    · simpa using hq
  | cons x Q ih =>
    intro m R hq
    have hinv := inv_run hwf m
    have hne : ready_queue c (run c m) ≠ [] := by rw [hq]; simp
    obtain ⟨a, ha, hact, hst, _, _⟩ := busy_of_queue_ne_nil hinv hne
    have hq2 : ready_queue c (run c m) ++
        (if c.SLICE < ((run c m).pcb a).time_left then [(a : Int)] else [])
        = x :: (Q ++ (R ++ if c.SLICE < ((run c m).pcb a).time_left then [(a : Int)] else []))
        := by
      rw [hq]
      simp
    obtain ⟨g1, g2, g3, _⟩ := tick_queue hwf hinv a ha hact hst x _ hq2
    obtain ⟨i1, i2, R', i3⟩ := ih (m + 1) _ g1
    have hstep : ∀ j, run c (m + (j + 1)) = run c (m + 1 + j) := by
      intro j
      congr 1
      omega
    refine ⟨?_, ?_,
      (if c.SLICE < ((run c m).pcb a).time_left then [(a : Int)] else []) ++ R', ?_⟩
    · intro k hk
      cases k with
      | zero => simp
      | succ k =>
        rw [hstep, i1 k (by simpa using hk)]
        show _ ++ _ = _
        rw [show dispatched (run c (m + 1)).stdout = dispatched (run c m).stdout ++ [x] from g3]
        simp
    · intro k hk
      cases k with
      | zero =>
        show (x :: Q)[0]? = some (scheduler c (run c m)).active_pid
        rw [g2]
        simp
      | succ k =>
        have := i2 k (by simpa using hk)
        rw [List.getElem?_cons_succ, this]
        congr 2
        congr 1
        omega
    · rw [List.length_cons, hstep, i3, List.append_assoc]

/-- The boot state has dispatched pid 0 and holds the other pids in boot
order. -/
theorem boot_queue {c : Config} (hwf : c.WF) (hpos : 0 < c.PROC_COUNT) :
    ready_queue c (boot c) = ((List.range c.PROC_COUNT).map fun i : Nat => (i : Int)).tail ∧
    dispatched (boot c).stdout = [0] := by
  have hbi := bootInv_loop c hwf.2.2 c.PROC_COUNT (le_refl _)
  have hout := boot_loop_stdout c c.PROC_COUNT
  unfold boot
  rw [boot_system_eq]
  generalize boot_loop c c.PROC_COUNT = s at hbi hout
  have hN : c.PROC_COUNT ≠ 0 := by omega
  have hq : s.q_size ≠ 0 := by rw [hbi.size_eq]; exact hN
  have hcons := ready_queue_cons c s hq
  have h1 := hbi.queue_eq
  rw [hcons] at h1
  have hx : s.run_queue.getD s.q_front 0 = ((0 : Nat) : Int) := by
    obtain ⟨n, hn⟩ := Nat.exists_eq_succ_of_ne_zero hN
    rw [hn, Nat.succ_eq_add_one, List.range_succ_eq_map, List.map_cons] at h1
    exact (List.cons.inj h1).1
  have he := main_dispatch_pop c s 0 hq hx
  constructor
  · rw [← h1, List.tail_cons, he]
    rfl
  · rw [he]
    simp only [dispatched_append, dispatched_eq_nil_of_boot _ hout, (hbi.pcbs 0 hpos).1]
    rfl

theorem dispatched_boot_of_empty (c : Config) (h0 : c.PROC_COUNT = 0) :
    dispatched (boot c).stdout = [] := by
  have hout := boot_loop_stdout c c.PROC_COUNT
  unfold boot
  rw [boot_system_eq]
  have hq : (boot_loop c c.PROC_COUNT).q_size = 0 := by
    rw [h0]
    rfl
  rw [main_dispatch_empty c _ hq]
  exact dispatched_eq_nil_of_boot _ hout

/-- C14: round-robin dispatch follows the ready queue.  When a tick of a run
finds process `p` running with more than `SLICE` left, so that it requeues
`p` behind the pids `L` of the ready queue, the next `|L|` dispatches are the
elements of `L` in order, one per tick, and the dispatch right after them is
`p`.  The first `PROC_COUNT` dispatches of a run are pids 0, 1, 2, ... in
boot insertion order. -/
theorem C14_fifo_dispatch_order (c : Config) (hwf : c.WF) :
    (∀ n p, p < c.PROC_COUNT → (run c n).active_pid = (p : Int) →
      ((run c n).pcb p).status = ProcState.RUNNING →
      c.SLICE < ((run c n).pcb p).time_left →
      ready_queue c (scheduler_charge c (run c n))
        = ready_queue c (run c n) ++ [(p : Int)] ∧
      (∀ k, k ≤ (ready_queue c (run c n)).length →
        dispatched (run c (n + k)).stdout
          = dispatched (run c n).stdout ++ (ready_queue c (run c n)).take k) ∧
      dispatched (run c (n + (ready_queue c (run c n)).length + 1)).stdout
        = dispatched (run c n).stdout ++ ready_queue c (run c n) ++ [(p : Int)] ∧
      (run c (n + (ready_queue c (run c n)).length + 1)).active_pid = (p : Int)) ∧
    dispatched (run c (c.PROC_COUNT - 1)).stdout
      = (List.range c.PROC_COUNT).map fun i : Nat => (i : Int) := by
  constructor
  · intro n p hp hact hst hgt
    have hinv := inv_run hwf n
    obtain ⟨hc, _, _⟩ := charge_of_running hwf hinv.1 p hp hact hst
    rw [if_pos hgt] at hc
    refine ⟨hc, ?_, ?_⟩
    · exact (dispatch_order hwf (ready_queue c (run c n)) n [] (by simp)).1
    · cases hL : ready_queue c (run c n) with
      | nil =>
        have hq : ready_queue c (run c n) ++
            (if c.SLICE < ((run c n).pcb p).time_left then [(p : Int)] else [])
            = (p : Int) :: [] := by
          rw [hL, if_pos hgt]
          rfl
        obtain ⟨_, g2, g3, _⟩ := tick_queue hwf hinv p hp hact hst _ _ hq
        exact ⟨by simpa using g3, g2⟩
      | cons x T =>
        have hq : ready_queue c (run c n) ++
            (if c.SLICE < ((run c n).pcb p).time_left then [(p : Int)] else [])
            = x :: (T ++ [(p : Int)]) := by
          rw [hL, if_pos hgt]
          rfl
        obtain ⟨g1, _, g3, _⟩ := tick_queue hwf hinv p hp hact hst _ _ hq
        obtain ⟨i1, i2, _⟩ := dispatch_order hwf (T ++ [(p : Int)]) (n + 1) []
          (by rw [List.append_nil]; exact g1)
        have hidx : n + (x :: T).length + 1 = n + 1 + (T ++ [(p : Int)]).length := by
          simp only [List.length_cons, List.length_append, List.length_nil]
          omega
        have hidx2 : n + (x :: T).length + 1 = n + 1 + T.length + 1 := by
          simp only [List.length_cons]
          omega
        constructor
        · rw [hidx, i1 _ (le_refl _), List.take_length]
          rw [show dispatched (run c (n + 1)).stdout = dispatched (run c n).stdout ++ [x]
            from g3]
          simp
        · have := i2 T.length (by simp)
          rw [hidx2]
          simpa using this.symm
  · by_cases h0 : c.PROC_COUNT = 0
    · rw [h0]
      exact dispatched_boot_of_empty c h0
    · have hpos : 0 < c.PROC_COUNT := Nat.pos_of_ne_zero h0
      obtain ⟨hq, hd⟩ := boot_queue hwf hpos
      obtain ⟨i1, _, _⟩ := dispatch_order hwf
        ((List.range c.PROC_COUNT).map fun i : Nat => (i : Int)).tail 0 []
        (by rw [List.append_nil]; exact hq)
      have := i1 (c.PROC_COUNT - 1) (by simp)
      rw [Nat.zero_add] at this
      rw [this, show run c 0 = boot c from rfl, hd]
      obtain ⟨n, hn⟩ := Nat.exists_eq_succ_of_ne_zero h0
      rw [hn, Nat.succ_eq_add_one, List.range_succ_eq_map]
      simp

/-- C14, instance: the second tick of the shipped run preempts pid 1 while
the queue holds 2, 3, 4, 0; the first five dispatches are 0, 1, 2, 3, 4. -/
theorem C14_fifo_dispatch_order_witness :
    shipped.WF ∧ (run shipped 1).active_pid = ((1 : Nat) : Int) ∧
    ready_queue shipped (run shipped 1) = [2, 3, 4, 0] ∧
    dispatched (run shipped (1 + (ready_queue shipped (run shipped 1)).length + 1)).stdout
      = dispatched (run shipped 1).stdout ++ ready_queue shipped (run shipped 1)
        ++ [((1 : Nat) : Int)] ∧
    dispatched (run shipped 4).stdout = [0, 1, 2, 3, 4] :=
  ⟨by decide, by decide, by decide,
    (((C14_fifo_dispatch_order shipped (by decide)).1 1 1 (by decide) (by decide) (by decide)
      (by decide)).2.2).1,
    (C14_fifo_dispatch_order shipped (by decide)).2⟩

theorem quanta_step (c : Config) (hs : 0 < c.SLICE) (tl : Int) (htl : 0 < tl) :
    quanta c (tl - exec_amount c { PCB.zero with time_left := tl }) + 1 = quanta c tl := by
  unfold quanta exec_amount
  obtain ⟨s, hs'⟩ : ∃ s : Nat, c.SLICE = (s : Int) := ⟨c.SLICE.toNat, by omega⟩
  obtain ⟨t, ht'⟩ : ∃ t : Nat, tl = (t : Int) := ⟨tl.toNat, by omega⟩
  rw [hs', ht']
  simp only [Int.toNat_ofNat]
  have hs1 : 1 ≤ s := by omega
  have ht1 : 1 ≤ t := by omega
  have hR : t + s - 1 = (t - 1) + s := by omega
  rw [hR, Nat.add_div_right _ (by omega)]
  congr 1
  split
  · next h =>
    have hlt : t < s := by omega
    rw [sub_self]
    simp only [Int.toNat_zero, Nat.zero_add]
    rw [Nat.div_eq_of_lt (by omega), Nat.div_eq_of_lt (by omega)]
  · next h =>
    have hge : s ≤ t := by omega
    have : ((t : Int) - (s : Int)).toNat = t - s := by omega
    rw [this]
    congr 1
    omega

theorem quanta_eq_zero_iff (c : Config) (hs : 0 < c.SLICE) (tl : Int) (htl : 0 ≤ tl) :
    quanta c tl = 0 ↔ tl = 0 := by
  unfold quanta
  obtain ⟨s, hs'⟩ : ∃ s : Nat, c.SLICE = (s : Int) := ⟨c.SLICE.toNat, by omega⟩
  obtain ⟨t, ht'⟩ : ∃ t : Nat, tl = (t : Int) := ⟨tl.toNat, by omega⟩
  rw [hs', ht']
  simp only [Int.toNat_ofNat]
  have hs1 : 1 ≤ s := by omega
  rw [Nat.div_eq_zero_iff (by omega)]
  constructor
  · intro h; omega
  · intro h
    have : t = 0 := by omega
    omega


theorem sum_map_eq_of_pointwise (f : PCB → Nat) (t t' : List PCB)
    (hlen : t.length = t'.length)
    (h : ∀ i, i < t.length → f (t'.getD i PCB.zero) = f (t.getD i PCB.zero)) :
    (t'.map f).sum = (t.map f).sum := by
  induction t generalizing t' with
  | nil =>
    cases t' with
    | nil => rfl
    | cons y ys => simp at hlen
  | cons x xs ih =>
    cases t' with
    | nil => simp at hlen
    | cons y ys =>
      have h0 : f y = f x := h 0 (by simp)
      have ht := ih ys (by simpa using hlen) (fun i hi => h (i + 1) (by simpa using hi))
      simp only [List.map_cons, List.sum_cons, h0, ht]

theorem sum_map_succ_of_one_lower (f : PCB → Nat) (t t' : List PCB) (a : Nat)
    (hlen : t.length = t'.length) (ha : a < t.length)
    (h : ∀ i, i < t.length → i ≠ a → f (t'.getD i PCB.zero) = f (t.getD i PCB.zero))
    (hlow : f (t'.getD a PCB.zero) + 1 = f (t.getD a PCB.zero)) :
    (t'.map f).sum + 1 = (t.map f).sum := by
  induction t generalizing t' a with
  | nil => simp at ha
  | cons x xs ih =>
    cases t' with
    | nil => simp at hlen
    | cons y ys =>
      cases a with
      | zero =>
        have h0 : f y + 1 = f x := hlow
        have ht := sum_map_eq_of_pointwise f xs ys (by simpa using hlen)
          (fun i hi => h (i + 1) (by simpa using hi) (by omega))
        simp only [List.map_cons, List.sum_cons, ht]
        omega
      | succ a =>
        have h0 : f y = f x := h 0 (by simp) (by omega)
        have ht := ih ys a (by simpa using hlen) (by simpa using ha)
          (fun i hi hne => h (i + 1) (by simpa using hi) (by omega)) hlow
        simp only [List.map_cons, List.sum_cons, h0]
        omega

/-- A tick on a running process lowers the number of quanta still needed by
exactly one. -/
theorem remaining_ticks_step {c : Config} {s : State} (hwf : c.WF) (h : Inv c s)
    (hbusy : Busy c s) : remaining_ticks c (scheduler c s) + 1 = remaining_ticks c s := by
  obtain ⟨a, ha, hact, hst, _, _⟩ := hbusy
  have hb := h.1
  have hb' := (inv_scheduler hwf h).1
  have hp := hb.pcbs a ha
  have hpos : 0 < (s.pcb a).time_left := by
    have h1 := hp.left_nonneg
    have h2 : (s.pcb a).time_left ≠ 0 := by
      intro h0
      have := hp.fin_iff.mpr h0
      rw [hst] at this
      cases this
    omega
  have hal : a < s.proc_table.length := by rw [hb.table_len]; exact ha
  unfold remaining_ticks
  apply sum_map_succ_of_one_lower (fun p => quanta c p.time_left) s.proc_table
    (scheduler c s).proc_table a (by rw [hb.table_len, hb'.table_len]) hal
  · intro i hi hne
    have := (scheduler_time_left c s i).1
    rw [if_neg (fun hh => hne (by
      have := hh.1
      rw [hact] at this
      exact_mod_cast this.symm))] at this
    unfold State.pcb at this
    rw [getPCB_natCast, getPCB_natCast] at this
    show quanta c _ = quanta c _
    rw [this]
  · have := (scheduler_time_left c s a).1
    rw [if_pos ⟨hact, hal⟩] at this
    have hq := quanta_step c hwf.2.1 (s.pcb a).time_left hpos
    have hexec : exec_amount c { PCB.zero with time_left := (s.pcb a).time_left }
        = exec_amount c (s.pcb a) := rfl
    rw [hexec, ← this] at hq
    exact hq

theorem remaining_ticks_eq_zero_iff {c : Config} {s : State} (hwf : c.WF) (hb : Base c s) :
    remaining_ticks c s = 0 ↔
      ∀ i, i < c.PROC_COUNT → (s.pcb i).status = ProcState.FINISHED := by
  unfold remaining_ticks
  rw [List.sum_eq_zero_iff]
  constructor
  · intro h i hi
    have hlen : i < s.proc_table.length := by rw [hb.table_len]; exact hi
    have hp := hb.pcbs i hi
    have hz := h (quanta c (s.pcb i).time_left) (by
      rw [List.mem_map]
      refine ⟨s.proc_table[i], List.getElem_mem _, ?_⟩
      rw [State.pcb, getPCB_natCast, List.getD_eq_getElem _ _ hlen])
    exact hp.fin_iff.mpr ((quanta_eq_zero_iff c hwf.2.1 _ hp.left_nonneg).mp hz)
  · intro h x hx
    obtain ⟨p, hp, rfl⟩ := List.mem_map.mp hx
    obtain ⟨i, hi, rfl⟩ := List.getElem_of_mem hp
    have hi' : i < c.PROC_COUNT := by rw [← hb.table_len]; exact hi
    have hpi := hb.pcbs i hi'
    have hz := hpi.fin_iff.mp (h i hi')
    rw [State.pcb, getPCB_natCast, List.getD_eq_getElem _ _ hi] at hz
    show quanta c _ = 0
    rw [hz]
    exact (quanta_eq_zero_iff c hwf.2.1 0 (le_refl _)).mpr rfl

theorem boot_time_left {c : Config} (hwf : c.WF) (i : Nat) (hi : i < c.PROC_COUNT) :
    ((boot c).pcb i).time_left = c.bursts.getD i 0 := by
  have hbi := bootInv_loop c hwf.2.2 c.PROC_COUNT (le_refl _)
  unfold boot
  rw [boot_system_eq]
  generalize boot_loop c c.PROC_COUNT = s at hbi
  have hpos : 0 < c.PROC_COUNT := by omega
  have hN : c.PROC_COUNT ≠ 0 := by omega
  have hq : s.q_size ≠ 0 := by rw [hbi.size_eq]; exact hN
  have hx : s.run_queue.getD s.q_front 0 = ((0 : Nat) : Int) := by
    have h1 := hbi.queue_eq
    rw [ready_queue_cons c s hq] at h1
    obtain ⟨n, hn⟩ := Nat.exists_eq_succ_of_ne_zero hN
    rw [hn, Nat.succ_eq_add_one, List.range_succ_eq_map, List.map_cons] at h1
    exact (List.cons.inj h1).1
  have he := main_dispatch_pop c s 0 hq hx
  have hal : 0 < s.proc_table.length := by rw [hbi.table_len]; exact hpos
  have hpcb := pcb_of_set s (main_dispatch c s) 0 _ hal (by rw [he])
  rw [hpcb i]
  split
  · next h => subst h; exact (hbi.pcbs 0 hi).2.2.1
  · exact (hbi.pcbs i hi).2.2.1

theorem boot_done_total (c : Config) (hcap : c.PROC_COUNT ≤ c.Q_CAPACITY) :
    (boot c).done_total = 0 := by
  have hbi := bootInv_loop c hcap c.PROC_COUNT (le_refl _)
  unfold boot
  rw [boot_system_eq]
  unfold main_dispatch
  split
  · simp only [State.print, pop_done_total]
    exact hbi.done_eq
  · exact hbi.done_eq

theorem remaining_ticks_boot {c : Config} (hwf : c.WF) :
    remaining_ticks c (boot c) = total_ticks c := by
  have hb := (inv_boot hwf).1
  unfold remaining_ticks total_ticks
  congr 1
  apply List.ext_getElem
  · rw [List.length_map, List.length_map, hb.table_len]
    rfl
  · intro i h1 h2
    rw [List.length_map] at h1 h2
    have hi : i < c.PROC_COUNT := h2
    have htl := boot_time_left hwf i hi
    rw [State.pcb, getPCB_natCast, List.getD_eq_getElem _ _ h1,
      List.getD_eq_getElem _ _ h2] at htl
    rw [List.getElem_map, List.getElem_map, htl]

/-- One tick leaves `done_total` as it is or adds one to it. -/
theorem scheduler_done_total (c : Config) (s : State) :
    (scheduler c s).done_total = s.done_total ∨
    (scheduler c s).done_total = s.done_total + 1 := by
  have hd : ∀ s1 : State, (scheduler_dispatch c s1).done_total = s1.done_total := by
    intro s1
    unfold scheduler_dispatch
    split
    · rfl
    · split
      · simp [State.print]
      · rfl
  unfold scheduler
  rw [hd]
  unfold scheduler_charge
  by_cases hact : s.active_pid = -1
  · left
    simp [hact]
  · simp only [ne_eq, hact, not_false_eq_true, if_true]
    split
    · right
      rfl
    · left
      simp [State.print]

/-- A state of a run with a running process has fewer finished processes
than the population size. -/
theorem done_total_lt_of_busy {c : Config} {s : State} (hb : Base c s) (hbusy : Busy c s) :
    s.done_total < (c.PROC_COUNT : Int) := by
  obtain ⟨a, ha, _, hst, hd, _⟩ := hbusy
  have hle := finished_count_le hb
  have hne : finished_count s ≠ c.PROC_COUNT := by
    intro h
    have := (finished_count_eq_length hb).mp h a ha
    rw [hst] at this
    cases this
  rw [hd]
  have : finished_count s < c.PROC_COUNT := by omega
  exact_mod_cast this

/-- While quanta remain to be served, a state of a run has a running
process. -/
theorem busy_of_remaining {c : Config} {s : State} (hwf : c.WF) (h : Inv c s)
    (hrem : remaining_ticks c s ≠ 0) : Busy c s := by
  obtain ⟨hb, hbusy | ⟨_, _, _, _, _, hall⟩ | ⟨_, _, hall⟩⟩ := h
  · exact hbusy
  · exact absurd ((remaining_ticks_eq_zero_iff hwf hb).mpr hall) hrem
  · exact absurd ((remaining_ticks_eq_zero_iff hwf hb).mpr hall) hrem

/-- Before `total_ticks` ticks have passed, each tick serves one quantum. -/
theorem remaining_ticks_run {c : Config} (hwf : c.WF) (n : Nat) (hn : n ≤ total_ticks c) :
    remaining_ticks c (run c n) + n = total_ticks c := by
  induction n with
  | zero => exact remaining_ticks_boot hwf
  | succ n ih =>
    have h1 := ih (by omega)
    have hbusy := busy_of_remaining hwf (inv_run hwf n) (by omega)
    have := remaining_ticks_step hwf (inv_run hwf n) hbusy
    show remaining_ticks c (scheduler c (run c n)) + (n + 1) = _
    omega

/-- The value of `quanta` is the quotient rounded up: the least number of
quanta of `SLICE` units that cover `b`. -/
theorem quanta_is_ceiling (c : Config) (hs : 0 < c.SLICE) (b : Int) (hb : 0 < b) :
    c.SLICE * ((quanta c b : Int) - 1) < b ∧ b ≤ c.SLICE * (quanta c b : Int) := by
  unfold quanta
  obtain ⟨s, hs'⟩ : ∃ s : Nat, c.SLICE = (s : Int) := ⟨c.SLICE.toNat, by omega⟩
  obtain ⟨t, ht'⟩ : ∃ t : Nat, b = (t : Int) := ⟨b.toNat, by omega⟩
  rw [hs', ht']
  simp only [Int.toNat_ofNat]
  have hs1 : 1 ≤ s := by omega
  have ht1 : 1 ≤ t := by omega
  have h1 := Nat.div_mul_le_self (t + s - 1) s
  have h2 := Nat.lt_mul_div_succ (t + s - 1) (show 0 < s by omega)
  generalize (t + s - 1) / s = q at h1 h2
  have h3 : s * (q + 1) = s * q + s := by ring
  have h4 : q * s = s * q := by ring
  constructor
  · have : s * q < t + s := by omega
    have h5 : ((s * q : Nat) : Int) < ((t + s : Nat) : Int) := by exact_mod_cast this
    push_cast at h5
    have h6 : (s : Int) * ((q : Int) - 1) = (s : Int) * q - s := by ring
    rw [h6]
    omega
  · have : t ≤ s * q := by omega
    exact_mod_cast this

theorem done_total_lt_before_total {c : Config} (hwf : c.WF) (n : Nat)
    (hn : n < total_ticks c) : (run c n).done_total < (c.PROC_COUNT : Int) := by
  have h1 := remaining_ticks_run hwf n (le_of_lt hn)
  have hbusy := busy_of_remaining hwf (inv_run hwf n) (by omega)
  exact done_total_lt_of_busy (inv_run hwf n).1 hbusy

theorem all_finished_at_total {c : Config} (hwf : c.WF) (i : Nat) (hi : i < c.PROC_COUNT) :
    ((run c (total_ticks c)).pcb i).status = ProcState.FINISHED := by
  have h1 := remaining_ticks_run hwf (total_ticks c) (le_refl _)
  exact (remaining_ticks_eq_zero_iff hwf (inv_run hwf _).1).mp (by omega) i hi

theorem done_total_at_total {c : Config} (hwf : c.WF) :
    (run c (total_ticks c)).done_total = (c.PROC_COUNT : Int) := by
  have hall := all_finished_at_total hwf
  have hle : (run c (total_ticks c)).done_total ≤ (c.PROC_COUNT : Int) := by
    cases hT : total_ticks c with
    | zero =>
      show (boot c).done_total ≤ _
      rw [boot_done_total c hwf.2.2]
      omega
    | succ n =>
      have hlt := done_total_lt_before_total hwf n (by omega)
      have := scheduler_done_total c (run c n)
      show (scheduler c (run c n)).done_total ≤ _
      omega
  obtain ⟨hb, ⟨a, ha, _, hst, _, _⟩ | ⟨_, _, _, _, hd, _⟩ | ⟨_, hd | ⟨h0, hd⟩, _⟩⟩ :=
    inv_run hwf (total_ticks c)
  · rw [hall a ha] at hst
    cases hst
  · exact hd
  · omega
  · rw [hd, h0]
    rfl

theorem main_wait_run {c : Config} (hwf : c.WF) (fuel : Nat) :
    ∀ n, n ≤ total_ticks c →
      main_wait c fuel (run c n) =
        if total_ticks c ≤ n + fuel then some (run c (total_ticks c)) else none := by
  induction fuel with
  | zero =>
    intro n hn
    unfold main_wait
    by_cases hlt : n < total_ticks c
    · rw [if_pos (done_total_lt_before_total hwf n hlt), if_neg (by omega)]
    · have he : n = total_ticks c := by omega
      rw [he, if_neg (by rw [done_total_at_total hwf]; omega), if_pos (by omega)]
  | succ fuel ih =>
    intro n hn
    unfold main_wait
    by_cases hlt : n < total_ticks c
    · rw [if_pos (done_total_lt_before_total hwf n hlt)]
      have := ih (n + 1) (by omega)
      rw [show scheduler c (run c n) = run c (n + 1) from rfl, this]
      congr 1
      apply propext
      constructor <;> intro h <;> omega
    · have he : n = total_ticks c := by omega
      rw [he, if_neg (by rw [done_total_at_total hwf]; omega), if_pos (by omega)]

/-- C19: the simulation terminates.  With positive bursts the condition
`done_total = PROC_COUNT` that ends the wait loop of `main` holds after
`total_ticks` ticks, the sum over the processes of `burst / SLICE` rounded
up, and after no fewer: before that `done_total` is below `PROC_COUNT`.  At
that point every PCB is `FINISHED`.  The wait loop of `main` started in the
boot state exits in that state whenever it is given at least that many
ticks, and not with fewer.  The number of quanta of a burst `b` is the least
`q` with `b <= SLICE * q`. -/
theorem C19_terminates_after_total_ticks (c : Config) (hwf : c.WF) :
    (run c (total_ticks c)).done_total = (c.PROC_COUNT : Int) ∧
    (∀ n, n < total_ticks c → (run c n).done_total < (c.PROC_COUNT : Int)) ∧
    (∀ i, i < c.PROC_COUNT →
      ((run c (total_ticks c)).pcb i).status = ProcState.FINISHED) ∧
    (∀ fuel, total_ticks c ≤ fuel →
      main_wait c fuel (boot c) = some (run c (total_ticks c))) ∧
    (∀ fuel, fuel < total_ticks c → main_wait c fuel (boot c) = none) ∧
    (∀ b, b ∈ c.bursts →
      c.SLICE * ((quanta c b : Int) - 1) < b ∧ b ≤ c.SLICE * (quanta c b : Int)) := by
  refine ⟨done_total_at_total hwf, done_total_lt_before_total hwf, all_finished_at_total hwf,
    ?_, ?_, fun b hb => quanta_is_ceiling c hwf.2.1 b (hwf.1 b hb)⟩
  · intro fuel hf
    have := main_wait_run hwf fuel 0 (Nat.zero_le _)
    rw [show run c 0 = boot c from rfl, if_pos (by omega)] at this
    exact this
  · intro fuel hf
    have := main_wait_run hwf fuel 0 (Nat.zero_le _)
    rw [show run c 0 = boot c from rfl, if_neg (by omega)] at this
    exact this

/-- C19, instance: the shipped bursts 8, 4, 10, 6, 12 with `SLICE = 3` take
3 + 2 + 4 + 2 + 4 = 15 ticks. -/
theorem C19_terminates_after_total_ticks_witness :
    shipped.WF ∧ total_ticks shipped = 15 ∧
    (run shipped (total_ticks shipped)).done_total = (shipped.PROC_COUNT : Int) ∧
    (∀ n, n < total_ticks shipped → (run shipped n).done_total < (shipped.PROC_COUNT : Int)) :=
  ⟨by decide, by decide, (C19_terminates_after_total_ticks shipped (by decide)).1,
    (C19_terminates_after_total_ticks shipped (by decide)).2.1⟩

/-- One tick advances the clock by the exec amount of the active process. -/
theorem scheduler_clock_tick (c : Config) (s : State) :
    (scheduler c s).clock_tick = s.clock_tick +
      if s.active_pid ≠ -1 then exec_amount c (getPCB s.proc_table s.active_pid) else 0 := by
  have hd : ∀ s1 : State, (scheduler_dispatch c s1).clock_tick = s1.clock_tick := by
    intro s1
    unfold scheduler_dispatch
    split
    · rfl
    · split
      · simp [State.print]
      · rfl
  unfold scheduler
  rw [hd]
  unfold scheduler_charge
  by_cases hact : s.active_pid = -1
  · simp [hact]
  · simp only [ne_eq, hact, not_false_eq_true, if_true]
    split
    · rfl
    · simp [State.print]

theorem solo_wf (q : Int) (cap : Nat) (hq : 0 < q) (hcap : 1 ≤ cap) : (solo q cap).WF := by
  refine ⟨?_, hq, hcap⟩
  intro b hb
  simp only [solo, List.mem_singleton] at hb
  rw [hb]
  exact hq

theorem solo_total_ticks (q : Int) (cap : Nat) (hq : 0 < q) : total_ticks (solo q cap) = 1 := by
  unfold total_ticks quanta solo
  simp only [List.map_cons, List.map_nil, List.sum_cons, List.sum_nil, Nat.add_zero]
  obtain ⟨t, ht⟩ : ∃ t : Nat, q = (t : Int) := ⟨q.toNat, by omega⟩
  rw [ht]
  simp only [Int.toNat_ofNat]
  have ht1 : 1 ≤ t := by omega
  have hR : t + t - 1 = (t - 1) + t := by omega
  rw [hR, Nat.add_div_right _ (by omega), Nat.div_eq_of_lt (by omega)]

/-- C12: with a single process whose burst equals the quantum, `done_total`
is 0 in the boot state and the first tick makes it 1, the population size;
the process is then `FINISHED` with `resp_time = 0`, `wait_time = 0` and
`turn_time = finished_at = burst`. -/
theorem C12_single_process_one_tick (q : Int) (cap : Nat) (hq : 0 < q) (hcap : 1 ≤ cap) :
    (solo q cap).PROC_COUNT = 1 ∧
    (run (solo q cap) 0).done_total = 0 ∧
    (run (solo q cap) 1).done_total = 1 ∧
    ((run (solo q cap) 1).pcb 0).status = ProcState.FINISHED ∧
    ((run (solo q cap) 1).pcb 0).burst = q ∧
    ((run (solo q cap) 1).pcb 0).resp_time = 0 ∧
    ((run (solo q cap) 1).pcb 0).wait_time = 0 ∧
    ((run (solo q cap) 1).pcb 0).turn_time = q ∧
    ((run (solo q cap) 1).pcb 0).finished_at = q := by
  have hwf := solo_wf q cap hq hcap
  have hT := solo_total_ticks q cap hq
  have hN : (solo q cap).PROC_COUNT = 1 := rfl
  have h0 : 0 < (solo q cap).PROC_COUNT := by rw [hN]; exact Nat.one_pos
  have hdone := done_total_at_total hwf
  have hall := all_finished_at_total hwf
  rw [hT] at hdone hall
  have hfin := hall 0 h0
  obtain ⟨hb, hmode⟩ := inv_run hwf 1
  have hp := hb.pcbs 0 h0
  have hburst : ((run (solo q cap) 1).pcb 0).burst = q := hp.burst_eq
  obtain ⟨hm1, hm2, _⟩ := hp.fin_metrics hfin
  have hclock : (run (solo q cap) 1).clock_tick = q := by
    rw [hb.clock_eq, charged_total_of_all_finished hb hall]
    simp [solo]
  have hfa : ((run (solo q cap) 1).pcb 0).finished_at = q := by
    rcases hmode with ⟨a, ha, _, hst, _, _⟩ | ⟨a, ha, _, hf, _, _⟩ | ⟨_, hd | ⟨hz, _⟩, _⟩
    · rw [hall a ha] at hst
      cases hst
    · have : a = 0 := by
        rw [hN] at ha
        omega
      subst this
      rw [hf, hclock]
    · rw [hdone, hN] at hd
      norm_num at hd
    · rw [hN] at hz
      omega
  obtain ⟨_, _, _, hboot, _⟩ := boot_pcb hwf 0 h0
  obtain ⟨_, hfr, hresp⟩ := hboot rfl
  have hfrozen := first_run_frozen (c := solo q cap) 0 1 0 (by
    show ((boot (solo q cap)).pcb 0).first_run ≠ -1
    rw [hfr]
    omega)
  refine ⟨hN, boot_done_total _ hwf.2.2, ?_, hfin, hburst, ?_, ?_, ?_, hfa⟩
  · rw [hdone, hN]
    rfl
  · have := hfrozen.2
    rw [Nat.zero_add] at this
    rw [this]
    exact hresp
  · rw [hm2, hm1, hfa, hp.arrival_eq, hburst]
    ring
  · rw [hm1, hfa, hp.arrival_eq, sub_zero]

/-- C12, instance: one process of burst 3 with the shipped quantum 3 and
capacity 20. -/
theorem C12_single_process_one_tick_witness :
    (0 : Int) < 3 ∧ 1 ≤ 20 ∧
    (run (solo 3 20) 1).done_total = 1 ∧
    ((run (solo 3 20) 1).pcb 0).wait_time = 0 :=
  ⟨by decide, by decide, (C12_single_process_one_tick 3 20 (by decide) (by decide)).2.2.1,
    (C12_single_process_one_tick 3 20 (by decide) (by decide)).2.2.2.2.2.2.1⟩

theorem wrap_int_of_fits (x : Int) (h1 : -2147483648 ≤ x) (h2 : x ≤ 2147483647) :
    wrap_int x = x := by
  unfold wrap_int
  omega

/-- The 32-bit charge half agrees with `scheduler_charge` when none of its
five results leaves the range of an `int`. -/
theorem charge_int32_eq (c : Config) (s : State)
    (h : s.active_pid ≠ -1 →
      wrap_int ((getPCB s.proc_table s.active_pid).time_left
          - exec_amount c (getPCB s.proc_table s.active_pid))
        = (getPCB s.proc_table s.active_pid).time_left
          - exec_amount c (getPCB s.proc_table s.active_pid) ∧
      wrap_int (s.clock_tick + exec_amount c (getPCB s.proc_table s.active_pid))
        = s.clock_tick + exec_amount c (getPCB s.proc_table s.active_pid) ∧
      wrap_int (s.clock_tick + exec_amount c (getPCB s.proc_table s.active_pid)
          - (getPCB s.proc_table s.active_pid).arrival)
        = s.clock_tick + exec_amount c (getPCB s.proc_table s.active_pid)
          - (getPCB s.proc_table s.active_pid).arrival ∧
      wrap_int (s.clock_tick + exec_amount c (getPCB s.proc_table s.active_pid)
          - (getPCB s.proc_table s.active_pid).arrival
          - (getPCB s.proc_table s.active_pid).burst)
        = s.clock_tick + exec_amount c (getPCB s.proc_table s.active_pid)
          - (getPCB s.proc_table s.active_pid).arrival
          - (getPCB s.proc_table s.active_pid).burst ∧
      wrap_int (s.done_total + 1) = s.done_total + 1) :
    scheduler_charge_int32 c s = scheduler_charge c s := by
  unfold scheduler_charge_int32 scheduler_charge
  by_cases hact : s.active_pid = -1
  · simp [hact]
  · obtain ⟨h1, h2, h3, h4, h5⟩ := h hact
    simp only [ne_eq, hact, not_false_eq_true, if_true, State.print, h1, h2, h3, h4, h5]

/-- The 32-bit dispatch half agrees with `scheduler_dispatch` when the
response time it may compute stays in the range of an `int`. -/
theorem dispatch_int32_eq (c : Config) (s : State)
    (h : wrap_int (s.clock_tick - (getPCB s.proc_table (pop c s).1).arrival)
        = s.clock_tick - (getPCB s.proc_table (pop c s).1).arrival) :
    scheduler_dispatch_int32 c s = scheduler_dispatch c s := by
  have hclk : (pop c s).2.clock_tick = s.clock_tick := pop_clock_tick c s
  have htab : (pop c s).2.proc_table = s.proc_table := pop_proc_table c s
  unfold scheduler_dispatch_int32 scheduler_dispatch
  simp only [State.print, hclk, htab, h]

/-- With the base invariant the clock is at most the sum of the bursts. -/
theorem Base.clock_le {c : Config} {s : State} (hb : Base c s) :
    s.clock_tick ≤ c.bursts.sum := by
  rw [hb.clock_eq]
  unfold charged_total
  have h1 : (s.proc_table.map fun p => p.burst - p.time_left).sum
      ≤ (s.proc_table.map fun p => p.burst).sum := by
    apply sum_map_le_sum_map
    intro p hp
    obtain ⟨i, hi, rfl⟩ := List.getElem_of_mem hp
    have hi' : i < c.PROC_COUNT := by rw [← hb.table_len]; exact hi
    have := (hb.pcbs i hi').left_nonneg
    rw [State.pcb, getPCB_natCast, List.getD_eq_getElem _ _ hi] at this
    show (s.proc_table[i]).burst - (s.proc_table[i]).time_left ≤ (s.proc_table[i]).burst
    omega
  have h2 : (s.proc_table.map fun p => p.burst) = c.bursts := by
    apply List.ext_getElem
    · rw [List.length_map, hb.table_len]
      rfl
    · intro i h1 h2
      have hi : i < c.PROC_COUNT := h2
      have hlen : i < s.proc_table.length := by rw [hb.table_len]; exact hi
      have hbu := (hb.pcbs i hi).burst_eq
      rw [State.pcb, getPCB_natCast, List.getD_eq_getElem _ _ hlen,
        List.getD_eq_getElem _ _ h2] at hbu
      rw [List.getElem_map, hbu]
  rw [h2] at h1
  exact h1

/-- Each burst of a table of positive bursts is at most their sum. -/
theorem burst_le_sum {c : Config} (hwf : c.WF) (i : Nat) :
    c.bursts.getD i 0 ≤ c.bursts.sum := by
  have hnn : ∀ x ∈ c.bursts, (0 : Int) ≤ x := fun x hx => le_of_lt (hwf.1 x hx)
  by_cases hi : i < c.bursts.length
  · rw [List.getD_eq_getElem _ _ hi]
    exact List.single_le_sum hnn _ (List.getElem_mem _)
  · rw [List.getD_eq_default _ _ (not_lt.mp hi)]
    exact List.sum_nonneg hnn

/-- With the base invariant every cell that `getPCB` can return has arrival
time 0. -/
theorem Base.arrival_zero {c : Config} {s : State} (hb : Base c s) (x : Int) :
    (getPCB s.proc_table x).arrival = 0 := by
  cases x with
  | ofNat i =>
    by_cases hi : i < c.PROC_COUNT
    · exact (hb.pcbs i hi).arrival_eq
    · have hlen : s.proc_table.length ≤ i := by rw [hb.table_len]; exact not_lt.mp hi
      show (s.proc_table.getD i PCB.zero).arrival = 0
      rw [List.getD_eq_default _ _ hlen]
      rfl
  | negSucc i => rfl

/-- From a state of the invariant, one tick in 32-bit arithmetic is one tick
of `scheduler`, when the configuration fits in an `int`. -/
theorem scheduler_int32_eq {c : Config} {s : State} (hwf : c.WF) (hfit : c.FitsInt)
    (h : Inv c s) : scheduler_int32 c s = scheduler c s := by
  obtain ⟨hsum, hcount, -, -⟩ := hfit
  unfold INT_MAX at hsum hcount
  have hb1 : Base c (scheduler_charge c s) := (inv_charge hwf h).1
  have hnext : Base c (scheduler c s) := (inv_scheduler hwf h).1
  have hc0 := hnext.clock_nonneg
  have hc1 := hnext.clock_le
  rw [scheduler_clock_tick] at hc0 hc1
  have hcharge : scheduler_charge_int32 c s = scheduler_charge c s := by
    apply charge_int32_eq
    intro hact
    rw [if_pos hact] at hc0 hc1
    obtain ⟨hb, hmode⟩ := h
    have hpid : ∃ a, a < c.PROC_COUNT ∧ s.active_pid = (a : Int) ∧
        0 ≤ s.done_total ∧ s.done_total ≤ (c.PROC_COUNT : Int) := by
      rcases hmode with ⟨a, ha, hp, _, hd, _⟩ | ⟨a, ha, hp, _, hd, _⟩ | ⟨hp, _⟩
      · have := finished_count_le hb
        exact ⟨a, ha, hp, by omega, by omega⟩
      · exact ⟨a, ha, hp, by omega, by omega⟩
      · exact absurd hp hact
    obtain ⟨a, ha, hp, hd0, hd1⟩ := hpid
    have hinv := hb.pcbs a ha
    have hpcb : getPCB s.proc_table s.active_pid = s.pcb a := by rw [hp]; rfl
    rw [hpcb] at hc0 hc1 ⊢
    have hbs := burst_le_sum hwf a
    rw [← hinv.burst_eq] at hbs
    have harr := hinv.arrival_eq
    have hl0 := hinv.left_nonneg
    have hl1 := hinv.left_le
    have hslice := hwf.2.1
    have he0 : 0 ≤ exec_amount c (s.pcb a) := by
      unfold exec_amount
      split <;> omega
    have he1 : exec_amount c (s.pcb a) ≤ (s.pcb a).time_left := by
      unfold exec_amount
      split <;> omega
    refine ⟨?_, ?_, ?_, ?_, ?_⟩ <;> apply wrap_int_of_fits <;> omega
  have hdispatch : scheduler_dispatch_int32 c (scheduler_charge c s)
      = scheduler_dispatch c (scheduler_charge c s) := by
    apply dispatch_int32_eq
    rw [hb1.arrival_zero]
    have h0 := hb1.clock_nonneg
    have h1 := hb1.clock_le
    apply wrap_int_of_fits <;> omega
  unfold scheduler_int32 scheduler
  rw [hcharge, hdispatch]

/-- For a well-formed configuration that fits in an `int`, the run in 32-bit
arithmetic is the run in exact arithmetic: no computation of the tick handler
leaves the range of an `int`. -/
theorem run_int32_eq_run {c : Config} (hwf : c.WF) (hfit : c.FitsInt) (n : Nat) :
    run_int32 c n = run c n := by
  induction n with
  | zero => rfl
  | succ n ih =>
    show scheduler_int32 c (run_int32 c n) = scheduler c (run c n)
    rw [ih]
    exact scheduler_int32_eq hwf hfit (inv_run hwf n)

/-! ## Claims about clock-derived values, in 32-bit arithmetic

`clock_tick`, `finished_at`, `turn_time`, `wait_time`, `first_run` and
`resp_time` are C `int`s.  The claims about them are stated on `run_int32`,
for the configurations that fit in an `int`; on those `run_int32` is `run`
(`run_int32_eq_run`).  Beyond that bound the 32-bit values wrap, as the runs
of `overflowing` and `wrapping_to_unset` show. -/

/-- On the table `overflowing` (bursts `INT_MAX`, `INT_MAX`, 1 with quantum
`INT_MAX`) the second tick wraps the 32-bit clock to -2 where the exact clock
is 4294967294, and pid 1 finishes with `turn_time = -2` and
`wait_time = INT_MAX`, which is not `turn_time - burst`. -/
theorem overflowing_clock_wraps :
    overflowing.WF ∧ ¬ overflowing.FitsInt ∧
    (run overflowing 2).clock_tick = 4294967294 ∧
    (run_int32 overflowing 2).clock_tick = -2 ∧
    ((run_int32 overflowing 2).pcb 1).status = ProcState.FINISHED ∧
    ((run_int32 overflowing 2).pcb 1).finished_at = -2 ∧
    ((run_int32 overflowing 2).pcb 1).turn_time = -2 ∧
    ((run_int32 overflowing 2).pcb 1).wait_time = 2147483647 ∧
    ((run_int32 overflowing 2).pcb 1).wait_time ≠
      ((run_int32 overflowing 2).pcb 1).turn_time - ((run_int32 overflowing 2).pcb 1).burst := by
  decide

/-- On the table `wrapping_to_unset` the 32-bit clock is -1 when tick 4
dispatches pid 4 for the first time, so `first_run` keeps the value of the
unset mark; tick 6 dispatches pid 4 again and writes `first_run` and
`resp_time` a second time. -/
theorem wrapping_to_unset_rewrites_first_run :
    wrapping_to_unset.WF ∧ ¬ wrapping_to_unset.FitsInt ∧
    (run_int32 wrapping_to_unset 4).active_pid = 4 ∧
    (run_int32 wrapping_to_unset 4).clock_tick = -1 ∧
    ((run_int32 wrapping_to_unset 4).pcb 4).first_run = -1 ∧
    ((run_int32 wrapping_to_unset 4).pcb 4).resp_time = -1 ∧
    ((run_int32 wrapping_to_unset 5).pcb 4).status = ProcState.READY ∧
    (run_int32 wrapping_to_unset 6).active_pid = 4 ∧
    (run_int32 wrapping_to_unset 6).clock_tick = 1073741830 ∧
    ((run_int32 wrapping_to_unset 6).pcb 4).first_run = 1073741830 ∧
    ((run_int32 wrapping_to_unset 6).pcb 4).resp_time = 1073741830 := by
  decide

/-- C3: in every state of a run in 32-bit arithmetic, of a well-formed
configuration that fits in an `int`, every `FINISHED` PCB has
`turn_time = finished_at - arrival` and `wait_time = turn_time - burst`. -/
theorem C3_finished_metrics (c : Config) (hwf : c.WF) (hfit : c.FitsInt) (n i : Nat)
    (hi : i < c.PROC_COUNT)
    (hfin : ((run_int32 c n).pcb i).status = ProcState.FINISHED) :
    ((run_int32 c n).pcb i).turn_time
      = ((run_int32 c n).pcb i).finished_at - ((run_int32 c n).pcb i).arrival ∧
    ((run_int32 c n).pcb i).wait_time
      = ((run_int32 c n).pcb i).turn_time - ((run_int32 c n).pcb i).burst := by
  rw [run_int32_eq_run hwf hfit] at hfin ⊢
  exact finished_metrics_exact c hwf n i hi hfin

/-- C3, instance: pid 1 of the shipped run, finished after 7 ticks. -/
theorem C3_finished_metrics_witness :
    shipped.WF ∧ shipped.FitsInt ∧ 1 < shipped.PROC_COUNT ∧
    ((run_int32 shipped 7).pcb 1).status = ProcState.FINISHED ∧
    ((run_int32 shipped 7).pcb 1).turn_time
      = ((run_int32 shipped 7).pcb 1).finished_at - ((run_int32 shipped 7).pcb 1).arrival ∧
    ((run_int32 shipped 7).pcb 1).wait_time
      = ((run_int32 shipped 7).pcb 1).turn_time - ((run_int32 shipped 7).pcb 1).burst :=
  ⟨by decide, by decide, by decide, by decide,
    C3_finished_metrics shipped (by decide) (by decide) 7 1 (by decide) (by decide)⟩

/-- C4: in a run in 32-bit arithmetic of a well-formed configuration that
fits in an `int`, `first_run` and `resp_time` are written once.  In the boot
state the process dispatched by `main` has `first_run = clock_tick` and
`resp_time = first_run - arrival`, every other process has `first_run`
unset.  A `first_run` that is set is never changed by any later tick, and
neither is the `resp_time` next to it.  A tick finds `first_run` unset only
on a process that has never been `RUNNING`; it sets it exactly when it makes
that process `RUNNING`, to `clock_tick`, together with
`resp_time = first_run - arrival`, and the value differs from the unset
mark. -/
theorem C4_first_run_written_once (c : Config) (hwf : c.WF) (hfit : c.FitsInt) (n i : Nat)
    (hi : i < c.PROC_COUNT) :
    (((run_int32 c 0).pcb i).status = ProcState.RUNNING →
      ((run_int32 c 0).pcb i).first_run = (run_int32 c 0).clock_tick ∧
      ((run_int32 c 0).pcb i).resp_time
        = ((run_int32 c 0).pcb i).first_run - ((run_int32 c 0).pcb i).arrival) ∧
    (((run_int32 c 0).pcb i).status ≠ ProcState.RUNNING →
      ((run_int32 c 0).pcb i).first_run = -1) ∧
    (((run_int32 c n).pcb i).first_run ≠ -1 → ∀ k,
      ((run_int32 c (n + k)).pcb i).first_run = ((run_int32 c n).pcb i).first_run ∧
      ((run_int32 c (n + k)).pcb i).resp_time = ((run_int32 c n).pcb i).resp_time) ∧
    (((run_int32 c n).pcb i).first_run = -1 →
      (∀ m, m ≤ n → ((run_int32 c m).pcb i).status ≠ ProcState.RUNNING) ∧
      (((run_int32 c (n + 1)).pcb i).status = ProcState.RUNNING →
        ((run_int32 c (n + 1)).pcb i).first_run = (run_int32 c (n + 1)).clock_tick ∧
        ((run_int32 c (n + 1)).pcb i).resp_time =
          ((run_int32 c (n + 1)).pcb i).first_run - ((run_int32 c (n + 1)).pcb i).arrival ∧
        ((run_int32 c (n + 1)).pcb i).first_run ≠ -1) ∧
      (((run_int32 c (n + 1)).pcb i).status ≠ ProcState.RUNNING →
        ((run_int32 c (n + 1)).pcb i).first_run = -1 ∧
        ((run_int32 c (n + 1)).pcb i).resp_time = ((run_int32 c n).pcb i).resp_time)) := by
  simp only [run_int32_eq_run hwf hfit]
  exact first_run_written_once_exact c hwf n i hi

/-- C4, instance: pid 1 of the shipped run, first dispatched by tick 1. -/
theorem C4_first_run_written_once_witness :
    shipped.WF ∧ shipped.FitsInt ∧ 1 < shipped.PROC_COUNT ∧
    ((run_int32 shipped 1).pcb 1).first_run ≠ -1 ∧
    (∀ k,
      ((run_int32 shipped (1 + k)).pcb 1).first_run = ((run_int32 shipped 1).pcb 1).first_run ∧
      ((run_int32 shipped (1 + k)).pcb 1).resp_time
        = ((run_int32 shipped 1).pcb 1).resp_time) :=
  ⟨by decide, by decide, by decide, by decide,
    (C4_first_run_written_once shipped (by decide) (by decide) 1 1 (by decide)).2.2.1
      (by decide)⟩

/-- C8: in every state of a run in 32-bit arithmetic, of a well-formed
configuration that fits in an `int`, `clock_tick` is the total time charged
so far, the sum over the table of `burst - time_left`.  When `done_total`
equals `PROC_COUNT` every process is finished, `clock_tick` is the sum of all
bursts, no `finished_at` exceeds it, and the process that completed last,
which `active_pid` still names, has `finished_at = clock_tick`. -/
theorem C8_clock_is_total_charged (c : Config) (hwf : c.WF) (hfit : c.FitsInt) (n : Nat) :
    (run_int32 c n).clock_tick = charged_total (run_int32 c n) ∧
    ((run_int32 c n).done_total = (c.PROC_COUNT : Int) →
      (run_int32 c n).clock_tick = c.bursts.sum ∧
      (∀ i, i < c.PROC_COUNT → ((run_int32 c n).pcb i).status = ProcState.FINISHED ∧
        ((run_int32 c n).pcb i).finished_at ≤ (run_int32 c n).clock_tick) ∧
      (0 < c.PROC_COUNT → ∃ a, a < c.PROC_COUNT ∧ (run_int32 c n).active_pid = (a : Int) ∧
        ((run_int32 c n).pcb a).finished_at = (run_int32 c n).clock_tick)) := by
  rw [run_int32_eq_run hwf hfit]
  exact clock_is_total_charged_exact c hwf n

/-- C8, instance: the shipped run after 15 ticks, where the clock is 40, the
sum of the bursts. -/
theorem C8_clock_is_total_charged_witness :
    shipped.WF ∧ shipped.FitsInt ∧
    (run_int32 shipped 15).done_total = (shipped.PROC_COUNT : Int) ∧
    shipped.bursts.sum = 40 ∧
    (run_int32 shipped 15).clock_tick = shipped.bursts.sum ∧
    (∃ a, a < shipped.PROC_COUNT ∧ (run_int32 shipped 15).active_pid = (a : Int) ∧
      ((run_int32 shipped 15).pcb a).finished_at = (run_int32 shipped 15).clock_tick) :=
  ⟨by decide, by decide, by decide, by decide,
    ((C8_clock_is_total_charged shipped (by decide) (by decide) 15).2 (by decide)).1,
    ((C8_clock_is_total_charged shipped (by decide) (by decide) 15).2 (by decide)).2.2
      (by decide)⟩

end AOL
